import Mathlib

/- Verification development for the node_arranger layout engine.

   Shallow embedding of the crossing-minimization and vertical-placement code in
   src/source/arrange/ordering.py, src/source/arrange/sugiyama.py and
   src/source/arrange/placement/linear_segments.py.  Machine integers do not
   occur (Python ints are unbounded), so numbers are Nat / Int / Rat.  Python
   loops that are not structurally recursive are modelled with explicit fuel;
   fuel exhaustion returns `none` and models non-termination / recursion errors.

   Layout of the file: all definitions first, then all theorems. -/

namespace NodeArranger

/-- A socket as used by the ordering engine: the owning node's id and the socket
index (`Socket.owner` / `Socket.idx` in `graph.py`). -/
structure Socket where
  owner : ℕ
  idx : ℕ
deriving DecidableEq, Repr

/-! Embedding of `calc_socket_ranks` (ordering.py lines 134-143). -/

/-- Inner loop of `calc_socket_ranks`: starting from the node's 1-based column
position, repeatedly execute `rank += incr` and record the rank of each socket,
in the given socket order. -/
def socket_rank_loop (incr : ℚ) : ℚ → List Socket → List (Socket × ℚ)
  | _, [] => []
  | rank, s :: rest => (s, rank + incr) :: socket_rank_loop incr (rank + incr) rest

/-- Per fixed node body of `calc_socket_ranks` (ordering.py:134-143):
`incr = 1/(len(sockets)+1)`, `rank = v.col.index(v) + 1`, negated increment on
forward passes.  `colIndex` is the 0-based `v.col.index(v)`. -/
def calc_socket_ranks_node (forwards : Bool) (colIndex : ℕ) (sockets : List Socket) :
    List (Socket × ℚ) :=
  let incr0 : ℚ := 1 / (sockets.length + 1)
  let incr : ℚ := if forwards then -incr0 else incr0
  socket_rank_loop incr (colIndex + 1) sockets

/-- Socket order handed to `calc_socket_ranks`: `crossing_reduction_data`
(ordering.py:93) sorts a node's fixed sockets by index,
`reverse=not backwards`.  Python's sort is stable and `reverse=True` keeps
equal elements in original order, which `mergeSort` with the flipped
comparison also does. -/
def fixed_sockets_sorted (backwards : Bool) (sockets : List Socket) : List Socket :=
  if backwards then sockets.mergeSort (fun a b => decide (a.idx ≤ b.idx))
  else sockets.mergeSort (fun a b => decide (b.idx ≤ a.idx))

/-- Socket ranks of one fixed node for a whole pass: a forward pass builds its
data with `backwards = False` and calls `calc_socket_ranks` with
`forwards = True`, a backward pass the other way round, so the sort flag is
always the negation of `forwards`. -/
def pass_socket_ranks (forwards : Bool) (colIndex : ℕ) (sockets : List Socket) :
    List (Socket × ℚ) :=
  calc_socket_ranks_node forwards colIndex (fixed_sockets_sorted (!forwards) sockets)

/-! Embedding of `calc_barycenters` (ordering.py lines 146-155). -/

/-- `_RANDOM_AMOUNT = 0.07` (ordering.py:131). -/
def RANDOM_AMOUNT : ℚ := 7 / 100

/-- Body of `calc_barycenters` for one free element (ordering.py:146-155).
`u` is the value produced by `uniform(0, 1)`.  An element without sockets is
skipped (`continue`), modelled as `none`; otherwise the perturbation is added
to the SUM of the socket ranks and the total is divided by the socket count. -/
def calc_barycenter_elem (socket_ranks : Socket → ℚ) (u : ℚ) (sockets : List Socket) :
    Option ℚ :=
  if sockets.isEmpty then none
  else
    let weight := (sockets.map socket_ranks).sum + (u * RANDOM_AMOUNT - RANDOM_AMOUNT / 2)
    some (weight / sockets.length)

/-- Modelled from the spec: "Each free element's value is the mean of its
incident fixed-socket ranks plus a small symmetric random perturbation
(uniform, magnitude ≈0.07, centered at zero)" (§4.4), read literally: the
perturbation `u*0.07 - 0.035` of magnitude 0.07 is applied to the mean itself. -/
def spec_barycenter_elem (socket_ranks : Socket → ℚ) (u : ℚ) (sockets : List Socket) :
    Option ℚ :=
  if sockets.isEmpty then none
  else some ((sockets.map socket_ranks).sum / sockets.length
    + (u * RANDOM_AMOUNT - RANDOM_AMOUNT / 2))

/-! Embedding of `get_nesting_relations` / `ClusterGraph.__init__`
(sugiyama.py lines 58-61 and 106-115). -/

/-- The generator `get_nesting_relations` (sugiyama.py:58-61): walk the
`v.cluster` parent pointers upward, yielding `(cluster, child)` pairs.  Python's
unbounded recursion is modelled with fuel; `none` models the recursion never
bottoming out (a RecursionError on a cyclic, i.e. non-forest, parent relation). -/
def get_nesting_relations (parent : ℕ → Option ℕ) : ℕ → ℕ → Option (List (ℕ × ℕ))
  | 0, _ => none
  | fuel + 1, v =>
    match parent v with
    | none => some []
    | some c => (get_nesting_relations parent fuel c).map (fun rest => (c, v) :: rest)

/-- `ClusterGraph.__init__` (sugiyama.py:112-115): the nesting tree `T` is built
from the chained nesting relations of all graph nodes.  No validation of the
input is performed before or during this construction. -/
def clusterGraph_init_T (parent : ℕ → Option ℕ) (fuel : ℕ) (nodes : List ℕ) :
    Option (List (ℕ × ℕ)) :=
  nodes.foldl (fun acc v => do
    let l ← acc
    let r ← get_nesting_relations parent fuel v
    pure (l ++ r)) (some [])

/-- A malformed input: the cluster containment relation with `0` its own parent
(a cycle, hence not a forest). -/
def cyclic_parent : ℕ → Option ℕ := fun _ => some 0

/-! Embedding of `find_violated_constraint` / `handle_constraints`
(ordering.py lines 175-228).  Constraint-graph elements (free nodes, clusters
and synthetic merge nodes) are natural-number ids.  A `networkx.DiGraph` is a
node list and an edge list, both in insertion order, which is how networkx
iterates them. -/

structure Digraph where
  nodes : List ℕ
  edges : List (ℕ × ℕ)
deriving DecidableEq, Repr

def Digraph.addNode (g : Digraph) (v : ℕ) : Digraph :=
  if v ∈ g.nodes then g else { g with nodes := g.nodes ++ [v] }

/-- `G.add_edge(u, v)`: adds missing endpoints as nodes, ignores a duplicate
edge. -/
def Digraph.addEdge (g : Digraph) (u v : ℕ) : Digraph :=
  let g1 := (g.addNode u).addNode v
  if (u, v) ∈ g1.edges then g1 else { g1 with edges := g1.edges ++ [(u, v)] }

def Digraph.addEdgesFrom (g : Digraph) (es : List (ℕ × ℕ)) : Digraph :=
  es.foldl (fun g e => g.addEdge e.1 e.2) g

/-- `G[v]`: successors of `v`, in edge-insertion order. -/
def Digraph.succ (g : Digraph) (v : ℕ) : List ℕ :=
  (g.edges.filter (fun e => decide (e.1 = v))).map (fun e => e.2)

/-- `G.pred[v]`: predecessors of `v`, in edge-insertion order. -/
def Digraph.pred (g : Digraph) (v : ℕ) : List ℕ :=
  (g.edges.filter (fun e => decide (e.2 = v))).map (fun e => e.1)

def Digraph.inDegree (g : Digraph) (v : ℕ) : ℕ := (g.pred v).length

/-- `G.remove_nodes_from(vs)`: drops the nodes and all incident edges. -/
def Digraph.removeNodes (g : Digraph) (vs : List ℕ) : Digraph :=
  { nodes := g.nodes.filter (fun v => decide (v ∉ vs))
    edges := g.edges.filter (fun e => decide (e.1 ∉ vs ∧ e.2 ∉ vs)) }

def Digraph.removeEdge (g : Digraph) (u v : ℕ) : Digraph :=
  { g with edges := g.edges.filter (fun e => decide (e ≠ (u, v))) }

/-- Worklist loop of `find_violated_constraint` (ordering.py:175-190).  `inc`
is `incoming_constraints` (a `defaultdict(list)` with `insert(0, ...)`
prepends), `active` is processed FIFO via `pop(0)`.  The Python loop always
terminates - each node is activated at most once - so the fuel argument is
just an upper bound on the number of pops; the outer `none` reports fuel
exhaustion and is never produced for the fuel used by
`find_violated_constraint` (proved below).
The loop body `inc_step` (ordering.py:185-188) records the constraint `(v, t)`
in `incoming_constraints[t]` (prepended, `insert(0, ...)`) and appends `t` to
`active` once all of its incoming constraints are known. -/
def inc_step (g : Digraph) (v : ℕ) (p : (ℕ → List (ℕ × ℕ)) × List ℕ) (t : ℕ) :
    (ℕ → List (ℕ × ℕ)) × List ℕ :=
  let l := (v, t) :: p.1 t
  (fun x => if x = t then l else p.1 x,
    if l.length = g.inDegree t then p.2 ++ [t] else p.2)

def find_violated_aux (g : Digraph) (bary : ℕ → ℚ) :
    ℕ → List ℕ → (ℕ → List (ℕ × ℕ)) → Option (Option (ℕ × ℕ))
  | 0, _, _ => none
  | _ + 1, [], _ => some none
  | fuel + 1, v :: active, inc =>
    match (inc v).find? (fun c => decide (bary v ≤ bary c.1)) with
    | some c => some (some c)
    | none =>
      let st := (g.succ v).foldl (inc_step g v) (inc, active)
      find_violated_aux g bary fuel st.2 st.1

/-- `find_violated_constraint` (ordering.py:175-190): the initial worklist is
the nodes with successors and no predecessors; a result `some (some c)` is the
first violated constraint `c` (predecessor barycenter >= successor
barycenter), `some none` means no violation. -/
def find_violated_constraint (g : Digraph) (bary : ℕ → ℚ) : Option (Option (ℕ × ℕ)) :=
  find_violated_aux g bary (g.nodes.length + g.edges.length + 1)
    (g.nodes.filter (fun v => !(g.succ v).isEmpty && (g.pred v).isEmpty))
    (fun _ => [])

/-- State of the `handle_constraints` merge loop: the constraint graph, the
barycenters, the membership lists `L`, the degree map `deg`, the
`unconstrained` set (kept in insertion order) and the supply of fresh ids for
synthetic `GNode(type=GNodeType.DUMMY)` merge nodes. -/
structure HCState where
  gc : Digraph
  bary : ℕ → ℚ
  L : ℕ → List ℕ
  deg : ℕ → ℕ
  unconstrained : List ℕ
  fresh : ℕ

/-- One iteration of the `while c := find_violated_constraint(GC)` body
(ordering.py:203-224): merge the violated constraint's endpoints `s, t` into a
fresh synthetic node whose barycenter is the degree-weighted average, whose
membership is `L[s] ++ L[t]`; rewire the PREDECESSOR constraint edges of `s`
and `t` to the merged node, then remove `s` and `t` (this also drops their
outgoing constraint edges), drop a self loop, and record the merged node as
unconstrained when it ended up with no constraint edges. -/
def merge_step (st : HCState) (c : ℕ × ℕ) : HCState :=
  let s := c.1
  let t := c.2
  let vc := st.fresh
  let dvc := st.deg s + st.deg t
  let b : ℚ :=
    if 0 < dvc then (st.bary s * st.deg s + st.bary t * st.deg t) / dvc
    else (st.bary s + st.bary t) / 2
  let gc1 := (st.gc.pred s ++ st.gc.pred t).foldl (fun g u => g.addEdge u vc) st.gc
  let gc2 := (gc1.removeNodes [s, t]).removeEdge vc vc
  { gc := gc2
    bary := fun x => if x = vc then b else st.bary x
    L := fun x => if x = vc then st.L s ++ st.L t else st.L x
    deg := fun x => if x = vc then dvc else st.deg x
    unconstrained := if vc ∈ gc2.nodes then st.unconstrained else st.unconstrained ++ [vc]
    fresh := st.fresh + 1 }

/-- The `while` loop of `handle_constraints`: merge violated constraints until
none remains.  `fuel` bounds the number of merges; `none` is fuel exhaustion
(or worklist-fuel exhaustion inside `find_violated_constraint`). -/
def resolve_loop : HCState → ℕ → Option HCState
  | st, fuel =>
    match find_violated_constraint st.gc st.bary with
    | none => none
    | some none => some st
    | some (some c) =>
      match fuel with
      | 0 => none
      | f + 1 => resolve_loop (merge_step st c) f

/-- The initial state of `handle_constraints` (ordering.py:195-202): the
constraint graph from consecutive pairs of the constrained-cluster chain,
`unconstrained = set(free_col) - GC.nodes`, singleton membership lists, the
contracted-graph degrees, and fresh ids above every existing id. -/
def hc_init_state (free_col : List ℕ) (constrained : List ℕ)
    (deg0 : ℕ → ℕ) (bary0 : ℕ → ℚ) : HCState :=
  let gc0 := Digraph.addEdgesFrom ⟨[], []⟩ (constrained.zip constrained.tail)
  { gc := gc0
    bary := bary0
    L := fun v => [v]
    deg := deg0
    unconstrained := free_col.filter (fun v => decide (v ∉ gc0.nodes))
    fresh := (free_col.foldl max 0) + 1 }

/-- `handle_constraints` (ordering.py:193-228).  After the merge loop, the
groups (unconstrained elements plus remaining constraint-graph nodes) are
sorted by barycenter, expanded through `L`, and every member's barycenter is
overwritten by its position in the expanded order (`enumerate`).  Returns the
final barycenter assignment and the expanded order. -/
def handle_constraints (free_col : List ℕ) (constrained : List ℕ)
    (deg0 : ℕ → ℕ) (bary0 : ℕ → ℚ) (mergeFuel : ℕ) :
    Option ((ℕ → ℚ) × List ℕ) :=
  (resolve_loop (hc_init_state free_col constrained deg0 bary0) mergeFuel).map
    (fun st =>
      let groups := (st.unconstrained ++ st.gc.nodes).mergeSort
        (fun a b => decide (st.bary a ≤ st.bary b))
      let order := (groups.map st.L).flatten
      (order.enum.foldl (fun f p => fun x => if x = p.2 then (p.1 : ℚ) else f x) st.bary,
        order))

/-- Well-formedness of a constraint-graph state: distinct nodes, edges between
distinct present nodes, and the fresh-id supply above every node id. -/
def HCwf (st : HCState) : Prop :=
  st.gc.nodes.Nodup
    ∧ (∀ e ∈ st.gc.edges, e.1 ∈ st.gc.nodes ∧ e.2 ∈ st.gc.nodes ∧ e.1 ≠ e.2)
    ∧ (∀ v ∈ st.gc.nodes, v < st.fresh)

/-- Worklist measure for `find_violated_aux`: pending pops plus pending
in-edge notifications; it strictly decreases at every pop. -/
def incMeasure (g : Digraph) (active : List ℕ) (inc : ℕ → List (ℕ × ℕ)) : ℕ :=
  active.length + (g.nodes.map (fun t => g.inDegree t - (inc t).length)).sum

/-! Embedding of the balance-placement engine
(placement/linear_segments.py lines 160-276).  Segments and nodes are
natural-number ids; socket y-offsets are baked into the edges.  `Option ℚ`
models the `math.inf` initial value of `prev_total_deflection`
(`none` = infinity). -/

/-- Constants of linear_segments.py:160-164. -/
def DEFLECTION_DAMPENING : ℚ := 1 / 10

def BALANCE_ITERS : ℕ := 10

def PENDULUM_ITERS : ℤ := 4

def FINAL_ITERS : ℕ := 3

def THRESH_FAC : ℚ := 20

/-- `Mode` (linear_segments.py:57-60). -/
inductive Mode where
  | FORW_PENDULUM
  | BACKW_PENDULUM
  | RUBBER
deriving DecidableEq, Repr

/-- A graph edge as used by `calc_deflection`: source and target node ids and
the y-offsets of the two sockets. -/
structure BEdge where
  src : ℕ
  dst : ℕ
  sy : ℚ
  ty : ℚ
deriving DecidableEq, Repr

/-- The immutable inputs of `balance_placement`: the graph edges, the segment
arena (ids, node lists, each node's segment), the columns, node heights,
cluster data and the vertical margin. -/
structure BalanceInput where
  edges : List BEdge
  segments : List ℕ
  segNodes : ℕ → List ℕ
  nodeSeg : ℕ → ℕ
  columns : List (List ℕ)
  height : ℕ → ℚ
  nodeCluster : ℕ → ℕ
  clusterHasNode : ℕ → Bool
  marginY : ℚ

/-- The mutable per-iteration state: node y positions and per-segment
deflection / weight / region back-reference. -/
structure BalanceState where
  y : ℕ → ℚ
  deflection : ℕ → ℚ
  weight : ℕ → ℕ
  ref : ℕ → Option ℕ

/-- `Segment.region` (linear_segments.py:49-54): follow `ref_segment` chains to
the representative.  The chains built by `merge_regions` are finite, so the
fuel is just a bound on the chain length. -/
def region (st : BalanceState) : ℕ → ℕ → ℕ
  | 0, s => s
  | fuel + 1, s =>
    match st.ref s with
    | none => s
    | some r => region st fuel r

/-- `get_out_edges` (linear_segments.py:167-172): out-edges leaving the
node's segment. -/
def get_out_edges (inp : BalanceInput) (v : ℕ) : List BEdge :=
  inp.edges.filter (fun e => decide (e.src = v) && decide (inp.nodeSeg e.dst ≠ inp.nodeSeg v))

/-- `get_in_edges` (linear_segments.py:175-180): in-edges entering the
node's segment. -/
def get_in_edges (inp : BalanceInput) (v : ℕ) : List BEdge :=
  inp.edges.filter (fun e => decide (e.dst = v) && decide (inp.nodeSeg e.src ≠ inp.nodeSeg v))

/-- The per-node accumulation of `calc_deflection` (linear_segments.py:186-198):
`(node_deflection, edge_weight_sum)` over the mode's applicable edges. -/
def node_deflection_pair (inp : BalanceInput) (st : BalanceState) (mode : Mode) (v : ℕ) :
    ℚ × ℕ :=
  let p1 : ℚ × ℕ :=
    if mode ≠ Mode.FORW_PENDULUM then
      (get_out_edges inp v).foldl
        (fun q e => (q.1 + (st.y e.dst + e.ty - (st.y v + e.sy)), q.2 + 1)) (0, 0)
    else (0, 0)
  if mode ≠ Mode.BACKW_PENDULUM then
    (get_in_edges inp v).foldl
      (fun q e => (q.1 + (st.y e.src + e.sy - (st.y v + e.ty)), q.2 + 1)) p1
  else p1

/-- `calc_deflection` (linear_segments.py:183-205): damped average displacement
of the segment, and its node weight. -/
def calc_deflection (inp : BalanceInput) (st : BalanceState) (seg : ℕ) (mode : Mode) :
    BalanceState :=
  let acc := (inp.segNodes seg).foldl (fun (p : ℚ × ℕ) v =>
    let nd := node_deflection_pair inp st mode v
    if 0 < nd.2 then (p.1 + nd.1 / nd.2, p.2 + 1) else p) ((0 : ℚ), (0 : ℕ))
  { st with
    deflection := fun x => if x = seg then
        (if 0 < acc.2 then DEFLECTION_DAMPENING * acc.1 / acc.2 else 0)
      else st.deflection x
    weight := fun x => if x = seg then acc.2 else st.weight x }

/-- The first loop of each `balance_placement` iteration
(linear_segments.py:247-251): reset every segment's region reference and
recompute its deflection. -/
def calc_all_deflections (inp : BalanceInput) (mode : Mode) (st0 : BalanceState) :
    BalanceState :=
  inp.segments.foldl (fun st seg =>
    let st1 := { st with ref := fun x => if x = seg then none else st.ref x }
    calc_deflection inp st1 seg mode) st0

/-- `total_deflection += abs(segment.deflection)` accumulated over the
segments. -/
def total_abs_deflection (segs : List ℕ) (st : BalanceState) : ℚ :=
  (segs.map (fun s => |st.deflection s|)).sum

/-- The pair loop of `merge_regions` (linear_segments.py:214-233), carrying
`(state, changed, prev_region)`. -/
def merge_regions_pairs (inp : BalanceInput) (rfuel : ℕ) :
    BalanceState × Bool × ℕ → List (ℕ × ℕ) → BalanceState × Bool × ℕ
  | acc, [] => acc
  | (st, changed, prevRegion), (v, w) :: rest =>
    let r1 := prevRegion
    let r2 := region st rfuel (inp.nodeSeg w)
    let wsum := st.weight r1 + st.weight r2
    if wsum = 0 ∨ r1 = r2 then
      merge_regions_pairs inp rfuel (st, changed, r2) rest
    else if ((inp.clusterHasNode (inp.nodeCluster v)) = false
          ∨ inp.nodeCluster v ≠ inp.nodeCluster w)
        ∧ st.y w + st.deflection r2
            ≤ st.y v + st.deflection r1 - inp.height v - inp.marginY then
      merge_regions_pairs inp rfuel (st, changed, r2) rest
    else
      let newDefl := ((st.weight r2 : ℚ) * st.deflection r2
        + (st.weight r1 : ℚ) * st.deflection r1) / (wsum : ℚ)
      let st2 : BalanceState := { st with
        deflection := fun x => if x = r2 then newDefl else st.deflection x
        weight := fun x => if x = r2 then wsum else st.weight x
        ref := fun x => if x = r1 then some r2 else st.ref x }
      merge_regions_pairs inp rfuel (st2, true, r2) rest

/-- The column loop of `merge_regions` (linear_segments.py:211-233).  Python
reads `col[0]`, so an empty column is an IndexError, modelled as `none`. -/
def merge_regions_cols (inp : BalanceInput) (rfuel : ℕ) :
    BalanceState × Bool → List (List ℕ) → Option (BalanceState × Bool)
  | acc, [] => some acc
  | (st, changed), col :: cols =>
    match col with
    | [] => none
    | c0 :: _ =>
      let prev := region st rfuel (inp.nodeSeg c0)
      let res := merge_regions_pairs inp rfuel (st, changed, prev) (col.zip col.tail)
      merge_regions_cols inp rfuel (res.1, res.2.1) cols

/-- The `while True ... if not changed: break` loop of `merge_regions`
(linear_segments.py:209-236). -/
def merge_regions_loop (inp : BalanceInput) (rfuel : ℕ) :
    ℕ → BalanceState → Option BalanceState
  | 0, _ => none
  | fuel + 1, st =>
    match merge_regions_cols inp rfuel (st, false) inp.columns with
    | none => none
    | some (st2, changed) =>
      if changed then merge_regions_loop inp rfuel fuel st2 else some st2

/-- Applying the resolved region deflections (linear_segments.py:255-258). -/
def apply_deflections (inp : BalanceInput) (rfuel : ℕ) (st : BalanceState) :
    BalanceState :=
  inp.segments.foldl (fun st2 seg =>
    let d := st2.deflection (region st2 rfuel seg)
    (inp.segNodes seg).foldl
      (fun st3 v => { st3 with y := fun x => if x = v then st3.y x + d else st3.y x })
      st2) st

/-- `total < prev` against a possibly infinite previous total. -/
def lt_inf (total : ℚ) : Option ℚ → Bool
  | none => true
  | some b => decide (total < b)

/-- `total >= prev` against a possibly infinite previous total. -/
def ge_inf (total : ℚ) : Option ℚ → Bool
  | none => false
  | some b => decide (b ≤ total)

/-- `prev - total < thresh` against a possibly infinite previous total
(infinity minus a rational is infinity). -/
def sub_lt_inf (prev : Option ℚ) (total thresh : ℚ) : Bool :=
  match prev with
  | none => false
  | some b => decide (b - total < thresh)

/-- The full loop state of `balance_placement` (linear_segments.py:239-246). -/
structure BPState where
  bst : BalanceState
  mode : Mode
  pendulum_iters : ℤ
  final_iters : ℕ
  prev_total : Option ℚ
  ready : Bool

/-- One iteration of the `while True` loop of `balance_placement`
(linear_segments.py:246-276).  Returns the updated state and whether the
`if ready and final_iters > 0: break` at the end of the iteration fires. -/
def balance_step (inp : BalanceInput) (rfuel mfuel : ℕ) (s : BPState) :
    Option (BPState × Bool) :=
  let st1 := calc_all_deflections inp s.mode s.bst
  let total := total_abs_deflection inp.segments st1
  match merge_regions_loop inp rfuel mfuel st1 with
  | none => none
  | some st2 =>
    let st3 := apply_deflections inp rfuel st2
    if s.mode = Mode.FORW_PENDULUM ∨ s.mode = Mode.BACKW_PENDULUM then
      let p := s.pendulum_iters - 1
      let s2 :=
        if p ≤ 0 ∧ (lt_inf total s.prev_total = true ∨ (BALANCE_ITERS : ℤ) < -p) then
          { bst := st3, mode := Mode.RUBBER, pendulum_iters := p,
            final_iters := s.final_iters, prev_total := none, ready := s.ready }
        else
          { bst := st3,
            mode := if s.mode = Mode.FORW_PENDULUM then Mode.BACKW_PENDULUM
              else Mode.FORW_PENDULUM,
            pendulum_iters := p, final_iters := s.final_iters,
            prev_total := some total, ready := s.ready }
      some (s2, s2.ready && decide (0 < s2.final_iters))
    else
      let rd := ge_inf total s.prev_total
        || sub_lt_inf s.prev_total total (THRESH_FAC / (BALANCE_ITERS : ℚ))
      let f2 := if rd then s.final_iters - 1 else s.final_iters
      let s2 : BPState :=
        { bst := st3, mode := s.mode, pendulum_iters := s.pendulum_iters,
          final_iters := f2, prev_total := some total, ready := rd }
      some (s2, s2.ready && decide (0 < s2.final_iters))

/-- The `while True` loop of `balance_placement`; `none` on fuel exhaustion. -/
def balance_loop (inp : BalanceInput) (rfuel mfuel : ℕ) : ℕ → BPState → Option BPState
  | 0, _ => none
  | fuel + 1, s =>
    match balance_step inp rfuel mfuel s with
    | none => none
    | some (s2, brk) => if brk then some s2 else balance_loop inp rfuel mfuel fuel s2

/-- `balance_placement` (linear_segments.py:239-276): run the loop from the
initial mode/counter state on the given unbalanced y-placement. -/
def balance_placement (inp : BalanceInput) (rfuel mfuel lfuel : ℕ) (y0 : ℕ → ℚ) :
    Option BPState :=
  let bst0 : BalanceState :=
    { y := y0, deflection := (fun _ => 0), weight := (fun _ => 0), ref := (fun _ => none) }
  balance_loop inp rfuel mfuel lfuel
    { bst := bst0, mode := Mode.FORW_PENDULUM, pendulum_iters := PENDULUM_ITERS,
      final_iters := FINAL_ITERS, prev_total := none, ready := false }

/-- The C9 scenario: a single one-node segment with no edges, one column; every
deflection is 0, so the first rubber iteration after the warm-up already
satisfies the stabilization condition. -/
def c9_input : BalanceInput :=
  { edges := [], segments := [0], segNodes := fun _ => [0], nodeSeg := fun _ => 0,
    columns := [[0]], height := fun _ => 0, nodeCluster := fun _ => 0,
    clusterHasNode := fun _ => false, marginY := 0 }

/-! Embedding of `get_cross_count` (ordering.py lines 231-273) and the
brute-force pairwise reference counter of spec §8 (C1).  A weighted bipartite
edge is `(north socket, south socket, weight)`; `pos` is the position function
of ordering.py:239-241 (barycenter of a free owner, column index of a fixed
owner), supplied as an argument. -/

/-- The `first_idx` computation (ordering.py:252-254): double from 1 while
below `len(H.S)`.  Doubling reaches `n` within `n` steps, so `n` is enough
fuel. -/
def first_pow2_loop (n : ℕ) : ℕ → ℕ → ℕ
  | 0, acc => acc
  | fuel + 1, acc => if acc < n then first_pow2_loop n fuel (acc * 2) else acc

def first_pow2 (n : ℕ) : ℕ := first_pow2_loop n n 1

/-- Pointwise increment of a map at one position (a Python `xs[m] += w`). -/
def bump (g : ℕ → ℕ) (m w : ℕ) : ℕ → ℕ := fun j => if j = m then g j + w else g j

/-- The `while idx > 0` walk of the Fenwick sweep (ordering.py:264-269): at an
odd index collect the right sibling's subtree weight, then step to the parent
and add the edge weight there.  The index strictly decreases, so `idx` itself
bounds the number of steps; the binary indexed tree (a Python list of
`2 * first_idx - 1` zeros whose accessed indices all stay in range) is
modelled as a total map. -/
def sweep_loop (weight : ℕ) : ℕ → (ℕ → ℕ) → ℕ → ℕ → (ℕ → ℕ) × ℕ
  | 0, tree, _, wsum => (tree, wsum)
  | fuel + 1, tree, idx, wsum =>
    if 0 < idx then
      let wsum2 := if idx % 2 = 1 then wsum + tree (idx + 1) else wsum
      let idx2 := (idx - 1) / 2
      let tree2 := fun j => if j = idx2 then tree j + weight else tree j
      sweep_loop weight fuel tree2 idx2 wsum2
    else (tree, wsum)

/-- The per-edge body of the Fenwick sweep (ordering.py:260-271): add the
weight at the edge's south leaf, walk to the root, and account
`weight * weight_sum`. -/
def process_edge (firstIdx : ℕ) (acc : (ℕ → ℕ) × ℕ) (sIdx weight : ℕ) :
    (ℕ → ℕ) × ℕ :=
  let idx := sIdx + firstIdx
  let tree1 := fun j => if j = idx then acc.1 j + weight else acc.1 j
  let res := sweep_loop weight idx tree1 idx 0
  (res.1, acc.2 + weight * res.2)

/-- `get_cross_count` (ordering.py:231-273): sort both sides by position, sort
the edges by south rank and then (stably) by north rank, and run the Fenwick
sweep.  Python's in-place `list.sort` is stable, as is `mergeSort`; the
position dicts `south_indicies` / `north_indicies` are index-of maps on the
sorted sides. -/
def get_cross_count (pos : Socket → ℚ) (N S : List Socket)
    (edges : List (Socket × Socket × ℕ)) : ℕ :=
  if edges.isEmpty then 0
  else
    let Ns := N.mergeSort (fun a b => decide (pos a ≤ pos b))
    let Ss := S.mergeSort (fun a b => decide (pos a ≤ pos b))
    let southIdx : Socket → ℕ := fun s => Ss.indexOf s
    let northIdx : Socket → ℕ := fun s => Ns.indexOf s
    let edges1 := edges.mergeSort (fun e1 e2 => decide (southIdx e1.2.1 ≤ southIdx e2.2.1))
    let edges2 := edges1.mergeSort (fun e1 e2 => decide (northIdx e1.1 ≤ northIdx e2.1))
    let firstIdx := first_pow2 Ss.length - 1
    (edges2.foldl (fun acc e => process_edge firstIdx acc (southIdx e.2.1) e.2.2)
      ((fun _ => 0), 0)).2

/-- Modelled from the spec: two bipartite edges cross iff their north endpoints
and their south endpoints are oppositely ordered by position (§4.7, §8). -/
def crossing_pair (pos : Socket → ℚ) (e1 e2 : Socket × Socket × ℕ) : Prop :=
  (pos e1.1 < pos e2.1 ∧ pos e2.2.1 < pos e1.2.1)
    ∨ (pos e2.1 < pos e1.1 ∧ pos e1.2.1 < pos e2.2.1)

instance (pos : Socket → ℚ) (e1 e2 : Socket × Socket × ℕ) :
    Decidable (crossing_pair pos e1 e2) := by
  unfold crossing_pair
  infer_instance

/-- Sum of `f` over all ordered pairs (earlier element first) of a list. -/
def pair_weight_sum (f : (Socket × Socket × ℕ) → (Socket × Socket × ℕ) → ℕ) :
    List (Socket × Socket × ℕ) → ℕ
  | [] => 0
  | e :: rest => (rest.map (f e)).sum + pair_weight_sum f rest

/-- Modelled from the spec: the brute-force O(n²) pairwise reference counter
(§8) - the sum, over all pairs of bipartite edges that cross, of the product
of their weights. -/
def ref_cross_count (pos : Socket → ℚ) (edges : List (Socket × Socket × ℕ)) : ℕ :=
  pair_weight_sum
    (fun e1 e2 => if crossing_pair pos e1 e2 then e1.2.2 * e2.2.2 else 0) edges

/-- The weight aggregation of `crossing_reduction_data` (ordering.py:72-85): a
parallel original edge between an already-seen contracted endpoint pair bumps
that edge's weight (`G_h.edges[s, c]['weight'] += 1`), otherwise a new edge of
weight 1 is added, so two parallel edges become one edge of weight 2. -/
def aggregate_edges (raw : List (Socket × Socket)) : List (Socket × Socket × ℕ) :=
  raw.foldl (fun acc e =>
    if (acc.find? (fun a => decide (a.1 = e.1 ∧ a.2.1 = e.2))).isSome then
      acc.map (fun a => if a.1 = e.1 ∧ a.2.1 = e.2 then (a.1, a.2.1, a.2.2 + 1) else a)
    else acc ++ [(e.1, e.2, 1)]) []

/-- Analysis apparatus: the Fenwick invariant.  In the one-based heap layout
over `2^k` leaves, the node `j` at depth `d` (so `2^d ≤ j < 2^(d+1)`) stores
the total weight of the leaves `t` with `(t + 2^k) / 2^(k-d) = j`. -/
def fenwick_inv (k : ℕ) (f : ℕ → ℕ) (tree : ℕ → ℕ) : Prop :=
  ∀ d ≤ k, ∀ j, 2 ^ d ≤ j → j < 2 ^ (d + 1) →
    tree (j - 1) = ∑ t ∈ Finset.range (2 ^ k), if (t + 2 ^ k) / 2 ^ (k - d) = j then f t else 0

/-- Analysis apparatus: running the Fenwick sweep over a list of
`(south rank, weight)` pairs. -/
def fenwick_run (p : ℕ) (es : List (ℕ × ℕ)) : ℕ :=
  (es.foldl (fun acc e => process_edge (p - 1) acc e.1 e.2) ((fun _ => 0), 0)).2

/-- Analysis apparatus: the weighted inversion count of a `(south rank,
weight)` list - each earlier/later pair with strictly smaller later rank
contributes the product of the weights. -/
def inv_weight_sum : List (ℕ × ℕ) → ℕ
  | [] => 0
  | e :: rest =>
    (rest.map (fun e2 => if e2.1 < e.1 then e.2 * e2.2 else 0)).sum + inv_weight_sum rest

/-- Analysis apparatus: the crossing weight collected by the sweep against an
already-inserted leaf weighting `f`, following the insertion order. -/
def crossAgainst (P : ℕ) (f : ℕ → ℕ) : List (ℕ × ℕ) → ℕ
  | [] => 0
  | e :: rest =>
    e.2 * (∑ t ∈ Finset.range P, if e.1 < t then f t else 0)
      + crossAgainst P (bump f e.1 e.2) rest

/-! Embedding of `get_linear_segments` (linear_segments.py:63-104) and
`Segment.split` (linear_segments.py:40-47) for C6.  Nodes and clusters are
numbered; `G` is the layered node graph, `T` the nesting tree (mapping each
cluster to its children, clusters and nodes alike), `cluster` maps a node to
its cluster, `nl` is `Cluster.nesting_level`. -/

def Digraph.outDegree (g : Digraph) (v : ℕ) : ℕ := (g.succ v).length

/-- `nx.dfs_preorder_nodes(G, u)`: stack-based preorder DFS following
successors in edge-insertion order; the fuel bounds the visit steps and is
ample because every step pops one stack entry and pushes each adjacency list
at most once. -/
def dfs_preorder_aux (g : Digraph) : ℕ → List ℕ → List ℕ → List ℕ
  | 0, _, _ => []
  | fuel + 1, stack, visited =>
    match stack with
    | [] => []
    | v :: rest =>
      if v ∈ visited then dfs_preorder_aux g fuel rest visited
      else v :: dfs_preorder_aux g fuel (g.succ v ++ rest) (v :: visited)

def dfs_preorder (g : Digraph) (u : ℕ) : List ℕ :=
  dfs_preorder_aux g ((g.nodes.length + g.edges.length + 1) + 1) [u] []

/-- `nx.has_path(T, s, t)`: reachability (true when `s = t`), via a DFS with
ample fuel. -/
def has_path_aux (T : Digraph) (t : ℕ) : ℕ → List ℕ → List ℕ → Bool
  | 0, _, _ => false
  | fuel + 1, stack, visited =>
    match stack with
    | [] => false
    | v :: rest =>
      if v = t then true
      else if v ∈ visited then has_path_aux T t fuel rest visited
      else has_path_aux T t fuel (T.succ v ++ rest) (v :: visited)

def has_path (T : Digraph) (s t : ℕ) : Bool :=
  has_path_aux T t ((T.nodes.length + T.edges.length + 1) + 1) [s] []

/-- `complex_clusters` (linear_segments.py:67-70): clusters owning a node of
the graph with in- or out-degree above 1. -/
def complex_clusters (g T : Digraph) (S : List ℕ) : List ℕ :=
  S.filter (fun c => (T.succ c).any (fun v =>
    decide (v ∈ g.nodes) && (decide (1 < g.inDegree v) || decide (1 < g.outDegree v))))

/-- The cluster-boundary break test of the chain loop
(linear_segments.py:89-97); Python `sorted` on two elements is stable, so
ties keep `(c1, c2)` order. -/
def cluster_break (cluster nl : ℕ → ℕ) (T : Digraph) (complexC : List ℕ)
    (u v : ℕ) : Bool :=
  let c1 := cluster u
  let c2 := cluster v
  if c1 = c2 then false
  else
    let cu := if nl c2 < nl c1 then c2 else c1
    let cv := if nl c2 < nl c1 then c1 else c2
    if has_path T cu cv then decide (cv ∈ complexC)
    else decide (c1 ∈ complexC) || decide (c2 ∈ complexC)

/-- The chain-extension loop over the remaining DFS preorder
(linear_segments.py:85-99): break at the first branching or cluster-breaking
node, append otherwise. -/
def chain_loop (g : Digraph) (cluster nl : ℕ → ℕ) (T : Digraph)
    (complexC : List ℕ) (u : ℕ) : List ℕ → List ℕ
  | [] => []
  | v :: rest =>
    if 1 < g.inDegree v ∨ 1 < g.outDegree v then []
    else if cluster_break cluster nl T complexC u v then []
    else v :: chain_loop g cluster nl T complexC u rest

/-- One maximal linear chain from `u` (linear_segments.py:83-99): the first
DFS node (always `u` itself) followed by the chain loop over the rest. -/
def get_chain (g : Digraph) (cluster nl : ℕ → ℕ) (T : Digraph)
    (complexC : List ℕ) (u : ℕ) : List ℕ :=
  match dfs_preorder g u with
  | [] => [u]
  | w :: rest => w :: chain_loop g cluster nl T complexC u rest

/-- The outer segment loop of `get_linear_segments`
(linear_segments.py:72-103), iterating the flattened columns with a `seen`
set: a seen node is skipped, an out-branching node gets a singleton segment
(and is not marked seen, exactly as in the source), otherwise the DFS chain
is appended and marked seen. -/
def get_linear_segments_loop (g : Digraph) (cluster nl : ℕ → ℕ) (T : Digraph)
    (complexC : List ℕ) : List ℕ → List ℕ → List (List ℕ) → List (List ℕ)
  | [], _, segs => segs
  | u :: rest, seen, segs =>
    if u ∈ seen then get_linear_segments_loop g cluster nl T complexC rest seen segs
    else if 1 < g.outDegree u then
      get_linear_segments_loop g cluster nl T complexC rest seen (segs ++ [[u]])
    else
      get_linear_segments_loop g cluster nl T complexC rest
        (seen ++ get_chain g cluster nl T complexC u)
        (segs ++ [get_chain g cluster nl T complexC u])

/-- `get_linear_segments` (linear_segments.py:63-104) over the flattened
column list, with `complex_clusters` precomputed from the cluster list `S`. -/
def get_linear_segments (g : Digraph) (cluster nl : ℕ → ℕ) (T : Digraph)
    (S : List ℕ) (columns : List (List ℕ)) : List (List ℕ) :=
  get_linear_segments_loop g cluster nl T (complex_clusters g T S) columns.flatten [] []

/-- `Segment.split` (linear_segments.py:40-47): the new segment takes the
node-list suffix from the split node on (`nodes[nodes.index(v):]`), and the
old list then removes each moved node (`nodes.remove(w)`). -/
def segment_split (nodes : List ℕ) (v : ℕ) : List ℕ × List ℕ :=
  let new_segment := nodes.drop (List.indexOf v nodes)
  (new_segment.foldl (fun acc w => acc.erase w) nodes, new_segment)

/-- Analysis apparatus for C6: the shape invariant of the accumulated
segments - a singleton of an out-branching processed node, or a chain whose
head was processed, whose members are all marked seen, and whose non-head
members each have in-degree at most 1 and an in-chain predecessor edge. -/
def seg_inv (g : Digraph) (done seen : List ℕ) (segs : List (List ℕ)) : Prop :=
  ∀ s ∈ segs,
    (∃ w, s = [w] ∧ 1 < g.outDegree w ∧ w ∈ done)
    ∨ (∃ u2 tail, s = u2 :: tail ∧ u2 ∈ done ∧ (∀ x ∈ s, x ∈ seen)
        ∧ ∀ v ∈ tail, g.inDegree v ≤ 1 ∧ ∃ p ∈ s, (p, v) ∈ g.edges)

/-! Embedding of the random-source structure of `minimize_crossings`
(ordering.py:356-382) for C3.  The module-level `from random import seed,
uniform` is the only non-input dependence of the crossing minimization: all
other computation is a pure function of the graph, columns, nesting trees and
the mutable layout state. -/

/-- Modelled from the spec: `random.seed(s)` - the generator state after
seeding is a pure function of the seed (library code outside src/); the
concrete choice of stream model is irrelevant to the determinism property. -/
def seedRand (s : ℕ) : ℕ := s

/-- Modelled from the spec: `random.uniform(0, 1)` - one draw from the
deterministic stream, returning the value in [0, 1) and the advanced state (a
linear congruential model of the deterministic generator, library code
outside src/). -/
def uniformRand (st : ℕ) : ℚ × ℕ :=
  (((st * 1103515245 + 12345) % 2147483648 : ℕ) / (2147483648 : ℚ),
    (st * 1103515245 + 12345) % 2147483648)

/-- `calc_barycenters` (ordering.py:146-155) with the random source threaded
explicitly: each free element with incident sockets makes one `uniform(0, 1)`
draw and is assigned the perturbed mean of its socket ranks
(`calc_barycenter_elem`); elements without sockets draw nothing. -/
def calc_barycenters_rng (socket_ranks : Socket → ℚ) (free_sockets : ℕ → List Socket)
    (free_col : List ℕ) (bary0 : ℕ → Option ℚ) (rng : ℕ) : (ℕ → Option ℚ) × ℕ :=
  free_col.foldl (fun acc w =>
    let sockets := free_sockets w
    if sockets.isEmpty then acc
    else
      let u := uniformRand acc.2
      ((fun v => if v = w then calc_barycenter_elem socket_ranks u.1 sockets
        else acc.1 v), u.2)) (bary0, rng)

/-- `best_cross_count = inf` comparison of the minimization loop
(ordering.py:370-375): `none` is `math.inf`. -/
def lt_inf_nat (n : ℕ) : Option ℕ → Bool
  | none => true
  | some m => decide (n < m)

/-- The `for _ in range(_ITERATIONS)` loop of `minimize_crossings`
(ordering.py:372-381) over an abstract layout state `σ` (the columns with
their per-node `cr` fields and the prepared item lists): `passF` is
`minimized_cross_count` as a pure transformer of the state and the random
source (its only effects are on that state and the `uniform` draws of
`calc_barycenters` / `fill_in_unknown_barycenters`), and `restore b s`
re-sorts the columns of `s` by the best order `b` (the
`col.sort(key=best_col.index)` loop).  Returns the final state and random
source. -/
def minimize_crossings_iter (σ : Type) (passF : σ → ℕ → σ × ℕ × ℕ)
    (restore : σ → σ → σ) : ℕ → σ → σ → Option ℕ → ℕ → σ × ℕ
  | 0, state, _, _, rng => (state, rng)
  | n + 1, state, best, bestC, rng =>
    let res := passF state rng
    if lt_inf_nat res.2.1 bestC then
      if res.2.1 = 0 then (res.1, res.2.2)
      else minimize_crossings_iter σ passF restore n res.1 res.1 (some res.2.1) res.2.2
    else
      minimize_crossings_iter σ passF restore n (restore best res.1) best bestC res.2.2

/-- `minimize_crossings` (ordering.py:356-382) at the random-source level:
the pre-seed preparation (`get_col_nesting_trees`, the eager
`crossing_reduction_data` item lists) is a pure function of the inputs that
draws nothing from the random source, `seed(0)` (ordering.py:369) replaces
the incoming generator state, and the minimization loop runs on the fixed
seeded stream. -/
def minimize_crossings_model (σ : Type) (passF : σ → ℕ → σ × ℕ × ℕ)
    (restore : σ → σ → σ) (iterations : ℕ) (state0 : σ) (rng_in : ℕ) : σ × ℕ :=
  minimize_crossings_iter σ passF restore iterations state0 state0 none (seedRand 0)

/-! Embedding of `prevent_cycles` (linear_segments.py:107-129) and the
segment-level graph of `sort_linear_segments` (linear_segments.py:142-147)
for C5.  Columns are fixed node lists (the function never reorders them);
the evolving state is the node-to-segment assignment `seg` plus a fresh-id
counter for the `Segment` objects created by splits.  Under the structure
`get_linear_segments` guarantees (each segment holds one node per column of
an interval of columns, in ascending column order), `Segment.split` at a
segment's column-`k` node reassigns exactly its nodes in columns `k` and
beyond, which is how a split is modelled here. -/

/-- The segment sequence of column `j` under the assignment `seg`. -/
def colSegs (cols : List (List ℕ)) (seg : ℕ → ℕ) (j : ℕ) : List ℕ :=
  (cols.getD j []).map seg

/-- `Segment.split` at the column-`k` node of segment `s`: the nodes of `s`
in columns `k` and beyond move to the fresh segment id. -/
def seg_split_id (cols : List (List ℕ)) (seg : ℕ → ℕ) (k s fresh : ℕ) : ℕ → ℕ :=
  fun w => if seg w = s ∧ w ∈ (cols.drop k).flatten then fresh else seg w

/-- The body of `for i, v in enumerate(col1)` (linear_segments.py:112-129):
`segments2`/`segments1` are the current segment sequences of the two columns,
`below` the segments strictly after `v.segment` in `col2`, and
`cycle_segments` the conflicting segments above `v`; a border node splits
each conflicting segment at its `col1` node, any other node splits its own
segment at `v`. -/
def pc_node_step (cols : List (List ℕ)) (vtype : ℕ → Bool) (k : ℕ)
    (i : ℕ) (v : ℕ) (st : (ℕ → ℕ) × ℕ) : (ℕ → ℕ) × ℕ :=
  let seg := st.1
  let segments2 := colSegs cols seg (k - 1)
  if seg v ∈ segments2 then
    let segments1 := colSegs cols seg k
    let below := segments2.drop (List.indexOf (seg v) segments2 + 1)
    let cycle_segments := (segments1.take i).filter (fun s => decide (s ∈ below))
    if cycle_segments.isEmpty then st
    else if vtype v then
      cycle_segments.foldl
        (fun st2 s => (seg_split_id cols st2.1 k s st2.2, st2.2 + 1)) st
    else (seg_split_id cols seg k (seg v) st.2, st.2 + 1)
  else st

/-- The `for i, v in enumerate(col1)` loop over one column pair. -/
def pc_nodes (cols : List (List ℕ)) (vtype : ℕ → Bool) (k : ℕ) :
    List (ℕ × ℕ) → (ℕ → ℕ) × ℕ → (ℕ → ℕ) × ℕ
  | [], st => st
  | (i, v) :: rest, st =>
    pc_nodes cols vtype k rest (pc_node_step cols vtype k i v st)

/-- The `for col1, col2 in pairwise(reversed(columns))` loop
(linear_segments.py:111): pairs `(cols[k], cols[k-1])` for `k` from
`len(cols) - 1` down to `1`. -/
def pc_outer (cols : List (List ℕ)) (vtype : ℕ → Bool) :
    ℕ → (ℕ → ℕ) × ℕ → (ℕ → ℕ) × ℕ
  | 0, st => st
  | k + 1, st =>
    pc_outer cols vtype k
      (pc_nodes cols vtype (k + 1) (cols.getD (k + 1) []).enum st)

/-- `prevent_cycles` (linear_segments.py:107-129) on the segment assignment. -/
def prevent_cycles_model (cols : List (List ℕ)) (vtype : ℕ → Bool)
    (seg0 : ℕ → ℕ) (fresh0 : ℕ) : (ℕ → ℕ) × ℕ :=
  pc_outer cols vtype (cols.length - 1) (seg0, fresh0)

/-- The edges of the segment-level graph `SG` built by
`sort_linear_segments` (linear_segments.py:144-145): one edge per vertically
adjacent node pair in every column. -/
def sg_edges (cols : List (List ℕ)) (seg : ℕ → ℕ) : List (ℕ × ℕ) :=
  (cols.map (fun col => (col.zip col.tail).map (fun p => (seg p.1, seg p.2)))).flatten

/-- Analysis apparatus for C5: each column holds at most one node of any
segment. -/
def one_per_col (cols : List (List ℕ)) (seg : ℕ → ℕ) : Prop :=
  ∀ j, (colSegs cols seg j).Nodup

/-- Analysis apparatus for C5: every segment occupies an interval of
columns. -/
def seg_interval (cols : List (List ℕ)) (seg : ℕ → ℕ) : Prop :=
  ∀ s j1 j2 j3, j1 ≤ j2 → j2 ≤ j3 →
    s ∈ colSegs cols seg j1 → s ∈ colSegs cols seg j3 → s ∈ colSegs cols seg j2

/-- Analysis apparatus for C5: no order inversion between columns `j` and
`j + 1` for segments present in both. -/
def pair_no_inv (cols : List (List ℕ)) (seg : ℕ → ℕ) (j : ℕ) : Prop :=
  ∀ s t, s ∈ colSegs cols seg j → t ∈ colSegs cols seg j →
    s ∈ colSegs cols seg (j + 1) → t ∈ colSegs cols seg (j + 1) →
    List.indexOf s (colSegs cols seg j) < List.indexOf t (colSegs cols seg j) →
    List.indexOf s (colSegs cols seg (j + 1)) < List.indexOf t (colSegs cols seg (j + 1))

/-- Analysis apparatus for C5: the ℚ-valued rank insertion for one column:
walk the column's segment sequence; an already-started segment keeps its rank
and raises the running lower bound, a new segment receives the midpoint
between the bound and the rank of the next started segment (or bound + 1). -/
def insert_col (rank : ℕ → ℚ) (started : ℕ → Bool) : ℚ → List ℕ → ℕ → ℚ
  | _, [], s => rank s
  | lo, x :: rest, s =>
    if started x then insert_col rank started (rank x) rest s
    else
      let hi := match rest.find? started with
        | some p => rank p
        | none => lo + 1
      let v := (lo + hi) / 2
      if s = x then v else insert_col rank started v rest s

/-- Analysis apparatus for C5: a segment has started before column `c`. -/
def started_fn (cols : List (List ℕ)) (seg : ℕ → ℕ) (c : ℕ) : ℕ → Bool :=
  fun s => (List.range c).any (fun j => decide (s ∈ colSegs cols seg j))

/-- Analysis apparatus for C5: the rank after processing columns
`0, ..., c - 1` in order. -/
def build_rank (cols : List (List ℕ)) (seg : ℕ → ℕ) : ℕ → ℕ → ℚ
  | 0 => fun _ => 0
  | c + 1 =>
    let rank := build_rank cols seg c
    let π := colSegs cols seg c
    let st := started_fn cols seg c
    let lo0 := match π.find? st with
      | some p => rank p - 1
      | none => 0
    insert_col rank st lo0 π

/-- Analysis apparatus for C5: the outer loop invariant of `prevent_cycles`:
column-wise distinctness, interval occupancy, freshness of the id counter,
and no adjacent-pair inversion from column `k` upward. -/
def pc_inv (cols : List (List ℕ)) (k : ℕ) (seg : ℕ → ℕ) (f : ℕ) : Prop :=
  one_per_col cols seg ∧ seg_interval cols seg ∧
    (∀ v ∈ cols.flatten, seg v < f) ∧ ∀ j, k ≤ j → pair_no_inv cols seg j

/-- Analysis apparatus for C5: the partial invariant of the inner node loop
over the column pair `(k, k - 1)`: no inversion between the two columns whose
later element sits at a column-`k` position strictly below `i`. -/
def pc_partial (cols : List (List ℕ)) (seg : ℕ → ℕ) (k i : ℕ) : Prop :=
  ∀ a b, a ∈ colSegs cols seg (k - 1) → b ∈ colSegs cols seg (k - 1) →
    a ∈ colSegs cols seg k → b ∈ colSegs cols seg k →
    List.indexOf a (colSegs cols seg k) < i →
    List.indexOf b (colSegs cols seg k) < List.indexOf a (colSegs cols seg k) →
    List.indexOf b (colSegs cols seg (k - 1)) ≤ List.indexOf a (colSegs cols seg (k - 1))

/-- Concrete instance for C5: two columns of two nodes each. -/
def cols_ex5 : List (List ℕ) := [[0, 1], [2, 3]]

/-- Concrete segment assignment for C5: nodes 0 and 3 share segment 10 and
nodes 1 and 2 share segment 11, so segment 10 lies above 11 in the first
column and below it in the second — a cyclic configuration. -/
def seg_ex5 : ℕ → ℕ :=
  fun v => if v = 0 then 10 else if v = 1 then 11 else if v = 2 then 11
    else if v = 3 then 10 else 0

/-! ############################################################ THEOREMS -/

/-- Helper: the socket-rank loop preserves the list length. -/
theorem socket_rank_loop_length (incr : ℚ) :
    ∀ (r : ℚ) (l : List Socket), (socket_rank_loop incr r l).length = l.length
  | _, [] => rfl
  | r, _ :: rest => by
    simp [socket_rank_loop, socket_rank_loop_length incr (r + incr) rest]

/-- Helper: the j-th rank assigned by the socket-rank loop is `r + (j+1)*incr`. -/
theorem socket_rank_loop_get (incr : ℚ) :
    ∀ (r : ℚ) (l : List Socket) (j : ℕ) (s : Socket), l[j]? = some s →
      (socket_rank_loop incr r l)[j]? = some (s, r + (j + 1) * incr) := by
  intro r l
  induction l generalizing r with
  | nil => intro j s h; simp at h
  | cons a rest ih =>
    intro j s h
    cases j with
    | zero =>
      simp only [List.getElem?_cons_zero, Option.some.injEq] at h
      subst h
      simp only [socket_rank_loop, List.getElem?_cons_zero, Option.some.injEq,
        Prod.mk.injEq, true_and]
      push_cast
      ring
    | succ j =>
      simp only [List.getElem?_cons_succ] at h
      have hrec := ih (r + incr) j s h
      simp only [socket_rank_loop, List.getElem?_cons_succ, hrec, Option.some.injEq,
        Prod.mk.injEq, true_and]
      push_cast
      ring

/-- Helper: closed form of `calc_socket_ranks_node` - the j-th socket in
assignment order gets rank `(ci+1) + (j+1)*incr`. -/
theorem calc_socket_ranks_node_eq (forwards : Bool) (ci : ℕ) (sockets : List Socket) :
    calc_socket_ranks_node forwards ci sockets
      = sockets.enum.map (fun p => (p.2, (ci + 1 : ℚ)
          + (p.1 + 1) * (if forwards then -(1 / ((sockets.length : ℚ) + 1))
              else 1 / ((sockets.length : ℚ) + 1)))) := by
  apply List.ext_getElem?
  intro i
  rcases Nat.lt_or_ge i sockets.length with hi | hi
  · have hmem : sockets[i]? = some (sockets.get ⟨i, hi⟩) := by
      simp [List.getElem?_eq_getElem hi]
    rw [calc_socket_ranks_node, socket_rank_loop_get _ _ _ _ _ hmem]
    have hienum : i < sockets.enum.length := by simpa [List.enum_length] using hi
    rw [List.getElem?_map, List.getElem?_eq_getElem hienum, List.getElem_enum]
    simp
  · have h1 : (socket_rank_loop (if forwards then -(1 / ((sockets.length : ℚ) + 1))
        else 1 / ((sockets.length : ℚ) + 1)) (ci + 1) sockets).length ≤ i := by
      rw [socket_rank_loop_length]; exact hi
    have h2 : (sockets.enum.map (fun p => ((p.2 : Socket), (ci + 1 : ℚ)
        + (p.1 + 1) * (if forwards then -(1 / ((sockets.length : ℚ) + 1))
            else 1 / ((sockets.length : ℚ) + 1))))).length ≤ i := by
      simpa [List.enum_length] using hi
    rw [calc_socket_ranks_node, List.getElem?_eq_none h1, List.getElem?_eq_none h2]

/-- Helper: rank bound for the negative-increment (forward) case. -/
theorem rank_bound_neg (ci : ℚ) (k j : ℕ) (hj : j < k) :
    ci < ci + 1 + ((j : ℚ) + 1) * -(1 / ((k : ℚ) + 1))
      ∧ ci + 1 + ((j : ℚ) + 1) * -(1 / ((k : ℚ) + 1)) < ci + 1 := by
  have hk : (0 : ℚ) < (k : ℚ) + 1 := by positivity
  have h1 : (0 : ℚ) < ((j : ℚ) + 1) / ((k : ℚ) + 1) := by positivity
  have h2 : ((j : ℚ) + 1) / ((k : ℚ) + 1) < 1 := by
    rw [div_lt_one hk]
    have : (j : ℚ) < k := by exact_mod_cast hj
    linarith
  have heq : ((j : ℚ) + 1) * -(1 / ((k : ℚ) + 1)) = -(((j : ℚ) + 1) / ((k : ℚ) + 1)) := by
    ring
  rw [heq]
  constructor <;> linarith

/-- Helper: rank bound for the positive-increment (backward) case. -/
theorem rank_bound_pos (ci : ℚ) (k j : ℕ) (hj : j < k) :
    ci + 1 < ci + 1 + ((j : ℚ) + 1) * (1 / ((k : ℚ) + 1))
      ∧ ci + 1 + ((j : ℚ) + 1) * (1 / ((k : ℚ) + 1)) < ci + 2 := by
  have hk : (0 : ℚ) < (k : ℚ) + 1 := by positivity
  have h1 : (0 : ℚ) < ((j : ℚ) + 1) / ((k : ℚ) + 1) := by positivity
  have h2 : ((j : ℚ) + 1) / ((k : ℚ) + 1) < 1 := by
    rw [div_lt_one hk]
    have : (j : ℚ) < k := by exact_mod_cast hj
    linarith
  have heq : ((j : ℚ) + 1) * (1 / ((k : ℚ) + 1)) = ((j : ℚ) + 1) / ((k : ℚ) + 1) := by
    ring
  rw [heq]
  constructor <;> linarith

/-- Helper: the sorted fixed-socket list is pairwise strictly descending in
socket index on forward passes and strictly ascending on backward passes,
provided the indices are pairwise distinct. -/
theorem fixed_sockets_sorted_pairwise (backwards : Bool) (sockets : List Socket)
    (hnd : sockets.Pairwise (fun a b => a.idx ≠ b.idx)) :
    (fixed_sockets_sorted backwards sockets).Pairwise
      (fun a b => if backwards then a.idx < b.idx else b.idx < a.idx) := by
  have hsym : ∀ {x y : Socket},
      (fun a b : Socket => a.idx ≠ b.idx) x y → (fun a b : Socket => a.idx ≠ b.idx) y x :=
    fun h => h.symm
  cases backwards with
  | true =>
    have hperm : (sockets.mergeSort (fun a b => decide (a.idx ≤ b.idx))).Perm sockets :=
      List.mergeSort_perm sockets _
    have hnd' := (List.Perm.pairwise_iff hsym hperm).2 hnd
    have hsorted := @List.sorted_mergeSort Socket
      (fun a b : Socket => decide (a.idx ≤ b.idx))
      (fun a b c hab hbc => by
        simp only [decide_eq_true_eq] at *
        exact le_trans hab hbc)
      (fun a b => by
        simp only [Bool.or_eq_true, decide_eq_true_eq]
        exact Nat.le_total a.idx b.idx)
      sockets
    have := hsorted.and hnd'
    simp only [fixed_sockets_sorted, if_true]
    refine this.imp ?_
    intro a b hab
    simp only [decide_eq_true_eq] at hab
    simpa using lt_of_le_of_ne hab.1 hab.2
  | false =>
    have hperm : (sockets.mergeSort (fun a b => decide (b.idx ≤ a.idx))).Perm sockets :=
      List.mergeSort_perm sockets _
    have hnd' := (List.Perm.pairwise_iff hsym hperm).2 hnd
    have hsorted := @List.sorted_mergeSort Socket
      (fun a b : Socket => decide (b.idx ≤ a.idx))
      (fun a b c hab hbc => by
        simp only [decide_eq_true_eq] at *
        exact le_trans hbc hab)
      (fun a b => by
        simp only [Bool.or_eq_true, decide_eq_true_eq]
        exact Nat.le_total b.idx a.idx)
      sockets
    have := hsorted.and hnd'
    simp only [fixed_sockets_sorted, if_false]
    refine this.imp ?_
    intro a b hab
    simp only [decide_eq_true_eq] at hab
    exact lt_of_le_of_ne hab.1 (fun h => hab.2 h.symm)

/-- Helper: two distinct members of a pairwise list are related one way or the
other. -/
theorem pairwise_two_mem {A : Type} {P : A → A → Prop} {l : List A}
    (h : l.Pairwise P) {a b : A} (ha : a ∈ l) (hb : b ∈ l) (hne : a ≠ b) :
    P a b ∨ P b a := by
  have h2 : l.Pairwise (fun x y => P x y ∨ P y x) := h.imp Or.inl
  exact h2.forall (fun _ _ hxy => hxy.elim Or.inr Or.inl) ha hb hne

/-- Helper: every entry of the socket-rank loop has its socket drawn from the
input list and its rank strictly beyond the running rank, in the direction of
the increment. -/
theorem socket_rank_loop_mem_bound (incr : ℚ) :
    ∀ (r : ℚ) (l : List Socket), ∀ q ∈ socket_rank_loop incr r l,
      q.1 ∈ l ∧ (0 < incr → r < q.2) ∧ (incr < 0 → q.2 < r) := by
  intro r l
  induction l generalizing r with
  | nil => intro q hq; simp [socket_rank_loop] at hq
  | cons a rest ih =>
    intro q hq
    rw [socket_rank_loop] at hq
    rcases List.mem_cons.1 hq with h | h
    · subst h
      refine ⟨List.mem_cons_self a rest, ?_, ?_⟩ <;> intro h <;> simp <;> linarith
    · obtain ⟨h1, h2, h3⟩ := ih (r + incr) q h
      refine ⟨List.mem_cons_of_mem _ h1, ?_, ?_⟩
      · intro hpos; have := h2 hpos; linarith
      · intro hneg; have := h3 hneg; linarith

/-- Helper: the socket-rank loop lifts a pairwise relation on sockets to its
output, and assigns strictly monotone ranks in assignment order. -/
theorem socket_rank_loop_pairwise (incr : ℚ) (R : Socket → Socket → Prop) :
    ∀ (r : ℚ) (l : List Socket), l.Pairwise R →
      (socket_rank_loop incr r l).Pairwise (fun q q' => R q.1 q'.1
        ∧ (0 < incr → q.2 < q'.2) ∧ (incr < 0 → q'.2 < q.2)) := by
  intro r l
  induction l generalizing r with
  | nil => intro _; exact List.Pairwise.nil
  | cons a rest ih =>
    intro hp
    rw [socket_rank_loop]
    rcases List.pairwise_cons.1 hp with ⟨hhead, htail⟩
    refine List.Pairwise.cons ?_ (ih (r + incr) htail)
    intro q hq
    obtain ⟨h1, h2, h3⟩ := socket_rank_loop_mem_bound incr (r + incr) rest q hq
    exact ⟨hhead q.1 h1, fun hpos => h2 hpos, fun hneg => h3 hneg⟩

/-- C7 counterexample.  Forward pass, fixed node at 0-based column index 0
(1-based position 1) with a single incident socket: `calc_socket_ranks`
assigns rank `1 - 1/2 = 1/2`, which is NOT strictly inside the claimed open
interval `(position, position+1) = (1, 2)`.  (The forward-pass ranks lie in
`(position-1, position)` instead.) -/
theorem calc_socket_ranks_interval_counterexample :
    calc_socket_ranks_node true 0 [⟨0, 0⟩] = [(⟨0, 0⟩, 1 / 2)]
      ∧ ¬ ((1 : ℚ) < 1 / 2 ∧ (1 : ℚ) / 2 < 1 + 1) := by
  constructor
  · show socket_rank_loop _ _ _ = _
    norm_num [socket_rank_loop]
  · intro hcontra
    exact absurd hcontra.1 (by norm_num)

/-- C7 amended.  For a fixed node with at least one incident socket at 0-based
column index `ci` (1-based position `ci+1`), the ranks assigned by
`calc_socket_ranks` are evenly spaced with step `±1/(k+1)`: the j-th assigned
socket gets rank `(ci+1) + (j+1)*incr`.  On backward passes the ranks lie
strictly inside `(position, position+1)`; on forward passes they lie strictly
inside `(position-1, position)`.  Moreover the resulting rank assignment is
ascending in socket index on BOTH passes (only the assignment order differs,
because the socket list is sorted descending by index exactly when the
increment is negative). -/
theorem calc_socket_ranks_amended (forwards : Bool) (ci : ℕ) (sockets : List Socket)
    (hnd : sockets.Pairwise (fun a b => a.idx ≠ b.idx)) :
    (calc_socket_ranks_node forwards ci sockets
      = sockets.enum.map (fun p => (p.2, (ci + 1 : ℚ)
          + (p.1 + 1) * (if forwards then -(1 / ((sockets.length : ℚ) + 1))
              else 1 / ((sockets.length : ℚ) + 1)))))
    ∧ (∀ q ∈ calc_socket_ranks_node forwards ci sockets,
        if forwards then (ci : ℚ) < q.2 ∧ q.2 < ci + 1
        else (ci + 1 : ℚ) < q.2 ∧ q.2 < ci + 2)
    ∧ (∀ q ∈ pass_socket_ranks forwards ci sockets,
       ∀ q' ∈ pass_socket_ranks forwards ci sockets,
        q.1.idx < q'.1.idx → q.2 < q'.2) := by
  refine ⟨calc_socket_ranks_node_eq forwards ci sockets, ?_, ?_⟩
  · intro q hq
    rw [calc_socket_ranks_node_eq] at hq
    obtain ⟨⟨i, s⟩, hp, rfl⟩ := List.mem_map.1 hq
    have hi : i < sockets.length := (List.mem_enum hp).1
    cases forwards with
    | true =>
      simpa using rank_bound_neg (ci : ℚ) sockets.length i hi
    | false =>
      have h := rank_bound_pos (ci : ℚ) sockets.length i hi
      simp only [if_false]
      constructor
      · exact h.1
      · have : ((ci : ℚ) + 2) = (ci : ℚ) + 1 + 1 := by ring
        simpa [this] using h.2
  · intro q hq q' hq' hlt
    have hpair := fixed_sockets_sorted_pairwise (!forwards) sockets hnd
    rw [pass_socket_ranks] at hq hq'
    have hne : q ≠ q' := fun he => absurd hlt (by rw [he]; exact lt_irrefl _)
    cases forwards with
    | true =>
      have hun : calc_socket_ranks_node true ci (fixed_sockets_sorted (!true) sockets)
          = socket_rank_loop
              (-(1 / (((fixed_sockets_sorted (!true) sockets).length : ℚ) + 1)))
              ((ci : ℚ) + 1) (fixed_sockets_sorted (!true) sockets) := by
        simp [calc_socket_ranks_node]
      rw [hun] at hq hq'
      have hpair' : (fixed_sockets_sorted (!true) sockets).Pairwise
          (fun a b : Socket => b.idx < a.idx) := by
        simpa using hpair
      have hP := socket_rank_loop_pairwise
        (-(1 / (((fixed_sockets_sorted (!true) sockets).length : ℚ) + 1)))
        (fun a b : Socket => b.idx < a.idx) ((ci : ℚ) + 1)
        (fixed_sockets_sorted (!true) sockets) hpair'
      have hK : (0 : ℚ)
          < 1 / (((fixed_sockets_sorted (!true) sockets).length : ℚ) + 1) := by
        positivity
      rcases pairwise_two_mem hP hq hq' hne with h | h
      · exact absurd hlt (by have h1 := h.1; omega)
      · exact h.2.2 (by linarith)
    | false =>
      have hun : calc_socket_ranks_node false ci (fixed_sockets_sorted (!false) sockets)
          = socket_rank_loop
              (1 / (((fixed_sockets_sorted (!false) sockets).length : ℚ) + 1))
              ((ci : ℚ) + 1) (fixed_sockets_sorted (!false) sockets) := by
        simp [calc_socket_ranks_node]
      rw [hun] at hq hq'
      have hpair' : (fixed_sockets_sorted (!false) sockets).Pairwise
          (fun a b : Socket => a.idx < b.idx) := by
        simpa using hpair
      have hP := socket_rank_loop_pairwise
        (1 / (((fixed_sockets_sorted (!false) sockets).length : ℚ) + 1))
        (fun a b : Socket => a.idx < b.idx) ((ci : ℚ) + 1)
        (fixed_sockets_sorted (!false) sockets) hpair'
      have hK : (0 : ℚ)
          < 1 / (((fixed_sockets_sorted (!false) sockets).length : ℚ) + 1) := by
        positivity
      rcases pairwise_two_mem hP hq hq' hne with h | h
      · exact h.2.1 (by linarith)
      · exact absurd hlt (by have h1 := h.1; omega)

/-- C7 witness: the amended statement instantiated at a concrete two-socket
forward-pass input (distinct socket indices 0 and 1). -/
theorem calc_socket_ranks_amended_witness :
    ([⟨5, 0⟩, ⟨6, 1⟩] : List Socket).Pairwise (fun a b => a.idx ≠ b.idx)
      ∧ calc_socket_ranks_node true 0 [⟨5, 0⟩, ⟨6, 1⟩]
          = [(⟨5, 0⟩, 1 + 1 * -(1 / 3)), (⟨6, 1⟩, 1 + 2 * -(1 / 3))] := by
  refine ⟨by decide, ?_⟩
  have h := (calc_socket_ranks_amended true 0 [⟨5, 0⟩, ⟨6, 1⟩] (by decide)).1
  rw [h]
  norm_num [List.enum_cons, List.enumFrom]

/-- C8 counterexample.  A free element with two incident sockets, both of rank
0, and a maximal uniform draw `u = 1`: the code adds the perturbation to the
rank SUM and divides by the socket count, giving `0.035/2 = 7/400`, whereas the
claimed formula (perturbation of magnitude 0.07 applied to the mean) gives
`0.035 = 7/200`.  The two disagree, so the claimed magnitude-0.07 perturbation
of the mean is wrong whenever the element has more than one socket. -/
theorem calc_barycenters_magnitude_counterexample :
    calc_barycenter_elem (fun _ => 0) 1 [⟨0, 0⟩, ⟨0, 1⟩]
      ≠ spec_barycenter_elem (fun _ => 0) 1 [⟨0, 0⟩, ⟨0, 1⟩] := by
  norm_num [calc_barycenter_elem, spec_barycenter_elem, RANDOM_AMOUNT]

/-- C8 amended.  For a free element with `k ≥ 1` incident sockets the assigned
barycenter is the mean of the incident fixed-socket ranks plus the symmetric
uniform perturbation `(u*0.07 - 0.035) / k` - i.e. of magnitude `0.07/k`, not
0.07 - and a free element with no incident sockets is assigned no barycenter
and raises no exception (the function is total and returns `none`). -/
theorem calc_barycenters_amended (socket_ranks : Socket → ℚ) (u : ℚ)
    (sockets : List Socket) (h : sockets ≠ []) :
    calc_barycenter_elem socket_ranks u sockets
      = some ((sockets.map socket_ranks).sum / sockets.length
          + (u * RANDOM_AMOUNT - RANDOM_AMOUNT / 2) / sockets.length)
    ∧ calc_barycenter_elem socket_ranks u [] = none := by
  refine ⟨?_, rfl⟩
  have h' : sockets.isEmpty = false := by
    simp [List.isEmpty_iff, h]
  simp only [calc_barycenter_elem, h', Bool.false_eq_true, if_false, add_div]

/-- C8 witness: the amended statement instantiated at a concrete input. -/
theorem calc_barycenters_amended_witness :
    ([⟨0, 0⟩, ⟨0, 1⟩] : List Socket) ≠ []
      ∧ calc_barycenter_elem (fun _ => 0) 1 [⟨0, 0⟩, ⟨0, 1⟩]
          = some ((([⟨0, 0⟩, ⟨0, 1⟩] : List Socket).map (fun _ => (0 : ℚ))).sum / 2
              + (1 * RANDOM_AMOUNT - RANDOM_AMOUNT / 2) / 2) := by
  refine ⟨by decide, ?_⟩
  have h := (calc_barycenters_amended (fun _ => 0) 1 [⟨0, 0⟩, ⟨0, 1⟩] (by decide)).1
  simpa using h

/-- C10 counterexample.  On the malformed input `cyclic_parent` (node 0 is its
own cluster ancestor: not a forest), `ClusterGraph` construction does not
reject the input: it keeps recursing through the parent chain - here still
unfinished after 50 steps - so no explicit contract check ever runs before or
instead of the computation. -/
theorem cluster_contract_check_counterexample :
    get_nesting_relations cyclic_parent 50 0 = none
      ∧ clusterGraph_init_T cyclic_parent 50 [0] = none := by
  constructor
  · rfl
  · rfl

/-- C10 amended.  The code performs no contract check on its input: on the
non-forest relation `cyclic_parent`, `get_nesting_relations` (and with it
`ClusterGraph.__init__`) simply recurses forever - for EVERY recursion budget
it is still running (Python: a RecursionError), never returning a rejection
and never completing. -/
theorem cluster_contract_check_amended (fuel : ℕ) (v : ℕ) :
    get_nesting_relations cyclic_parent fuel v = none
      ∧ clusterGraph_init_T cyclic_parent fuel [v] = none := by
  have h : ∀ (f w : ℕ), get_nesting_relations cyclic_parent f w = none := by
    intro f
    induction f with
    | zero => intro w; rfl
    | succ n ih =>
      intro w
      simp [get_nesting_relations, cyclic_parent, ih]
  refine ⟨h fuel v, ?_⟩
  simp [clusterGraph_init_T, h fuel v]

/-! Lemmas for the termination of the `handle_constraints` merge loop (C4). -/

/-- Helper: membership in `G[v]` comes from an out-edge. -/
theorem mem_succ_edge {g : Digraph} {v t : ℕ} (h : t ∈ g.succ v) : (v, t) ∈ g.edges := by
  simp only [Digraph.succ, List.mem_map, List.mem_filter, decide_eq_true_eq] at h
  obtain ⟨e, ⟨he, hv⟩, ht⟩ := h
  have he2 : e = (v, t) := Prod.ext hv ht
  rwa [he2] at he

/-- Helper: membership in `G.pred[v]` comes from an in-edge. -/
theorem mem_pred_sub {g : Digraph} {v u : ℕ} (h : u ∈ g.pred v) :
    ∃ e ∈ g.edges, e.1 = u ∧ e.2 = v := by
  simp only [Digraph.pred, List.mem_map, List.mem_filter, decide_eq_true_eq] at h
  obtain ⟨e, ⟨he, hv⟩, hu⟩ := h
  exact ⟨e, he, hu, hv⟩

/-- Helper: updating one entry of a function shifts a sum over a duplicate-free
index list by the change at that entry. -/
theorem sum_map_update {l : List ℕ} (hn : l.Nodup) {t : ℕ} (ht : t ∈ l)
    (f f' : ℕ → ℕ) (hsame : ∀ x ∈ l, x ≠ t → f' x = f x) :
    (l.map f').sum + f t = (l.map f).sum + f' t := by
  induction l with
  | nil => cases ht
  | cons a rest ih =>
    have hnd' := List.nodup_cons.1 hn
    rcases List.mem_cons.1 ht with rfl | hmem
    · have hmap : rest.map f' = rest.map f := by
        apply List.map_congr_left
        intro x hx
        exact hsame x (List.mem_cons_of_mem _ hx) (fun hxa => hnd'.1 (hxa ▸ hx))
      simp only [List.map_cons, List.sum_cons, hmap]
      omega
    · have ha : f' a = f a := by
        exact hsame a (List.mem_cons_self a rest) (fun haa => hnd'.1 (haa.symm ▸ hmem))
      have := ih hnd'.2 hmem (fun x hx hxt => hsame x (List.mem_cons_of_mem _ hx) hxt)
      simp only [List.map_cons, List.sum_cons, ha]
      omega

/-- Helper: the notification fold of `find_violated_constraint` never increases
the worklist measure. -/
theorem fold_inc_measure (g : Digraph) (v : ℕ) (hnd : g.nodes.Nodup) :
    ∀ (ts : List ℕ) (inc : ℕ → List (ℕ × ℕ)) (active : List ℕ),
      (∀ t ∈ ts, t ∈ g.nodes) →
      incMeasure g (ts.foldl (inc_step g v) (inc, active)).2
          (ts.foldl (inc_step g v) (inc, active)).1
        ≤ incMeasure g active inc := by
  intro ts
  induction ts with
  | nil => intro inc active _; exact le_refl _
  | cons t rest ih =>
    intro inc active hts
    have hmem : t ∈ g.nodes := hts t (List.mem_cons_self t rest)
    rw [List.foldl_cons]
    have hstep : incMeasure g (inc_step g v (inc, active) t).2 (inc_step g v (inc, active) t).1
        ≤ incMeasure g active inc := by
      have hsum := sum_map_update hnd hmem
        (fun x => g.inDegree x - (inc x).length)
        (fun x => g.inDegree x - ((inc_step g v (inc, active) t).1 x).length)
        (by
          intro x _ hxt
          simp only [inc_step]
          rw [if_neg hxt])
      have hupd : ((inc_step g v (inc, active) t).1 t).length = (inc t).length + 1 := by
        simp [inc_step]
      simp only [] at hsum
      by_cases hpush : ((v, t) :: (inc : ℕ → List (ℕ × ℕ)) t).length = g.inDegree t
      · have hdeg : g.inDegree t = (inc t).length + 1 := by
          simpa using hpush.symm
        have hact : (inc_step g v (inc, active) t).2 = active ++ [t] := by
          simp [inc_step, hpush]
        rw [incMeasure, incMeasure, hact]
        simp only [List.length_append, List.length_cons, List.length_nil]
        omega
      · have hact : (inc_step g v (inc, active) t).2 = active := by
          simp only [inc_step]
          rw [if_neg (by simpa using hpush)]
        rw [incMeasure, incMeasure, hact]
        omega
    calc incMeasure g ((rest.foldl (inc_step g v) (inc_step g v (inc, active) t))).2
          ((rest.foldl (inc_step g v) (inc_step g v (inc, active) t))).1
        ≤ incMeasure g (inc_step g v (inc, active) t).2 (inc_step g v (inc, active) t).1 := by
          have := ih (inc_step g v (inc, active) t).1 (inc_step g v (inc, active) t).2
            (fun x hx => hts x (List.mem_cons_of_mem _ hx))
          simpa using this
      _ ≤ incMeasure g active inc := hstep

/-- Helper: the notification fold only ever appends graph nodes to the
worklist. -/
theorem fold_active_nodes (g : Digraph) (v : ℕ) :
    ∀ (ts : List ℕ) (inc : ℕ → List (ℕ × ℕ)) (active : List ℕ),
      (∀ x ∈ active, x ∈ g.nodes) → (∀ t ∈ ts, t ∈ g.nodes) →
      ∀ x ∈ (ts.foldl (inc_step g v) (inc, active)).2, x ∈ g.nodes := by
  intro ts
  induction ts with
  | nil => intro inc active ha _ x hx; exact ha x hx
  | cons t rest ih =>
    intro inc active ha hts x hx
    rw [List.foldl_cons] at hx
    refine ih (inc_step g v (inc, active) t).1 (inc_step g v (inc, active) t).2 ?_
      (fun y hy => hts y (List.mem_cons_of_mem _ hy)) x (by simpa using hx)
    intro y hy
    simp only [inc_step] at hy
    by_cases hpush : ((v, t) :: inc t).length = g.inDegree t
    · rw [if_pos hpush] at hy
      rcases List.mem_append.1 hy with h | h
      · exact ha y h
      · have : y = t := by simpa using h
        exact this ▸ hts t (List.mem_cons_self t rest)
    · rw [if_neg hpush] at hy
      exact ha y hy

/-- Helper: the notification fold only records actual constraint edges. -/
theorem fold_inc_edges (g : Digraph) (v : ℕ) :
    ∀ (ts : List ℕ) (inc : ℕ → List (ℕ × ℕ)) (active : List ℕ),
      (∀ t p, p ∈ inc t → p ∈ g.edges) → (∀ t ∈ ts, (v, t) ∈ g.edges) →
      ∀ t p, p ∈ (ts.foldl (inc_step g v) (inc, active)).1 t → p ∈ g.edges := by
  intro ts
  induction ts with
  | nil => intro inc active hinc _ t p hp; exact hinc t p hp
  | cons t0 rest ih =>
    intro inc active hinc hts t p hp
    rw [List.foldl_cons] at hp
    refine ih (inc_step g v (inc, active) t0).1 (inc_step g v (inc, active) t0).2 ?_
      (fun y hy => hts y (List.mem_cons_of_mem _ hy)) t p (by simpa using hp)
    intro t1 p1 hp1
    simp only [inc_step] at hp1
    by_cases h : t1 = t0
    · rw [if_pos h] at hp1
      rcases List.mem_cons.1 hp1 with rfl | hold
      · exact hts t0 (List.mem_cons_self t0 rest)
      · exact hinc t0 p1 hold
    · rw [if_neg h] at hp1
      exact hinc t1 p1 hp1

/-- Helper: a sum of point indicators over a duplicate-free list is at most 1. -/
theorem sum_indicator_le_one {x : ℕ} :
    ∀ {l : List ℕ}, l.Nodup → (l.map (fun t => if x = t then 1 else 0)).sum ≤ 1 := by
  intro l
  induction l with
  | nil => intro _; simp
  | cons a rest ih =>
    intro hn
    have hnd := List.nodup_cons.1 hn
    by_cases hxa : x = a
    · rw [hxa]
      have hz : (rest.map (fun t => if a = t then 1 else 0)).sum = 0 := by
        rw [List.sum_eq_zero]
        intro y hy
        obtain ⟨t, htmem, rfl⟩ := List.mem_map.1 hy
        have hat : a ≠ t := fun h => hnd.1 (h ▸ htmem)
        rw [if_neg hat]
      simp [hz]
    · simp only [List.map_cons, List.sum_cons, if_neg hxa, Nat.zero_add]
      exact ih hnd.2

/-- Helper: summing the in-degrees over the (duplicate-free) node list counts
each edge at most once. -/
theorem sum_filter_snd_le (nodes : List ℕ) (hnd : nodes.Nodup) :
    ∀ es : List (ℕ × ℕ),
      (nodes.map (fun t => (es.filter (fun e => decide (e.2 = t))).length)).sum
        ≤ es.length := by
  intro es
  induction es with
  | nil => simp
  | cons e rest ih =>
    have hpoint : ∀ t : ℕ, ((e :: rest).filter (fun e2 => decide (e2.2 = t))).length
        = (if e.2 = t then 1 else 0)
          + ((rest.filter (fun e2 => decide (e2.2 = t))).length) := by
      intro t
      by_cases h : e.2 = t
      · simp [List.filter_cons, h, Nat.add_comm]
      · simp [List.filter_cons, h]
    calc (nodes.map (fun t => ((e :: rest).filter (fun e2 => decide (e2.2 = t))).length)).sum
        = (nodes.map (fun t => (if e.2 = t then 1 else 0)
            + ((rest.filter (fun e2 => decide (e2.2 = t))).length))).sum := by
          exact congrArg List.sum (List.map_congr_left (fun t _ => hpoint t))
      _ = (nodes.map (fun t => if e.2 = t then 1 else 0)).sum
            + (nodes.map (fun t => (rest.filter (fun e2 => decide (e2.2 = t))).length)).sum :=
          List.sum_map_add
      _ ≤ 1 + rest.length := Nat.add_le_add (sum_indicator_le_one hnd) ih
      _ = (e :: rest).length := by simp [List.length_cons, Nat.add_comm]

/-- Helper: total in-degree is bounded by the edge count. -/
theorem sum_inDegree_le (g : Digraph) (hnd : g.nodes.Nodup) :
    (g.nodes.map (fun t => g.inDegree t)).sum ≤ g.edges.length := by
  have heq : (g.nodes.map (fun t => g.inDegree t))
      = g.nodes.map (fun t => (g.edges.filter (fun e => decide (e.2 = t))).length) := by
    apply List.map_congr_left
    intro t _
    simp [Digraph.inDegree, Digraph.pred]
  rw [heq]
  exact sum_filter_snd_le g.nodes hnd g.edges

/-- Helper: with enough fuel (more than the measure), the worklist loop of
`find_violated_constraint` always completes. -/
theorem find_violated_aux_isSome (g : Digraph) (bary : ℕ → ℚ)
    (hnd : g.nodes.Nodup)
    (hedge : ∀ e ∈ g.edges, e.1 ∈ g.nodes ∧ e.2 ∈ g.nodes ∧ e.1 ≠ e.2) :
    ∀ (fuel : ℕ) (active : List ℕ) (inc : ℕ → List (ℕ × ℕ)),
      (∀ x ∈ active, x ∈ g.nodes) →
      incMeasure g active inc < fuel →
      (find_violated_aux g bary fuel active inc).isSome = true := by
  intro fuel
  induction fuel with
  | zero => intro active inc _ hM; exact absurd hM (by omega)
  | succ f ih =>
    intro active inc hact hM
    cases active with
    | nil => simp [find_violated_aux]
    | cons v rest =>
      simp only [find_violated_aux]
      cases hfind : (inc v).find? (fun c => decide (bary v ≤ bary c.1)) with
      | some c => simp
      | none =>
        apply ih
        · exact fold_active_nodes g v (g.succ v) inc rest
            (fun x hx => hact x (List.mem_cons_of_mem _ hx))
            (fun t ht => (hedge _ (mem_succ_edge ht)).2.1)
        · have hfold := fold_inc_measure g v hnd (g.succ v) inc rest
            (fun t ht => (hedge _ (mem_succ_edge ht)).2.1)
          have hcons : incMeasure g (v :: rest) inc = incMeasure g rest inc + 1 := by
            simp only [incMeasure, List.length_cons]
            omega
          omega

/-- Helper: `find_violated_constraint` never exhausts its worklist fuel on a
well-formed constraint graph. -/
theorem find_violated_constraint_isSome (g : Digraph) (bary : ℕ → ℚ)
    (hnd : g.nodes.Nodup)
    (hedge : ∀ e ∈ g.edges, e.1 ∈ g.nodes ∧ e.2 ∈ g.nodes ∧ e.1 ≠ e.2) :
    (find_violated_constraint g bary).isSome = true := by
  apply find_violated_aux_isSome g bary hnd hedge
  · intro x hx; exact List.mem_of_mem_filter hx
  · have hbound : incMeasure g
        (g.nodes.filter (fun v => !(g.succ v).isEmpty && (g.pred v).isEmpty))
        (fun _ => []) ≤ g.nodes.length + g.edges.length := by
      simp only [incMeasure, List.length_nil, Nat.sub_zero]
      exact Nat.add_le_add (List.length_filter_le _ _) (sum_inDegree_le g hnd)
    omega

/-- Helper: a violated constraint reported by the worklist loop is an edge of
the constraint graph. -/
theorem find_violated_aux_mem (g : Digraph) (bary : ℕ → ℚ) :
    ∀ (fuel : ℕ) (active : List ℕ) (inc : ℕ → List (ℕ × ℕ)),
      (∀ t p, p ∈ inc t → p ∈ g.edges) →
      ∀ c, find_violated_aux g bary fuel active inc = some (some c) → c ∈ g.edges := by
  intro fuel
  induction fuel with
  | zero => intro active inc _ c h; simp [find_violated_aux] at h
  | succ f ih =>
    intro active inc hinc c h
    cases active with
    | nil => simp [find_violated_aux] at h
    | cons v rest =>
      simp only [find_violated_aux] at h
      cases hfind : (inc v).find? (fun c => decide (bary v ≤ bary c.1)) with
      | some c2 =>
        rw [hfind] at h
        simp only [Option.some.injEq] at h
        exact h ▸ hinc v c2 (List.mem_of_find?_eq_some hfind)
      | none =>
        rw [hfind] at h
        exact ih _ _ (fold_inc_edges g v (g.succ v) inc rest hinc
          (fun t ht => mem_succ_edge ht)) c h

/-- Helper: a violated constraint reported by `find_violated_constraint` is an
edge of the constraint graph. -/
theorem find_violated_constraint_mem (g : Digraph) (bary : ℕ → ℚ)
    {c : ℕ × ℕ} (h : find_violated_constraint g bary = some (some c)) : c ∈ g.edges :=
  find_violated_aux_mem g bary _ _ _ (fun _ p hp => absurd hp (List.not_mem_nil p)) c h


/-- Helper: `add_edge` keeps existing nodes. -/
theorem addEdge_mem_nodes {g : Digraph} {x : ℕ} (h : x ∈ g.nodes) (u v : ℕ) :
    x ∈ (g.addEdge u v).nodes := by
  simp only [Digraph.addEdge, Digraph.addNode]
  split <;> split <;> split <;>
    simp_all [List.mem_append]

/-- Helper: `add_edge` registers the edge's target as a node. -/
theorem addEdge_target_mem {g : Digraph} (u v : ℕ) : v ∈ (g.addEdge u v).nodes := by
  simp only [Digraph.addEdge, Digraph.addNode]
  split <;> split <;> split <;>
    simp_all [List.mem_append]

/-- Helper: `add_edge` adds at most the requested edge. -/
theorem addEdge_edges_cases {g : Digraph} {u v : ℕ} :
    ∀ e ∈ (g.addEdge u v).edges, e ∈ g.edges ∨ e = (u, v) := by
  intro e he
  simp only [Digraph.addEdge, Digraph.addNode] at he
  have hsame : ∀ h : Digraph, h.edges = g.edges →
      e ∈ h.edges ∨ e ∈ h.edges ++ [(u, v)] → e ∈ g.edges ∨ e = (u, v) := by
    intro h hh hyp
    rcases hyp with h1 | h1
    · exact Or.inl (hh ▸ h1)
    · rcases List.mem_append.1 (hh ▸ h1) with h2 | h2
      · exact Or.inl h2
      · exact Or.inr (by simpa using h2)
  revert he
  split <;> split <;> split <;> intro he <;>
    first
      | exact Or.inl he
      | (rcases List.mem_append.1 he with h2 | h2
         · exact Or.inl h2
         · exact Or.inr (by simpa using h2))

/-- Helper: the node list after folding `add_edge(u, vc)` over a list of
already-present sources either is unchanged or gains exactly the fresh target. -/
theorem fold_addEdge_nodes (vc : ℕ) :
    ∀ (us : List ℕ) (g : Digraph), (∀ u ∈ us, u ∈ g.nodes) →
      (us.foldl (fun g u => g.addEdge u vc) g).nodes = g.nodes
        ∨ ((us.foldl (fun g u => g.addEdge u vc) g).nodes = g.nodes ++ [vc]
            ∧ vc ∉ g.nodes) := by
  intro us
  induction us with
  | nil => intro g _; exact Or.inl rfl
  | cons u rest ih =>
    intro g hus
    have hu : u ∈ g.nodes := hus u (List.mem_cons_self u rest)
    have hrest : ∀ x ∈ rest, x ∈ (g.addEdge u vc).nodes := fun x hx =>
      addEdge_mem_nodes (hus x (List.mem_cons_of_mem _ hx)) u vc
    rw [List.foldl_cons]
    have hcase : (g.addEdge u vc).nodes = g.nodes
        ∨ ((g.addEdge u vc).nodes = g.nodes ++ [vc] ∧ vc ∉ g.nodes) := by
      simp only [Digraph.addEdge, Digraph.addNode, if_pos hu]
      by_cases hvc : vc ∈ g.nodes
      · rw [if_pos hvc]
        split <;> exact Or.inl rfl
      · rw [if_neg hvc]
        split <;> exact Or.inr ⟨rfl, hvc⟩
    rcases hcase with hc | ⟨hc, hvc⟩
    · rcases ih (g.addEdge u vc) hrest with h | ⟨h, hv⟩
      · exact Or.inl (h.trans hc)
      · rw [hc] at h hv
        exact Or.inr ⟨h, hv⟩
    · rcases ih (g.addEdge u vc) hrest with h | ⟨h, hv⟩
      · rw [hc] at h
        exact Or.inr ⟨h, hvc⟩
      · rw [hc] at hv
        exact absurd (List.mem_append.2 (Or.inr (List.mem_singleton_self vc))) hv

/-- Helper: folding `add_edge` never loses nodes. -/
theorem fold_addEdge_nodes_mono (vc : ℕ) :
    ∀ (us : List ℕ) (g : Digraph) (x : ℕ), x ∈ g.nodes →
      x ∈ (us.foldl (fun g u => g.addEdge u vc) g).nodes := by
  intro us
  induction us with
  | nil => intro g x hx; exact hx
  | cons u rest ih =>
    intro g x hx
    rw [List.foldl_cons]
    exact ih _ x (addEdge_mem_nodes hx u vc)

/-- Helper: the edges after folding `add_edge(u, vc)` are the old edges plus
edges into the (then present) merge node `vc` from fold sources. -/
theorem fold_addEdge_edges (vc : ℕ) :
    ∀ (us : List ℕ) (g : Digraph), ∀ e ∈ (us.foldl (fun g u => g.addEdge u vc) g).edges,
      e ∈ g.edges ∨ (e.1 ∈ us ∧ e.2 = vc
        ∧ vc ∈ (us.foldl (fun g u => g.addEdge u vc) g).nodes) := by
  intro us
  induction us with
  | nil => intro g e he; exact Or.inl he
  | cons u rest ih =>
    intro g e he
    rw [List.foldl_cons] at he ⊢
    rcases ih (g.addEdge u vc) e he with h | ⟨h1, h2, h3⟩
    · rcases addEdge_edges_cases e h with h2 | h2
      · exact Or.inl h2
      · refine Or.inr ⟨?_, ?_, ?_⟩
        · rw [h2]; exact List.mem_cons_self u rest
        · rw [h2]
        · exact fold_addEdge_nodes_mono vc rest _ vc (addEdge_target_mem u vc)
    · exact Or.inr ⟨List.mem_cons_of_mem _ h1, h2, h3⟩

/-- Helper: a duplicate-free list with a distinct present pair filtered out
loses exactly two elements. -/
theorem length_filter_none_of_pair {s t : ℕ} :
    ∀ {l : List ℕ}, s ∉ l → t ∉ l →
      l.filter (fun v => decide (v ∉ ([s, t] : List ℕ))) = l := by
  intro l hs ht
  rw [List.filter_eq_self]
  intro a ha
  simp only [decide_eq_true_eq, List.mem_cons, List.not_mem_nil, or_false]
  push_neg
  exact ⟨fun h => hs (h ▸ ha), fun h => ht (h ▸ ha)⟩

/-- Helper: filtering out a pair with only one member present removes exactly
one element. -/
theorem length_filter_one_of_pair {s t : ℕ} :
    ∀ {l : List ℕ}, l.Nodup → t ∈ l → s ∉ l →
      (l.filter (fun v => decide (v ∉ ([s, t] : List ℕ)))).length = l.length - 1 := by
  intro l
  induction l with
  | nil => intro _ ht _; cases ht
  | cons a rest ih =>
    intro hn ht hs
    have hnd := List.nodup_cons.1 hn
    have hsr : s ∉ rest := fun h => hs (List.mem_cons_of_mem _ h)
    have hsa : a ≠ s := fun h => hs (by rw [h]; exact List.mem_cons_self s rest)
    rcases List.mem_cons.1 ht with rfl | htr
    · rw [List.filter_cons, if_neg (by simp)]
      rw [length_filter_none_of_pair hsr hnd.1]
      simp
    · have hat : a ≠ t := fun h => hnd.1 (h ▸ htr)
      rw [List.filter_cons, if_pos (by simp [hsa, hat])]
      simp only [List.length_cons]
      rw [ih hnd.2 htr hsr]
      have : 1 ≤ rest.length := List.length_pos_of_mem htr
      omega

/-- Helper: filtering out a present, distinct pair removes exactly two
elements. -/
theorem length_filter_pair {s t : ℕ} :
    ∀ {l : List ℕ}, l.Nodup → s ∈ l → t ∈ l → s ≠ t →
      (l.filter (fun v => decide (v ∉ ([s, t] : List ℕ)))).length = l.length - 2 := by
  intro l
  induction l with
  | nil => intro _ hs _ _; cases hs
  | cons a rest ih =>
    intro hn hs ht hst
    have hnd := List.nodup_cons.1 hn
    rcases List.mem_cons.1 hs with rfl | hsr
    · have htr : t ∈ rest := by
        rcases List.mem_cons.1 ht with h | h
        · exact absurd h.symm hst
        · exact h
      rw [List.filter_cons, if_neg (by simp)]
      rw [length_filter_one_of_pair hnd.2 htr hnd.1]
      have : 1 ≤ rest.length := List.length_pos_of_mem htr
      simp only [List.length_cons]
      omega
    · rcases List.mem_cons.1 ht with rfl | htr
      · have hswap : ∀ v : ℕ, (decide (v ∉ ([s, t] : List ℕ)))
            = (decide (v ∉ ([t, s] : List ℕ))) := by
          intro v
          simp only [List.mem_cons, List.not_mem_nil, or_false]
          by_cases h1 : v = s <;> by_cases h2 : v = t <;> simp [h1, h2]
        rw [List.filter_congr (fun v _ => hswap v)]
        rw [List.filter_cons, if_neg (by simp)]
        rw [length_filter_one_of_pair (s := t) (t := s) hnd.2 hsr hnd.1]
        have : 1 ≤ rest.length := List.length_pos_of_mem hsr
        simp only [List.length_cons]
        omega
      · have has : a ≠ s := fun h => hnd.1 (h ▸ hsr)
        have hat : a ≠ t := fun h => hnd.1 (h ▸ htr)
        rw [List.filter_cons, if_pos (by simp [has, hat])]
        simp only [List.length_cons]
        rw [ih hnd.2 hsr htr hst]
        have h2 : 2 ≤ rest.length := by
          have h1 : t ∈ rest.erase s := (List.mem_erase_of_ne (Ne.symm hst)).2 htr
          have := List.length_pos_of_mem h1
          rw [List.length_erase_of_mem hsr] at this
          omega
        omega


/-- Helper: two distinct members force length at least two. -/
theorem two_le_length_of_mem_ne {l : List ℕ} {s t : ℕ} (hs : s ∈ l) (ht : t ∈ l)
    (hst : s ≠ t) : 2 ≤ l.length := by
  cases l with
  | nil => cases hs
  | cons a rest =>
    cases rest with
    | nil =>
      simp only [List.mem_singleton] at hs ht
      exact absurd (hs.trans ht.symm) hst
    | cons b rs =>
      simp only [List.length_cons]
      omega

/-- Helper: merging a violated constraint preserves well-formedness of the
constraint graph and strictly decreases its node count. -/
theorem merge_step_wf (st : HCState) (hwf : HCwf st) (c : ℕ × ℕ)
    (hc : c ∈ st.gc.edges) :
    HCwf (merge_step st c) ∧ (merge_step st c).gc.nodes.length < st.gc.nodes.length := by
  obtain ⟨hnd, hedge, hfresh⟩ := hwf
  obtain ⟨s, t⟩ := c
  obtain ⟨hs, ht, hst⟩ := hedge (s, t) hc
  have hgc : (merge_step st (s, t)).gc
      = (((st.gc.pred s ++ st.gc.pred t).foldl (fun g u => g.addEdge u st.fresh)
          st.gc).removeNodes [s, t]).removeEdge st.fresh st.fresh := rfl
  have hfr : (merge_step st (s, t)).fresh = st.fresh + 1 := rfl
  have hvs : s ≠ st.fresh := fun h => absurd (hfresh s hs) (by rw [h]; exact lt_irrefl _)
  have hvt : t ≠ st.fresh := fun h => absurd (hfresh t ht) (by rw [h]; exact lt_irrefl _)
  have hus : ∀ u ∈ st.gc.pred s ++ st.gc.pred t, u ∈ st.gc.nodes := by
    intro u hu
    rcases List.mem_append.1 hu with h | h
    · obtain ⟨e, he, he1, _⟩ := mem_pred_sub h
      exact he1 ▸ (hedge e he).1
    · obtain ⟨e, he, he1, _⟩ := mem_pred_sub h
      exact he1 ▸ (hedge e he).1
  have hnodes2 : ((merge_step st (s, t)).gc).nodes
      = ((st.gc.pred s ++ st.gc.pred t).foldl (fun g u => g.addEdge u st.fresh)
          st.gc).nodes.filter (fun v => decide (v ∉ ([s, t] : List ℕ))) := rfl
  have hedges2 : ∀ e ∈ ((merge_step st (s, t)).gc).edges,
      e.1 ∈ ((merge_step st (s, t)).gc).nodes
        ∧ e.2 ∈ ((merge_step st (s, t)).gc).nodes ∧ e.1 ≠ e.2 := by
    intro e he
    rw [hgc] at he
    simp only [Digraph.removeEdge, Digraph.removeNodes, List.mem_filter,
      decide_eq_true_eq] at he
    obtain ⟨⟨hef, hkeep⟩, hne_loop⟩ := he
    rw [hnodes2]
    simp only [List.mem_filter, decide_eq_true_eq]
    rcases fold_addEdge_edges st.fresh (st.gc.pred s ++ st.gc.pred t) st.gc e hef
      with hold | ⟨hp1, hp2, hp3⟩
    · obtain ⟨h1, h2, h3⟩ := hedge e hold
      exact ⟨⟨fold_addEdge_nodes_mono _ _ _ _ h1, hkeep.1⟩,
        ⟨fold_addEdge_nodes_mono _ _ _ _ h2, hkeep.2⟩, h3⟩
    · have h1 : e.1 ∈ st.gc.nodes := hus e.1 hp1
      refine ⟨⟨fold_addEdge_nodes_mono _ _ _ _ h1, hkeep.1⟩, ⟨hp2 ▸ hp3, hkeep.2⟩, ?_⟩
      intro hcontra
      have := hfresh e.1 h1
      rw [hcontra, hp2] at this
      exact lt_irrefl _ this
  rcases fold_addEdge_nodes st.fresh (st.gc.pred s ++ st.gc.pred t) st.gc hus
    with hfold | ⟨hfold, hnin⟩
  · have hlen : ((merge_step st (s, t)).gc).nodes.length = st.gc.nodes.length - 2 := by
      rw [hnodes2, hfold, length_filter_pair hnd hs ht hst]
    have hpos : 1 ≤ st.gc.nodes.length := List.length_pos_of_mem hs
    refine ⟨⟨?_, hedges2, ?_⟩, by omega⟩
    · rw [hnodes2, hfold]
      exact hnd.filter _
    · intro v hv
      rw [hfr]
      rw [hnodes2, hfold] at hv
      exact lt_trans (hfresh v (List.mem_of_mem_filter hv)) (Nat.lt_succ_self _)
  · have hfilterv : ([st.fresh].filter (fun v => decide (v ∉ ([s, t] : List ℕ))))
        = [st.fresh] := by
      rw [List.filter_eq_self]
      intro a ha
      simp only [List.mem_singleton] at ha
      subst ha
      simp [Ne.symm hvs, Ne.symm hvt]
    have hlen : ((merge_step st (s, t)).gc).nodes.length = st.gc.nodes.length - 1 := by
      rw [hnodes2, hfold, List.filter_append, hfilterv, List.length_append,
        length_filter_pair hnd hs ht hst]
      have h2 := two_le_length_of_mem_ne hs ht hst
      simp only [List.length_singleton]
      omega
    have h2 := two_le_length_of_mem_ne hs ht hst
    refine ⟨⟨?_, hedges2, ?_⟩, by omega⟩
    · rw [hnodes2, hfold]
      refine List.Nodup.filter _ ?_
      rw [List.nodup_append]
      exact ⟨hnd, List.nodup_singleton _, by
        intro x hx
        simp only [List.mem_singleton]
        exact fun hxf => hnin (hxf ▸ hx)⟩
    · intro v hv
      rw [hfr]
      rw [hnodes2, hfold] at hv
      have := List.mem_of_mem_filter hv
      rcases List.mem_append.1 this with h | h
      · exact lt_trans (hfresh v h) (Nat.lt_succ_self _)
      · have : v = st.fresh := by simpa using h
        omega

/-- Helper: with merge fuel at least (node count - 1), the merge loop of
`handle_constraints` reaches the no-violation state. -/
theorem resolve_loop_isSome :
    ∀ (fuel : ℕ) (st : HCState), HCwf st → st.gc.nodes.length ≤ fuel + 1 →
      (resolve_loop st fuel).isSome = true := by
  intro fuel
  induction fuel with
  | zero =>
    intro st hwf hlen
    rw [resolve_loop]
    cases hf : find_violated_constraint st.gc st.bary with
    | none =>
      have := find_violated_constraint_isSome st.gc st.bary hwf.1 hwf.2.1
      rw [hf] at this
      simp at this
    | some o =>
      cases o with
      | none => simp
      | some c =>
        exfalso
        have hc := find_violated_constraint_mem st.gc st.bary hf
        obtain ⟨hsm, htm, hne⟩ := hwf.2.1 c hc
        have := two_le_length_of_mem_ne hsm htm hne
        omega
  | succ f ih =>
    intro st hwf hlen
    rw [resolve_loop]
    cases hf : find_violated_constraint st.gc st.bary with
    | none =>
      have := find_violated_constraint_isSome st.gc st.bary hwf.1 hwf.2.1
      rw [hf] at this
      simp at this
    | some o =>
      cases o with
      | none => simp
      | some c =>
        have hc := find_violated_constraint_mem st.gc st.bary hf
        obtain ⟨hwf2, hdec⟩ := merge_step_wf st hwf c hc
        exact ih (merge_step st c) hwf2 (by omega)

/-- C4.  On every well-formed constraint-graph state, each merge of a violated
constraint's two endpoints strictly decreases the number of distinct
constraint-graph nodes, and therefore the `while` loop of `handle_constraints`
terminates within (initial node count - 1) merge iterations: with that merge
budget the loop reaches the no-violation state (it never exhausts the budget). -/
theorem handle_constraints_terminates (st : HCState) (hwf : HCwf st) :
    (∀ c ∈ st.gc.edges, (merge_step st c).gc.nodes.length < st.gc.nodes.length)
      ∧ (resolve_loop st (st.gc.nodes.length - 1)).isSome = true := by
  constructor
  · intro c hc
    exact (merge_step_wf st hwf c hc).2
  · exact resolve_loop_isSome (st.gc.nodes.length - 1) st hwf (by omega)

/-- C4 witness: the termination bound applied to the concrete three-cluster
chain A -> B -> C of the C2 scenario (3 nodes, merge budget 2). -/
theorem handle_constraints_terminates_witness :
    HCwf (hc_init_state [0, 1, 2] [0, 1, 2] (fun _ => 1) (fun v => (3 : ℚ) - v))
      ∧ (resolve_loop (hc_init_state [0, 1, 2] [0, 1, 2] (fun _ => 1) (fun v => (3 : ℚ) - v))
          ((hc_init_state [0, 1, 2] [0, 1, 2] (fun _ => 1)
              (fun v => (3 : ℚ) - v)).gc.nodes.length - 1)).isSome = true := by
  have hwf : HCwf (hc_init_state [0, 1, 2] [0, 1, 2] (fun _ => 1) (fun v => (3 : ℚ) - v)) := by
    refine ⟨?_, ?_, ?_⟩ <;> decide
  exact ⟨hwf, (handle_constraints_terminates _ hwf).2⟩

/-- C2.  Evaluating `handle_constraints` at the spec's adversarial forced-order
scenario: clusters A=0, B=1, C=2 with constraint chain A<B<C and initial
barycenters A=3, B=2, C=1 (all contracted-graph degrees 1).  The first violated
constraint (A,B) is merged, but `GC.remove_nodes_from((s, t))` also deletes the
outgoing constraint edge B->C, so the chain constraint on C is lost: the final
expanded order is [C, A, B] with dense ranks A=1, B=2, C=0, violating
rank(B) < rank(C) - the code contradicts the spec's required
rank(A) < rank(B) < rank(C). -/
theorem handle_constraints_chain_counterexample :
    (handle_constraints [0, 1, 2] [0, 1, 2] (fun _ => 1) (fun v => (3 : ℚ) - v) 3).map
        (fun res => (res.2, res.1 0, res.1 1, res.1 2))
      = some ([2, 0, 1], 1, 2, 0) := by
  norm_num [handle_constraints, hc_init_state, resolve_loop, find_violated_constraint,
    find_violated_aux, inc_step, merge_step, Digraph.addEdgesFrom, Digraph.addEdge,
    Digraph.addNode, Digraph.succ, Digraph.pred, Digraph.inDegree, Digraph.removeNodes,
    Digraph.removeEdge, List.mergeSort, List.filter, List.find?, List.foldl, List.enum,
    List.enumFrom]

/-- Helper rewrites deciding `Mode` constructor comparisons during concrete
evaluation. -/
theorem mode_cond_rubber :
    (Mode.RUBBER = Mode.FORW_PENDULUM ∨ Mode.RUBBER = Mode.BACKW_PENDULUM) = False := by
  simp

theorem mode_cond_forw :
    (Mode.FORW_PENDULUM = Mode.FORW_PENDULUM
      ∨ Mode.FORW_PENDULUM = Mode.BACKW_PENDULUM) = True := by
  simp

theorem mode_cond_backw :
    (Mode.BACKW_PENDULUM = Mode.FORW_PENDULUM
      ∨ Mode.BACKW_PENDULUM = Mode.BACKW_PENDULUM) = True := by
  simp

theorem mode_eq_ff : (Mode.FORW_PENDULUM = Mode.FORW_PENDULUM) = True := by simp

theorem mode_eq_bf : (Mode.BACKW_PENDULUM = Mode.FORW_PENDULUM) = False := by simp

theorem mode_ne_rf : (Mode.RUBBER ≠ Mode.FORW_PENDULUM) = True := by simp

theorem mode_ne_rb : (Mode.RUBBER ≠ Mode.BACKW_PENDULUM) = True := by simp

theorem mode_ne_ff : (Mode.FORW_PENDULUM ≠ Mode.FORW_PENDULUM) = False := by simp

theorem mode_ne_fb : (Mode.FORW_PENDULUM ≠ Mode.BACKW_PENDULUM) = True := by simp

theorem mode_ne_bf : (Mode.BACKW_PENDULUM ≠ Mode.FORW_PENDULUM) = True := by simp

theorem mode_ne_bb : (Mode.BACKW_PENDULUM ≠ Mode.BACKW_PENDULUM) = False := by simp

/-- C9.  On a single one-node segment with no edges (all deflections are 0),
`balance_placement` terminates at the FIRST confirming rubber iteration: the
loop exits with `ready = true` and `final_iters = 2` - the counter was
decremented exactly once - because the break condition
`if ready and final_iters > 0: break` (linear_segments.py:275) fires as soon
as one stabilization check passes, contradicting the claim that fewer than 3
confirming rubber iterations never end the loop (with the intended
`final_iters <= 0` test the loop would run 3 confirming iterations). -/
theorem balance_placement_single_confirmation :
    (balance_placement c9_input 2 3 40 (fun _ => 0)).map
        (fun s => (s.mode, s.ready, s.final_iters))
      = some (Mode.RUBBER, true, 2) := by
  norm_num [balance_placement, balance_loop, balance_step, calc_all_deflections,
    calc_deflection, node_deflection_pair, get_out_edges, get_in_edges,
    total_abs_deflection, merge_regions_loop, merge_regions_cols, merge_regions_pairs,
    apply_deflections, region, lt_inf, ge_inf, sub_lt_inf, c9_input,
    DEFLECTION_DAMPENING, BALANCE_ITERS, PENDULUM_ITERS, FINAL_ITERS, THRESH_FAC,
    List.filter, List.foldl, List.zip, List.zipWith, mode_cond_rubber, mode_cond_forw,
    mode_cond_backw, mode_eq_ff, mode_eq_bf, mode_ne_rf, mode_ne_rb, mode_ne_ff,
    mode_ne_fb, mode_ne_bf, mode_ne_bb]


/-- Pairing a sum over an even range (C1 analysis). -/
theorem pair_double_sum (m : ℕ) (g : ℕ → ℕ) :
    ∑ t2 ∈ Finset.range (2 * m), g t2 = ∑ t ∈ Finset.range m, (g (2 * t) + g (2 * t + 1)) := by
  induction m with
  | zero => simp
  | succ m ih =>
    have h2 : 2 * (m + 1) = 2 * m + 1 + 1 := by ring
    rw [h2, Finset.sum_range_succ, Finset.sum_range_succ, Finset.sum_range_succ, ih]
    ring

/-- Splitting a strict-suffix sum over an even range at the odd partner of `s`
(C1 analysis). -/
theorem split_sum (m s : ℕ) (f : ℕ → ℕ) (hs : s < 2 * m) :
    (∑ t2 ∈ Finset.range (2 * m), if s < t2 then f t2 else 0)
      = (if s % 2 = 0 then f (s + 1) else 0)
        + ∑ t ∈ Finset.range m, if s / 2 < t then f (2 * t) + f (2 * t + 1) else 0 := by
  rw [pair_double_sum]
  have key : ∀ t ∈ Finset.range m,
      ((if s < 2 * t then f (2 * t) else 0) + (if s < 2 * t + 1 then f (2 * t + 1) else 0))
        = (if s / 2 < t then f (2 * t) + f (2 * t + 1) else 0)
          + (if t = s / 2 ∧ s % 2 = 0 then f (s + 1) else 0) := by
    intro t _
    rcases Nat.lt_trichotomy t (s / 2) with h | h | h
    · have h1 : ¬ s < 2 * t := by omega
      have h2 : ¬ s < 2 * t + 1 := by omega
      have h3 : ¬ s / 2 < t := by omega
      have h4 : ¬ t = s / 2 := by omega
      simp [h1, h2, h3, h4]
    · by_cases hpar : s % 2 = 0
      · have h1 : ¬ s < 2 * t := by omega
        have h2 : s < 2 * t + 1 := by omega
        have h3 : ¬ s / 2 < t := by omega
        have h5 : 2 * t + 1 = s + 1 := by omega
        rw [if_neg h1, if_pos h2, if_neg h3, if_pos (⟨h, hpar⟩ : t = s / 2 ∧ s % 2 = 0), h5]
      · have h1 : ¬ s < 2 * t := by omega
        have h2 : ¬ s < 2 * t + 1 := by omega
        have h3 : ¬ s / 2 < t := by omega
        simp [h1, h2, h3, hpar]
    · have h1 : s < 2 * t := by omega
      have h2 : s < 2 * t + 1 := by omega
      have h3 : s / 2 < t := by omega
      have h4 : ¬ t = s / 2 := by omega
      simp [h1, h2, h3, h4]
  rw [Finset.sum_congr rfl key, Finset.sum_add_distrib]
  by_cases hpar : s % 2 = 0
  · have hmem : s / 2 ∈ Finset.range m := Finset.mem_range.mpr (by omega)
    have hcond : ∀ t : ℕ, (t = s / 2 ∧ s % 2 = 0) = (t = s / 2) := by
      intro t; simp [hpar]
    have hsum2 : (∑ t ∈ Finset.range m, if t = s / 2 ∧ s % 2 = 0 then f (s + 1) else 0)
        = f (s + 1) := by
      simp only [hcond]
      rw [Finset.sum_ite_eq' (Finset.range m) (s / 2) (fun _ => f (s + 1)), if_pos hmem]
    rw [hsum2, if_pos hpar]
    omega
  · have hsum2 : (∑ t ∈ Finset.range m, if t = s / 2 ∧ s % 2 = 0 then f (s + 1) else 0)
        = 0 := by
      apply Finset.sum_eq_zero
      intro t _
      rw [if_neg (by tauto)]
    rw [hsum2, if_neg hpar]
    omega

/-- One level of the heap pairing: a depth-`d` node over `2^(k+1)` leaves
aggregates the same leaf pairs as over `2^k` paired leaves (C1 analysis). -/
theorem node_pair_sum (k d j : ℕ) (hd : d ≤ k) (g : ℕ → ℕ) :
    (∑ t2 ∈ Finset.range (2 ^ (k + 1)),
        if (t2 + 2 ^ (k + 1)) / 2 ^ (k + 1 - d) = j then g t2 else 0)
      = ∑ t ∈ Finset.range (2 ^ k),
          if (t + 2 ^ k) / 2 ^ (k - d) = j then g (2 * t) + g (2 * t + 1) else 0 := by
  have h2 : 2 ^ (k + 1) = 2 * 2 ^ k := by ring
  have he : 2 ^ (k + 1 - d) = 2 * 2 ^ (k - d) := by
    have hk : k + 1 - d = (k - d) + 1 := by omega
    rw [hk, pow_succ]; ring
  rw [h2, pair_double_sum]
  refine Finset.sum_congr rfl ?_
  intro t _
  have hd1 : (2 * t + 2 * 2 ^ k) / 2 ^ (k + 1 - d) = (t + 2 ^ k) / 2 ^ (k - d) := by
    rw [he, ← Nat.div_div_eq_div_mul]
    have hh : (2 * t + 2 * 2 ^ k) / 2 = t + 2 ^ k := by omega
    rw [hh]
  have hd2 : (2 * t + 1 + 2 * 2 ^ k) / 2 ^ (k + 1 - d) = (t + 2 ^ k) / 2 ^ (k - d) := by
    rw [he, ← Nat.div_div_eq_div_mul]
    have hh : (2 * t + 1 + 2 * 2 ^ k) / 2 = t + 2 ^ k := by omega
    rw [hh]
  rw [hd1, hd2]
  by_cases hC : (t + 2 ^ k) / 2 ^ (k - d) = j
  · simp [hC]
  · simp [hC]

/-- A shifted-diagonal sum collapses to at most one term (C1 analysis). -/
theorem sum_eq_shift (n j : ℕ) (g : ℕ → ℕ) :
    (∑ t ∈ Finset.range n, if t + n = j then g t else 0)
      = if n ≤ j ∧ j < 2 * n then g (j - n) else 0 := by
  by_cases hj : n ≤ j ∧ j < 2 * n
  · rw [if_pos hj]
    rw [Finset.sum_eq_single (j - n)]
    · rw [if_pos (by omega)]
    · intro b hb hneq
      have := Finset.mem_range.mp hb
      rw [if_neg (by omega)]
    · intro hnot
      exact absurd (Finset.mem_range.mpr (by omega)) hnot
  · rw [if_neg hj]
    apply Finset.sum_eq_zero
    intro t ht
    have := Finset.mem_range.mp ht
    rw [if_neg (by omega)]

/-- `sweep_loop` at index 0 is the identity for any fuel. -/
theorem sweep_loop_zero (w fuel : ℕ) (tree : ℕ → ℕ) (wsum : ℕ) :
    sweep_loop w fuel tree 0 wsum = (tree, wsum) := by
  cases fuel <;> simp [sweep_loop]

/-- One unfolding of the `while idx > 0` walk (ordering.py:264-269). -/
theorem sweep_loop_step (w fuel idx : ℕ) (tree : ℕ → ℕ) (wsum : ℕ) (h : 0 < idx) :
    sweep_loop w (fuel + 1) tree idx wsum
      = sweep_loop w fuel (bump tree ((idx - 1) / 2) w) ((idx - 1) / 2)
          (if idx % 2 = 1 then wsum + tree (idx + 1) else wsum) := by
  simp only [sweep_loop, if_pos h]
  rfl

/-- The final weight sum is the initial accumulator plus the run from 0, and
the final tree does not depend on the accumulator (C1 analysis). -/
theorem sweep_loop_wsum (w : ℕ) :
    ∀ fuel (tree : ℕ → ℕ) (idx wsum : ℕ),
      (sweep_loop w fuel tree idx wsum).2 = wsum + (sweep_loop w fuel tree idx 0).2
        ∧ (sweep_loop w fuel tree idx wsum).1 = (sweep_loop w fuel tree idx 0).1 := by
  intro fuel
  induction fuel with
  | zero => intro tree idx wsum; simp [sweep_loop]
  | succ fuel ih =>
    intro tree idx wsum
    rcases Nat.eq_zero_or_pos idx with h0 | h
    · subst h0; rw [sweep_loop_zero, sweep_loop_zero]; simp
    · rw [sweep_loop_step w fuel idx tree wsum h, sweep_loop_step w fuel idx tree 0 h]
      obtain ⟨ha, hb⟩ := ih (bump tree ((idx - 1) / 2) w) ((idx - 1) / 2)
        (if idx % 2 = 1 then wsum + tree (idx + 1) else wsum)
      obtain ⟨hc, hd⟩ := ih (bump tree ((idx - 1) / 2) w) ((idx - 1) / 2)
        (if idx % 2 = 1 then 0 + tree (idx + 1) else 0)
      constructor
      · rw [ha, hc]
        by_cases hp : idx % 2 = 1
        · simp only [if_pos hp]; omega
        · simp only [if_neg hp]; omega
      · rw [hb, hd]

/-- The walk only modifies tree positions strictly below the start index. -/
theorem sweep_loop_high (w : ℕ) :
    ∀ fuel (idx : ℕ) (tree : ℕ → ℕ) (wsum j : ℕ), idx ≤ j →
      (sweep_loop w fuel tree idx wsum).1 j = tree j := by
  intro fuel
  induction fuel with
  | zero => intro idx tree wsum j _; rfl
  | succ fuel ih =>
    intro idx tree wsum j hj
    rcases Nat.eq_zero_or_pos idx with h0 | h
    · subst h0; rw [sweep_loop_zero]
    · rw [sweep_loop_step w fuel idx tree wsum h]
      rw [ih ((idx - 1) / 2) _ _ j (by omega)]
      simp only [bump]
      rw [if_neg (by omega)]

/-- A leaf bump at `s` pairs to a bump at `s / 2` (C1 analysis). -/
theorem bump_pair (f : ℕ → ℕ) (s w t : ℕ) :
    bump f s w (2 * t) + bump f s w (2 * t + 1)
      = bump (fun u => f (2 * u) + f (2 * u + 1)) (s / 2) w t := by
  simp only [bump]
  split_ifs <;> omega

/-- The Fenwick invariant only reads tree positions below `2^(k+1) - 1`. -/
theorem fenwick_inv_ext (k : ℕ) (f tree tree' : ℕ → ℕ)
    (hagree : ∀ m, m < 2 ^ (k + 1) - 1 → tree m = tree' m)
    (hinv : fenwick_inv k f tree) : fenwick_inv k f tree' := by
  intro d hd j hj1 hj2
  have hp : 2 ^ (d + 1) ≤ 2 ^ (k + 1) := Nat.pow_le_pow_right (by norm_num) (by omega)
  have h1 : 1 ≤ 2 ^ d := Nat.one_le_two_pow
  rw [← hagree (j - 1) (by omega)]
  exact hinv d hd j hj1 hj2

/-- Restriction of the invariant to the lower `k` levels, with paired leaves. -/
theorem fenwick_inv_restrict (k : ℕ) (f tree : ℕ → ℕ)
    (hinv : fenwick_inv (k + 1) f tree) :
    fenwick_inv k (fun t => f (2 * t) + f (2 * t + 1)) tree := by
  intro d hd j hj1 hj2
  rw [← node_pair_sum k d j hd f]
  exact hinv d (by omega) j hj1 hj2

/-- The all-zero tree satisfies the invariant for the all-zero weighting. -/
theorem fenwick_inv_zero (k : ℕ) : fenwick_inv k (fun _ => 0) (fun _ => 0) := by
  intro d _ j _ _
  simp


/-- Inserting one edge at leaf `s` preserves the Fenwick invariant, and the
sibling reads collect exactly the already-inserted weight strictly to the
right of `s` (ordering.py:261-269, C1 analysis). -/
theorem fenwick_insert (k : ℕ) :
    ∀ (s : ℕ), s < 2 ^ k → ∀ (fuel : ℕ), s + 2 ^ k - 1 ≤ fuel →
    ∀ (tree f : ℕ → ℕ) (w : ℕ), fenwick_inv k f tree →
      fenwick_inv k (bump f s w)
          (sweep_loop w fuel (bump tree (s + 2 ^ k - 1) w) (s + 2 ^ k - 1) 0).1
        ∧ (sweep_loop w fuel (bump tree (s + 2 ^ k - 1) w) (s + 2 ^ k - 1) 0).2
            = ∑ t ∈ Finset.range (2 ^ k), if s < t then f t else 0 := by
  induction k with
  | zero =>
    intro s hs fuel _ tree f w hinv
    have hs0 : s = 0 := by norm_num at hs; omega
    subst hs0
    rw [show (0 + 2 ^ 0 - 1 : ℕ) = 0 from rfl, sweep_loop_zero]
    constructor
    · intro d hd j hj1 hj2
      have hd0 : d = 0 := by omega
      subst hd0
      norm_num at hj1 hj2
      have hj : j = 1 := by omega
      subst hj
      have hold := hinv 0 (le_refl 0) 1 (by norm_num) (by norm_num)
      norm_num [Finset.sum_range_one] at hold
      norm_num [Finset.sum_range_one, bump]
      omega
    · norm_num [Finset.sum_range_one]
  | succ k ih =>
    intro s hs fuel hfuel tree f w hinv
    have h2 : (2 : ℕ) ^ (k + 1) = 2 * 2 ^ k := by ring
    have h4 : (2 : ℕ) ^ (k + 1 + 1) = 2 * 2 ^ (k + 1) := by ring
    have h1k : 1 ≤ 2 ^ k := Nat.one_le_two_pow
    set idx := s + 2 ^ (k + 1) - 1 with hidx
    have hidxpos : 0 < idx := by omega
    obtain ⟨fuel', rfl⟩ : ∃ f', fuel = f' + 1 := ⟨fuel - 1, by omega⟩
    rw [sweep_loop_step w fuel' idx (bump tree idx w) 0 hidxpos]
    have hidx2 : (idx - 1) / 2 = s / 2 + 2 ^ k - 1 := by omega
    rw [hidx2]
    obtain ⟨hw2, ht2⟩ := sweep_loop_wsum w fuel'
      (bump (bump tree idx w) (s / 2 + 2 ^ k - 1) w) (s / 2 + 2 ^ k - 1)
      (if idx % 2 = 1 then 0 + (bump tree idx w) (idx + 1) else 0)
    rw [hw2, ht2]
    have hrest := fenwick_inv_restrict k f tree hinv
    have hinv2 : fenwick_inv k (fun t => f (2 * t) + f (2 * t + 1)) (bump tree idx w) := by
      refine fenwick_inv_ext k _ tree _ ?_ hrest
      intro m hm
      simp only [bump]
      rw [if_neg (by omega : ¬ m = idx)]
    obtain ⟨HA, HB⟩ := ih (s / 2) (by omega) fuel' (by omega) (bump tree idx w)
      (fun t => f (2 * t) + f (2 * t + 1)) w hinv2
    have hW : (if idx % 2 = 1 then 0 + (bump tree idx w) (idx + 1) else 0)
        = (if s % 2 = 0 then f (s + 1) else 0) := by
      by_cases hp : s % 2 = 0
      · have hio : idx % 2 = 1 := by omega
        rw [if_pos hio, if_pos hp]
        have hleaf := hinv (k + 1) (le_refl _) (s + 1 + 2 ^ (k + 1)) (by omega) (by omega)
        simp only [Nat.sub_self, pow_zero, Nat.div_one] at hleaf
        rw [sum_eq_shift] at hleaf
        rw [if_pos (by constructor <;> omega)] at hleaf
        have hidx1 : s + 1 + 2 ^ (k + 1) - 1 = idx + 1 := by omega
        have hidxs : s + 1 + 2 ^ (k + 1) - 2 ^ (k + 1) = s + 1 := by omega
        rw [hidx1, hidxs] at hleaf
        simp only [bump]
        rw [if_neg (by omega : ¬ idx + 1 = idx)]
        omega
      · have hio : ¬ idx % 2 = 1 := by omega
        rw [if_neg hio, if_neg hp]
    constructor
    · intro d hd j hj1 hj2
      by_cases hdk : d ≤ k
      · have hpair : ∀ t ∈ Finset.range (2 ^ k),
            (if (t + 2 ^ k) / 2 ^ (k - d) = j
              then bump f s w (2 * t) + bump f s w (2 * t + 1) else 0)
              = (if (t + 2 ^ k) / 2 ^ (k - d) = j
                  then bump (fun u => f (2 * u) + f (2 * u + 1)) (s / 2) w t else 0) := by
          intro t _
          rw [bump_pair]
        rw [node_pair_sum k d j hdk, Finset.sum_congr rfl hpair]
        exact HA d hdk j hj1 hj2
      · have hd1 : d = k + 1 := by omega
        subst hd1
        have hjlow : s / 2 + 2 ^ k - 1 ≤ j - 1 := by omega
        rw [sweep_loop_high w fuel' (s / 2 + 2 ^ k - 1) _ 0 (j - 1) hjlow]
        have hold := hinv (k + 1) (le_refl _) j hj1 hj2
        simp only [Nat.sub_self, pow_zero, Nat.div_one] at hold ⊢
        rw [sum_eq_shift] at hold ⊢
        rw [if_pos (by constructor <;> omega)] at hold ⊢
        simp only [bump]
        rw [if_neg (by omega : ¬ j - 1 = s / 2 + 2 ^ k - 1)]
        by_cases hjs : j - 2 ^ (k + 1) = s
        · rw [if_pos (by omega : j - 1 = idx), if_pos hjs, hold]
        · rw [if_neg (by omega : ¬ j - 1 = idx), if_neg hjs, hold]
    · rw [hW, HB]
      have hsplit := split_sum (2 ^ k) s f (by omega)
      rw [h2, hsplit]


/-- Processing the edge list in order: the accumulated cross weight is the
initial one plus the crossings against the running leaf weighting
(ordering.py:259-271, C1 analysis). -/
theorem fenwick_fold (k : ℕ) :
    ∀ (es : List (ℕ × ℕ)) (tree f : ℕ → ℕ) (c : ℕ),
      fenwick_inv k f tree → (∀ e ∈ es, e.1 < 2 ^ k) →
      (es.foldl (fun acc e => process_edge (2 ^ k - 1) acc e.1 e.2) (tree, c)).2
        = c + crossAgainst (2 ^ k) f es := by
  intro es
  induction es with
  | nil => intro tree f c _ _; simp [crossAgainst]
  | cons e rest ih =>
    intro tree f c hinv hlt
    have h1k : 1 ≤ 2 ^ k := Nat.one_le_two_pow
    have he : e.1 < 2 ^ k := hlt e (by simp)
    have hidx : e.1 + (2 ^ k - 1) = e.1 + 2 ^ k - 1 := by omega
    obtain ⟨HI, HQ⟩ := fenwick_insert k e.1 he (e.1 + 2 ^ k - 1) (le_refl _) tree f e.2 hinv
    rw [List.foldl_cons]
    have hstep : process_edge (2 ^ k - 1) (tree, c) e.1 e.2
        = ((sweep_loop e.2 (e.1 + 2 ^ k - 1) (bump tree (e.1 + 2 ^ k - 1) e.2)
              (e.1 + 2 ^ k - 1) 0).1,
           c + e.2 * (sweep_loop e.2 (e.1 + 2 ^ k - 1) (bump tree (e.1 + 2 ^ k - 1) e.2)
              (e.1 + 2 ^ k - 1) 0).2) := by
      simp only [process_edge]
      rw [hidx]
      rfl
    rw [hstep,
      ih _ _ _ HI (fun x hx => hlt x (List.mem_cons_of_mem e hx)), HQ]
    rw [show crossAgainst (2 ^ k) f (e :: rest)
        = e.2 * (∑ t ∈ Finset.range (2 ^ k), if e.1 < t then f t else 0)
          + crossAgainst (2 ^ k) (bump f e.1 e.2) rest from rfl]
    ring

/-- Unwinding `crossAgainst` of a start weighting: it is the weighted
inversion count plus cross terms against the initial weighting (C1 analysis). -/
theorem crossAgainst_eq (P : ℕ) :
    ∀ (es : List (ℕ × ℕ)) (f : ℕ → ℕ), (∀ e ∈ es, e.1 < P) →
      crossAgainst P f es
        = inv_weight_sum es
          + (es.map (fun e => e.2 * ∑ t ∈ Finset.range P, if e.1 < t then f t else 0)).sum := by
  intro es
  induction es with
  | nil => intro f _; simp [crossAgainst, inv_weight_sum]
  | cons e rest ih =>
    intro f hlt
    have he : e.1 < P := hlt e (by simp)
    have hsumbump : ∀ a : ℕ,
        (∑ t ∈ Finset.range P, if a < t then bump f e.1 e.2 t else 0)
          = (∑ t ∈ Finset.range P, if a < t then f t else 0)
            + (if a < e.1 then e.2 else 0) := by
      intro a
      have hterm : ∀ t ∈ Finset.range P,
          (if a < t then bump f e.1 e.2 t else 0)
            = (if a < t then f t else 0) + (if t = e.1 ∧ a < e.1 then e.2 else 0) := by
        intro t _
        simp only [bump]
        split_ifs <;> omega
      rw [Finset.sum_congr rfl hterm, Finset.sum_add_distrib]
      congr 1
      by_cases ha : a < e.1
      · have hcond : ∀ t : ℕ, (t = e.1 ∧ a < e.1) = (t = e.1) := by
          intro t; simp [ha]
        simp only [hcond]
        rw [Finset.sum_ite_eq' (Finset.range P) e.1 (fun _ => e.2),
          if_pos (Finset.mem_range.mpr he), if_pos ha]
      · have hcond : ∀ t : ℕ, (t = e.1 ∧ a < e.1) = False := by
          intro t; simp [ha]
        simp only [hcond]
        rw [if_neg ha]
        simp
    have hmap : (rest.map
          (fun x => x.2 * ∑ t ∈ Finset.range P, if x.1 < t then bump f e.1 e.2 t else 0)).sum
        = (rest.map (fun x => x.2 * ∑ t ∈ Finset.range P, if x.1 < t then f t else 0)).sum
          + (rest.map (fun x => if x.1 < e.1 then e.2 * x.2 else 0)).sum := by
      rw [← List.sum_map_add]
      refine congrArg List.sum (List.map_congr_left ?_)
      intro x _
      rw [hsumbump x.1, Nat.mul_add]
      congr 1
      by_cases hx : x.1 < e.1
      · rw [if_pos hx, if_pos hx]; ring
      · rw [if_neg hx, if_neg hx]; ring
    rw [show crossAgainst P f (e :: rest)
        = e.2 * (∑ t ∈ Finset.range P, if e.1 < t then f t else 0)
          + crossAgainst P (bump f e.1 e.2) rest from rfl]
    rw [ih (bump f e.1 e.2) (fun x hx => hlt x (List.mem_cons_of_mem e hx)), hmap]
    rw [show inv_weight_sum (e :: rest)
        = (rest.map (fun e2 => if e2.1 < e.1 then e.2 * e2.2 else 0)).sum
          + inv_weight_sum rest from rfl]
    rw [show ((e :: rest).map
          (fun x => x.2 * ∑ t ∈ Finset.range P, if x.1 < t then f t else 0)).sum
        = e.2 * (∑ t ∈ Finset.range P, if e.1 < t then f t else 0)
          + (rest.map (fun x => x.2 * ∑ t ∈ Finset.range P, if x.1 < t then f t else 0)).sum
        from rfl]
    ring

/-- The Fenwick sweep over a power-of-two leaf span computes the weighted
inversion count of the processed `(south rank, weight)` list (C1 analysis). -/
theorem fenwick_run_eq (k : ℕ) (es : List (ℕ × ℕ)) (h : ∀ e ∈ es, e.1 < 2 ^ k) :
    fenwick_run (2 ^ k) es = inv_weight_sum es := by
  unfold fenwick_run
  rw [fenwick_fold k es (fun _ => 0) (fun _ => 0) 0 (fenwick_inv_zero k) h,
    crossAgainst_eq (2 ^ k) es (fun _ => 0) h]
  simp

/-- The `first_idx` doubling loop (ordering.py:252-254) returns a power of two
at least `len(H.S)` (C1 analysis). -/
theorem first_pow2_spec (n : ℕ) : ∃ k, first_pow2 n = 2 ^ k ∧ n ≤ 2 ^ k := by
  have main : ∀ fuel acc, 0 < acc → n ≤ acc * 2 ^ fuel →
      ∃ j, first_pow2_loop n fuel acc = acc * 2 ^ j ∧ n ≤ acc * 2 ^ j := by
    intro fuel
    induction fuel with
    | zero =>
      intro acc hacc hle
      refine ⟨0, by simp [first_pow2_loop], ?_⟩
      simpa using hle
    | succ fuel ih =>
      intro acc hacc hle
      by_cases h : acc < n
      · obtain ⟨j, hj1, hj2⟩ := ih (acc * 2) (by omega) (by
          have hh : acc * 2 * 2 ^ fuel = acc * 2 ^ (fuel + 1) := by ring
          omega)
        refine ⟨j + 1, ?_, ?_⟩
        · simp only [first_pow2_loop, if_pos h]
          rw [hj1]; ring
        · have hh : acc * 2 * 2 ^ j = acc * 2 ^ (j + 1) := by ring
          omega
      · refine ⟨0, by simp [first_pow2_loop, h], ?_⟩
        simp only [pow_zero, Nat.mul_one]
        omega
  obtain ⟨j, hj1, hj2⟩ := main n 1 (by norm_num) (by
    have := Nat.lt_two_pow n
    omega)
  refine ⟨j, ?_, ?_⟩
  · simpa [first_pow2] using hj1
  · simpa using hj2

/-- Reindexing the inversion count through the `(south rank, weight)`
projection (C1 analysis). -/
theorem inv_weight_sum_map (key : Socket × Socket × ℕ → ℕ) :
    ∀ l : List (Socket × Socket × ℕ),
      inv_weight_sum (l.map (fun e => (key e, e.2.2)))
        = pair_weight_sum (fun e1 e2 => if key e2 < key e1 then e1.2.2 * e2.2.2 else 0) l := by
  intro l
  induction l with
  | nil => rfl
  | cons e rest ih =>
    simp only [List.map_cons]
    show ((rest.map (fun x => (key x, x.2.2))).map
          (fun e2 => if e2.1 < key e then e.2.2 * e2.2 else 0)).sum
        + inv_weight_sum (rest.map (fun x => (key x, x.2.2)))
      = (rest.map (fun e2 => if key e2 < key e then e.2.2 * e2.2.2 else 0)).sum
        + pair_weight_sum (fun e1 e2 => if key e2 < key e1 then e1.2.2 * e2.2.2 else 0) rest
    rw [ih, List.map_map]
    rfl


/-- Congruence of the ordered-pair weight sum along a pairwise relation
(C1 analysis). -/
theorem pair_weight_sum_congr
    (g h : (Socket × Socket × ℕ) → (Socket × Socket × ℕ) → ℕ)
    (R : (Socket × Socket × ℕ) → (Socket × Socket × ℕ) → Prop) :
    ∀ l : List (Socket × Socket × ℕ), l.Pairwise R →
      (∀ a ∈ l, ∀ b ∈ l, R a b → g a b = h a b) →
      pair_weight_sum g l = pair_weight_sum h l := by
  intro l
  induction l with
  | nil => intro _ _; rfl
  | cons e rest ih =>
    intro hpw hcong
    rw [List.pairwise_cons] at hpw
    show (rest.map (g e)).sum + pair_weight_sum g rest
        = (rest.map (h e)).sum + pair_weight_sum h rest
    rw [List.map_congr_left (fun b hb =>
        hcong e (by simp) b (List.mem_cons_of_mem e hb) (hpw.1 b hb)),
      ih hpw.2 (fun a ha b hb hr =>
        hcong a (List.mem_cons_of_mem e ha) b (List.mem_cons_of_mem e hb) hr)]

/-- Invariance of the ordered-pair weight sum under permutation for a
symmetric weight (C1 analysis). -/
theorem pair_weight_sum_perm (g : (Socket × Socket × ℕ) → (Socket × Socket × ℕ) → ℕ)
    (hsym : ∀ a b, g a b = g b a) :
    ∀ {l1 l2 : List (Socket × Socket × ℕ)}, l1.Perm l2 →
      pair_weight_sum g l1 = pair_weight_sum g l2 := by
  intro l1 l2 hp
  induction hp with
  | nil => rfl
  | cons x hp ih =>
    rename_i la lb
    show (la.map (g x)).sum + pair_weight_sum g la
        = (lb.map (g x)).sum + pair_weight_sum g lb
    rw [ih, List.Perm.sum_eq (hp.map (g x))]
  | swap x y l =>
    show ((x :: l).map (g y)).sum + (((l.map (g x)).sum) + pair_weight_sum g l)
        = ((y :: l).map (g x)).sum + (((l.map (g y)).sum) + pair_weight_sum g l)
    simp only [List.map_cons, List.sum_cons]
    rw [hsym y x]
    ring
  | trans h1 h2 ih1 ih2 => exact ih1.trans ih2

/-- Stability of `mergeSort` under a key comparison: the sorted list
restricted to one key value is the original list so restricted (the in-place
Python `list.sort` is stable; C1 analysis). -/
theorem mergeSort_filter_key (key : Socket × Socket × ℕ → ℕ)
    (l : List (Socket × Socket × ℕ)) (n0 : ℕ) :
    ((l.mergeSort (fun a b => decide (key a ≤ key b))).filter
        (fun e => decide (key e = n0)))
      = l.filter (fun e => decide (key e = n0)) := by
  have htrans : ∀ a b c : Socket × Socket × ℕ,
      (fun a b => decide (key a ≤ key b)) a b = true →
      (fun a b => decide (key a ≤ key b)) b c = true →
      (fun a b => decide (key a ≤ key b)) a c = true := by
    intro a b c hab hbc
    simp only [decide_eq_true_eq] at hab hbc ⊢
    omega
  have htotal : ∀ a b : Socket × Socket × ℕ,
      ((fun a b => decide (key a ≤ key b)) a b
        || (fun a b => decide (key a ≤ key b)) b a) = true := by
    intro a b
    simp only [Bool.or_eq_true, decide_eq_true_eq]
    omega
  have hcpw : (l.filter (fun e => decide (key e = n0))).Pairwise
      (fun a b => (fun a b => decide (key a ≤ key b)) a b = true) := by
    apply List.pairwise_iff_getElem.mpr
    intro i j hi hj hij
    have h1 := List.of_mem_filter (List.getElem_mem hi)
    have h2 := List.of_mem_filter (List.getElem_mem hj)
    simp only [decide_eq_true_eq] at h1 h2 ⊢
    omega
  have hsub : (l.filter (fun e => decide (key e = n0))).Sublist
      (l.mergeSort (fun a b => decide (key a ≤ key b))) :=
    List.sublist_mergeSort htrans htotal hcpw (List.filter_sublist l)
  have hsub2 : (l.filter (fun e => decide (key e = n0))).Sublist
      ((l.mergeSort (fun a b => decide (key a ≤ key b))).filter
        (fun e => decide (key e = n0))) := by
    have h5 := List.Sublist.filter (fun e => decide (key e = n0)) hsub
    have hself : (l.filter (fun e => decide (key e = n0))).filter
          (fun e => decide (key e = n0))
        = l.filter (fun e => decide (key e = n0)) := by
      apply List.filter_eq_self.mpr
      intro a ha
      exact (List.mem_filter.mp ha).2
    rwa [hself] at h5
  have hlen : ((l.mergeSort (fun a b => decide (key a ≤ key b))).filter
        (fun e => decide (key e = n0))).length
      = (l.filter (fun e => decide (key e = n0))).length :=
    ((List.mergeSort_perm l _).filter _).length_eq
  exact (hsub2.eq_of_length hlen.symm).symm

/-- If every key class of a list is pairwise related, the list is pairwise
related on key ties (C1 analysis). -/
theorem pairwise_of_filter_pairwise (key : Socket × Socket × ℕ → ℕ)
    (S : (Socket × Socket × ℕ) → (Socket × Socket × ℕ) → Prop) :
    ∀ l : List (Socket × Socket × ℕ),
      (∀ n0 : ℕ, (l.filter (fun e => decide (key e = n0))).Pairwise S) →
      l.Pairwise (fun a b => key a = key b → S a b) := by
  intro l
  induction l with
  | nil => intro _; exact List.Pairwise.nil
  | cons a tl ih =>
    intro h
    constructor
    · intro b hb hkey
      have ha := h (key a)
      rw [List.filter_cons, if_pos (by simp), List.pairwise_cons] at ha
      exact ha.1 b (List.mem_filter.mpr ⟨hb, by simp [hkey]⟩)
    · apply ih
      intro n0
      have h0 := h n0
      rw [List.filter_cons] at h0
      by_cases hc : key a = n0
      · rw [if_pos (by simp [hc])] at h0
        exact (List.pairwise_cons.mp h0).2
      · rwa [if_neg (by simp [hc])] at h0

/-- The position-sorted side of the bipartite graph is strictly increasing in
position when positions are injective on it (C1 analysis). -/
theorem mergeSort_pos_strict (pos : Socket → ℚ) (X : List Socket)
    (hnd : X.Nodup) (hinj : ∀ a ∈ X, ∀ b ∈ X, pos a = pos b → a = b) :
    (X.mergeSort (fun a b => decide (pos a ≤ pos b))).Pairwise
      (fun a b => pos a < pos b) := by
  have hsorted := @List.sorted_mergeSort Socket
      (fun a b : Socket => decide (pos a ≤ pos b))
      (fun a b c hab hbc => by
        simp only [decide_eq_true_eq] at hab hbc ⊢
        exact le_trans hab hbc)
      (fun a b => by
        simp only [Bool.or_eq_true, decide_eq_true_eq]
        exact le_total (pos a) (pos b))
      X
  have hperm : (X.mergeSort (fun a b => decide (pos a ≤ pos b))).Perm X :=
    List.mergeSort_perm X _
  have hnd2 : (X.mergeSort (fun a b => decide (pos a ≤ pos b))).Nodup :=
    (hperm.nodup_iff).mpr hnd
  apply List.pairwise_iff_getElem.mpr
  intro i j hi hj hij
  have h1 := List.pairwise_iff_getElem.mp hsorted i j hi hj hij
  have h2 := List.pairwise_iff_getElem.mp hnd2 i j hi hj hij
  have hm1 := hperm.mem_iff.mp (List.getElem_mem hi)
  have hm2 := hperm.mem_iff.mp (List.getElem_mem hj)
  simp only [decide_eq_true_eq] at h1
  exact lt_of_le_of_ne h1 (fun heq => h2 (hinj _ hm1 _ hm2 heq))

/-- Members of a list with equal `indexOf` are equal (C1 analysis). -/
theorem indexOf_mem_inj (l : List Socket) (x y : Socket) (hx : x ∈ l) (hy : y ∈ l)
    (h : List.indexOf x l = List.indexOf y l) : x = y :=
  (List.indexOf_inj hx hy).mp h

/-- On the position-sorted side, index order coincides with position order
(C1 analysis). -/
theorem indexOf_pos_iff (pos : Socket → ℚ) (X : List Socket)
    (hnd : X.Nodup) (hinj : ∀ a ∈ X, ∀ b ∈ X, pos a = pos b → a = b)
    (x y : Socket) (hx : x ∈ X.mergeSort (fun a b => decide (pos a ≤ pos b)))
    (hy : y ∈ X.mergeSort (fun a b => decide (pos a ≤ pos b))) :
    List.indexOf x (X.mergeSort (fun a b => decide (pos a ≤ pos b)))
        < List.indexOf y (X.mergeSort (fun a b => decide (pos a ≤ pos b)))
      ↔ pos x < pos y := by
  set L := X.mergeSort (fun a b => decide (pos a ≤ pos b)) with hL
  have hstrict := mergeSort_pos_strict pos X hnd hinj
  rw [← hL] at hstrict
  have hxlen : List.indexOf x L < L.length := List.indexOf_lt_length.mpr hx
  have hylen : List.indexOf y L < L.length := List.indexOf_lt_length.mpr hy
  have hgx := List.getElem_indexOf hxlen
  have hgy := List.getElem_indexOf hylen
  constructor
  · intro hlt
    have hp := List.pairwise_iff_getElem.mp hstrict _ _ hxlen hylen hlt
    rwa [hgx, hgy] at hp
  · intro hpos
    rcases Nat.lt_trichotomy (List.indexOf x L) (List.indexOf y L) with h | h | h
    · exact h
    · exfalso
      rw [indexOf_mem_inj L x y hx hy h] at hpos
      exact lt_irrefl _ hpos
    · exfalso
      have hp := List.pairwise_iff_getElem.mp hstrict _ _ hylen hxlen h
      rw [hgx, hgy] at hp
      exact absurd hpos (not_lt.mpr hp.le)


/-- Fold invariant for the weight aggregation of `crossing_reduction_data`
(ordering.py:74-77): every accumulated edge weight counts the occurrences of
its endpoint pair among the processed raw edges (C1 analysis). -/
theorem aggregate_edges_count_aux :
    ∀ (raw pre : List (Socket × Socket)) (acc : List (Socket × Socket × ℕ)),
      (∀ p ∈ acc, p.2.2 = pre.count (p.1, p.2.1)) →
      (∀ q : Socket × Socket, q ∈ pre ↔ q ∈ acc.map (fun a => (a.1, a.2.1))) →
      ∀ p ∈ List.foldl (fun acc (e : Socket × Socket) =>
          if (acc.find? (fun a => decide (a.1 = e.1 ∧ a.2.1 = e.2))).isSome then
            acc.map (fun a =>
              if a.1 = e.1 ∧ a.2.1 = e.2 then (a.1, a.2.1, a.2.2 + 1) else a)
          else acc ++ [(e.1, e.2, 1)]) acc raw,
        p.2.2 = (pre ++ raw).count (p.1, p.2.1) := by
  intro raw
  induction raw with
  | nil =>
    intro pre acc hcount _ p hp
    simp only [List.foldl_nil] at hp
    rw [List.append_nil]
    exact hcount p hp
  | cons e raw ih =>
    intro pre acc hcount hkeys p hp
    rw [List.foldl_cons] at hp
    have hassoc : pre ++ e :: raw = (pre ++ [e]) ++ raw := by simp
    rw [hassoc]
    by_cases hfind : ((acc.find? (fun a => decide (a.1 = e.1 ∧ a.2.1 = e.2))).isSome : Prop)
    · rw [if_pos hfind] at hp
      refine ih (pre ++ [e]) _ ?_ ?_ p hp
      · intro q hq
        rw [List.mem_map] at hq
        obtain ⟨a, ha, rfl⟩ := hq
        by_cases hm : a.1 = e.1 ∧ a.2.1 = e.2
        · rw [if_pos hm]
          have he : e = (a.1, a.2.1) := by
            rw [Prod.ext_iff]
            exact ⟨hm.1.symm, hm.2.symm⟩
          show a.2.2 + 1 = ((pre ++ [e])).count (a.1, a.2.1)
          rw [List.count_append, ← hcount a ha, he]
          simp [List.count_cons]
        · rw [if_neg hm]
          rw [List.count_append, ← hcount a ha]
          have hne : ¬ e = (a.1, a.2.1) := by
            intro hcontra
            apply hm
            rw [hcontra]
            exact ⟨rfl, rfl⟩
          have hone : List.count (a.1, a.2.1) [e] = 0 := by
            simp [List.count_cons, hne]
          rw [hone]
          omega
      · intro q
        have hkeyF : ((acc.map (fun a =>
              if a.1 = e.1 ∧ a.2.1 = e.2 then (a.1, a.2.1, a.2.2 + 1) else a)).map
                (fun a => (a.1, a.2.1)))
            = acc.map (fun a => (a.1, a.2.1)) := by
          rw [List.map_map]
          apply List.map_congr_left
          intro a _
          by_cases hm : a.1 = e.1 ∧ a.2.1 = e.2
          · simp only [Function.comp_apply, if_pos hm]
          · simp only [Function.comp_apply, if_neg hm]
        rw [hkeyF, List.mem_append, hkeys q, List.mem_singleton]
        constructor
        · intro hq
          rcases hq with hq | hq
          · exact hq
          · subst hq
            rw [List.find?_isSome] at hfind
            obtain ⟨a, ha, hpa⟩ := hfind
            rw [decide_eq_true_eq] at hpa
            rw [List.mem_map]
            refine ⟨a, ha, ?_⟩
            rw [Prod.ext_iff]
            exact ⟨hpa.1, hpa.2⟩
        · intro hq
          exact Or.inl hq
    · rw [if_neg hfind] at hp
      have hnone : ∀ a ∈ acc, ¬ (a.1 = e.1 ∧ a.2.1 = e.2) := by
        intro a ha hcontra
        apply hfind
        rw [List.find?_isSome]
        exact ⟨a, ha, by rw [decide_eq_true_eq]; exact hcontra⟩
      have hepre : (e.1, e.2) ∉ pre := by
        intro hcontra
        rw [hkeys _, List.mem_map] at hcontra
        obtain ⟨a, ha, hfa⟩ := hcontra
        apply hnone a ha
        constructor
        · exact congrArg Prod.fst hfa
        · exact congrArg Prod.snd hfa
      refine ih (pre ++ [e]) _ ?_ ?_ p hp
      · intro q hq
        rw [List.mem_append] at hq
        rcases hq with hq | hq
        · rw [List.count_append, ← hcount q hq]
          have hne : ¬ e = (q.1, q.2.1) := by
            intro hcontra
            apply hnone q hq
            exact ⟨(congrArg Prod.fst hcontra).symm, (congrArg Prod.snd hcontra).symm⟩
          have hone : List.count (q.1, q.2.1) [e] = 0 := by
            simp [List.count_cons, hne]
          rw [hone]
          omega
        · rw [List.mem_singleton] at hq
          subst hq
          show (1 : ℕ) = (pre ++ [e]).count ((e.1, e.2, 1).1, (e.1, e.2, 1).2.1)
          have hcz : pre.count (e.1, e.2) = 0 := by
            rw [List.count_eq_zero]
            intro hcontra
            exact hepre (by
              have hee : ((e.1 : Socket), (e.2 : Socket)) = e := by
                rw [Prod.ext_iff]; exact ⟨rfl, rfl⟩
              rwa [hee] at hcontra)
          show (1 : ℕ) = (pre ++ [e]).count (e.1, e.2)
          rw [List.count_append, hcz]
          have hee : ((e.1 : Socket), (e.2 : Socket)) = e := by
            rw [Prod.ext_iff]; exact ⟨rfl, rfl⟩
          rw [hee]
          simp [List.count_cons]
      · intro q
        rw [List.mem_append, hkeys q, List.map_append, List.mem_append, List.mem_singleton]
        have hmap1 : ([((e.1 : Socket), (e.2 : Socket), (1 : ℕ))].map
              (fun a => ((a.1 : Socket), (a.2.1 : Socket))))
            = [((e.1 : Socket), (e.2 : Socket))] := by
          simp
        rw [hmap1, List.mem_singleton]

/-- The weight recorded by the aggregation step equals the number of parallel
raw edges with that endpoint pair (C1). -/
theorem aggregate_edges_count (raw : List (Socket × Socket)) :
    ∀ p ∈ aggregate_edges raw, p.2.2 = raw.count (p.1, p.2.1) := by
  intro p hp
  have h := aggregate_edges_count_aux raw [] [] (by simp) (by simp) p hp
  simpa using h


/-- Unfolding of `get_cross_count` in the nonempty case (C1 analysis). -/
theorem get_cross_count_unfold (pos : Socket → ℚ) (N S : List Socket)
    (edges : List (Socket × Socket × ℕ)) (h : edges.isEmpty = false) :
    get_cross_count pos N S edges
      = (((edges.mergeSort (fun e1 e2 => decide
              (List.indexOf e1.2.1 (S.mergeSort (fun a b => decide (pos a ≤ pos b)))
                ≤ List.indexOf e2.2.1 (S.mergeSort (fun a b => decide (pos a ≤ pos b)))))).mergeSort
            (fun e1 e2 => decide
              (List.indexOf e1.1 (N.mergeSort (fun a b => decide (pos a ≤ pos b)))
                ≤ List.indexOf e2.1 (N.mergeSort (fun a b => decide (pos a ≤ pos b)))))).foldl
          (fun acc e => process_edge
            (first_pow2 (S.mergeSort (fun a b => decide (pos a ≤ pos b))).length - 1) acc
            (List.indexOf e.2.1 (S.mergeSort (fun a b => decide (pos a ≤ pos b)))) e.2.2)
          ((fun _ => 0), 0)).2 := by
  unfold get_cross_count
  rw [h, if_neg (by simp)]

/-- C1.  The weighted crossing count computed by the Fenwick-tree sweep in
`get_cross_count` (ordering.py:231-273) equals the brute-force pairwise
reference count: the sum, over all pairs of bipartite edges that cross, of
the product of their weights - under the well-formedness the caller
guarantees (distinct sockets per side, positions injective per side).  The
second conjunct captures the weight aggregation of `crossing_reduction_data`
(ordering.py:74-77): parallel raw edges between one contracted endpoint pair
enter as a single edge whose weight is their multiplicity, so two parallel
edges enter as a single edge of weight 2. -/
theorem get_cross_count_eq_ref (pos : Socket → ℚ) (N S : List Socket)
    (edges : List (Socket × Socket × ℕ)) (raw : List (Socket × Socket))
    (hN : N.Nodup) (hS : S.Nodup)
    (hpN : ∀ a ∈ N, ∀ b ∈ N, pos a = pos b → a = b)
    (hpS : ∀ a ∈ S, ∀ b ∈ S, pos a = pos b → a = b)
    (hend : ∀ e ∈ edges, e.1 ∈ N ∧ e.2.1 ∈ S) :
    get_cross_count pos N S edges = ref_cross_count pos edges
      ∧ (∀ p ∈ aggregate_edges raw, p.2.2 = raw.count (p.1, p.2.1)) := by
  refine ⟨?_, aggregate_edges_count raw⟩
  cases hne : edges.isEmpty
  · rw [get_cross_count_unfold pos N S edges hne]
    set Ns := N.mergeSort (fun a b => decide (pos a ≤ pos b)) with hNs
    set Ss := S.mergeSort (fun a b => decide (pos a ≤ pos b)) with hSs
    set edges1 := edges.mergeSort (fun e1 e2 =>
      decide (List.indexOf e1.2.1 Ss ≤ List.indexOf e2.2.1 Ss)) with hE1
    set edges2 := edges1.mergeSort (fun e1 e2 =>
      decide (List.indexOf e1.1 Ns ≤ List.indexOf e2.1 Ns)) with hE2
    have hpermN : Ns.Perm N := by rw [hNs]; exact List.mergeSort_perm N _
    have hpermS : Ss.Perm S := by rw [hSs]; exact List.mergeSort_perm S _
    have hperm1 : edges1.Perm edges := by rw [hE1]; exact List.mergeSort_perm edges _
    have hperm2 : edges2.Perm edges1 := by rw [hE2]; exact List.mergeSort_perm edges1 _
    have hmemE : ∀ e ∈ edges2, e ∈ edges :=
      fun e he => hperm1.mem_iff.mp (hperm2.mem_iff.mp he)
    obtain ⟨k, hk1, hk2⟩ := first_pow2_spec Ss.length
    have hmemS2 : ∀ e ∈ edges2, e.2.1 ∈ Ss := by
      intro e he
      exact hpermS.mem_iff.mpr ((hend e (hmemE e he)).2)
    have hbound : ∀ x ∈ edges2.map (fun e => (List.indexOf e.2.1 Ss, e.2.2)),
        x.1 < 2 ^ k := by
      intro x hx
      rw [List.mem_map] at hx
      obtain ⟨e, he, rfl⟩ := hx
      have hidx := List.indexOf_lt_length.mpr (hmemS2 e he)
      omega
    have hstep1 : (edges2.foldl (fun acc e => process_edge (first_pow2 Ss.length - 1) acc
          (List.indexOf e.2.1 Ss) e.2.2) ((fun _ => 0), 0)).2
        = pair_weight_sum (fun e1 e2 =>
            if List.indexOf e2.2.1 Ss < List.indexOf e1.2.1 Ss
            then e1.2.2 * e2.2.2 else 0) edges2 := by
      rw [← inv_weight_sum_map (fun e => List.indexOf e.2.1 Ss) edges2]
      rw [← fenwick_run_eq k _ hbound]
      unfold fenwick_run
      rw [List.foldl_map, hk1]
    have hsorted2 : edges2.Pairwise (fun e1 e2 =>
        List.indexOf e1.1 Ns ≤ List.indexOf e2.1 Ns) := by
      have hs := @List.sorted_mergeSort (Socket × Socket × ℕ)
        (fun e1 e2 : Socket × Socket × ℕ =>
          decide (List.indexOf e1.1 Ns ≤ List.indexOf e2.1 Ns))
        (fun a b c hab hbc => by
          simp only [decide_eq_true_eq] at hab hbc ⊢; omega)
        (fun a b => by
          simp only [Bool.or_eq_true, decide_eq_true_eq]; omega)
        edges1
      rw [← hE2] at hs
      exact hs.imp (fun hab => by simpa using hab)
    have hties2 : edges2.Pairwise (fun e1 e2 =>
        List.indexOf e1.1 Ns = List.indexOf e2.1 Ns →
          List.indexOf e1.2.1 Ss ≤ List.indexOf e2.2.1 Ss) := by
      apply pairwise_of_filter_pairwise (fun e => List.indexOf e.1 Ns)
      intro n0
      have hfk := mergeSort_filter_key (fun e => List.indexOf e.1 Ns) edges1 n0
      rw [← hE2] at hfk
      rw [hfk]
      have hs1 : edges1.Pairwise (fun e1 e2 =>
          List.indexOf e1.2.1 Ss ≤ List.indexOf e2.2.1 Ss) := by
        have hs := @List.sorted_mergeSort (Socket × Socket × ℕ)
          (fun e1 e2 : Socket × Socket × ℕ =>
            decide (List.indexOf e1.2.1 Ss ≤ List.indexOf e2.2.1 Ss))
          (fun a b c hab hbc => by
            simp only [decide_eq_true_eq] at hab hbc ⊢; omega)
          (fun a b => by
            simp only [Bool.or_eq_true, decide_eq_true_eq]; omega)
          edges
        rw [← hE1] at hs
        exact hs.imp (fun hab => by simpa using hab)
      exact List.Pairwise.sublist (List.filter_sublist edges1) hs1
    have hpwR := hsorted2.and hties2
    have hcsymm : ∀ a b : Socket × Socket × ℕ,
        crossing_pair pos a b ↔ crossing_pair pos b a := by
      intro a b
      unfold crossing_pair
      exact ⟨Or.symm, Or.symm⟩
    have hcong : ∀ a ∈ edges2, ∀ b ∈ edges2,
        ((List.indexOf a.1 Ns ≤ List.indexOf b.1 Ns) ∧
          (List.indexOf a.1 Ns = List.indexOf b.1 Ns →
            List.indexOf a.2.1 Ss ≤ List.indexOf b.2.1 Ss)) →
        (if List.indexOf b.2.1 Ss < List.indexOf a.2.1 Ss then a.2.2 * b.2.2 else 0)
          = (if crossing_pair pos a b then a.2.2 * b.2.2 else 0) := by
      intro a ha b hb hR
      have haE := hend a (hmemE a ha)
      have hbE := hend b (hmemE b hb)
      have haN : a.1 ∈ Ns := hpermN.mem_iff.mpr haE.1
      have hbN : b.1 ∈ Ns := hpermN.mem_iff.mpr hbE.1
      have haS : a.2.1 ∈ Ss := hpermS.mem_iff.mpr haE.2
      have hbS : b.2.1 ∈ Ss := hpermS.mem_iff.mpr hbE.2
      have hiffN := indexOf_pos_iff pos N hN hpN a.1 b.1 (hNs ▸ haN) (hNs ▸ hbN)
      rw [← hNs] at hiffN
      have hiffS1 := indexOf_pos_iff pos S hS hpS b.2.1 a.2.1 (hSs ▸ hbS) (hSs ▸ haS)
      rw [← hSs] at hiffS1
      rcases Nat.lt_trichotomy (List.indexOf a.1 Ns) (List.indexOf b.1 Ns) with hlt | heq | hgt
      · have hpn : pos a.1 < pos b.1 := hiffN.mp hlt
        by_cases hss : List.indexOf b.2.1 Ss < List.indexOf a.2.1 Ss
        · have hcr : crossing_pair pos a b := Or.inl ⟨hpn, hiffS1.mp hss⟩
          rw [if_pos hss, if_pos hcr]
        · have hncr : ¬ crossing_pair pos a b := by
            intro hcr
            unfold crossing_pair at hcr
            rcases hcr with ⟨h1, h2⟩ | ⟨h1, h2⟩
            · exact hss (hiffS1.mpr h2)
            · exact absurd hpn (not_lt.mpr h1.le)
          rw [if_neg hss, if_neg hncr]
      · have hab : a.1 = b.1 := indexOf_mem_inj Ns a.1 b.1 haN hbN heq
        have hpeq : pos a.1 = pos b.1 := by rw [hab]
        have hncr : ¬ crossing_pair pos a b := by
          intro hcr
          unfold crossing_pair at hcr
          rcases hcr with ⟨h1, h2⟩ | ⟨h1, h2⟩
          · rw [hpeq] at h1; exact lt_irrefl _ h1
          · rw [hpeq] at h1; exact lt_irrefl _ h1
        have hns : ¬ List.indexOf b.2.1 Ss < List.indexOf a.2.1 Ss :=
          not_lt.mpr (hR.2 heq)
        rw [if_neg hns, if_neg hncr]
      · exact absurd hgt (not_lt.mpr hR.1)
    have hstep2 := pair_weight_sum_congr
      (fun e1 e2 => if List.indexOf e2.2.1 Ss < List.indexOf e1.2.1 Ss
        then e1.2.2 * e2.2.2 else 0)
      (fun e1 e2 => if crossing_pair pos e1 e2 then e1.2.2 * e2.2.2 else 0)
      _ edges2 hpwR hcong
    have hsym : ∀ a b : Socket × Socket × ℕ,
        (if crossing_pair pos a b then a.2.2 * b.2.2 else 0)
          = (if crossing_pair pos b a then b.2.2 * a.2.2 else 0) := by
      intro a b
      by_cases hc : crossing_pair pos a b
      · rw [if_pos hc, if_pos ((hcsymm a b).mp hc), Nat.mul_comm]
      · rw [if_neg hc, if_neg (fun hcb => hc ((hcsymm b a).mp hcb))]
    have hstep3 := pair_weight_sum_perm
      (fun e1 e2 => if crossing_pair pos e1 e2 then e1.2.2 * e2.2.2 else 0)
      hsym (hperm2.trans hperm1)
    rw [hstep1, hstep2, hstep3]
    rfl
  · have hnil : edges = [] := List.isEmpty_iff.mp hne
    subst hnil
    rw [show get_cross_count pos N S [] = 0 from rfl]
    rfl


/-- Witness for C1 at a concrete crossing instance: two north sockets, two
south sockets, two crossing edges of weights 1 and 2, and a doubled raw
edge. -/
theorem get_cross_count_eq_ref_witness :
    get_cross_count (fun s => (s.owner : ℚ)) [⟨0, 0⟩, ⟨1, 0⟩] [⟨2, 0⟩, ⟨3, 0⟩]
        [(⟨0, 0⟩, ⟨3, 0⟩, 1), (⟨1, 0⟩, ⟨2, 0⟩, 2)]
      = ref_cross_count (fun s => (s.owner : ℚ))
          [(⟨0, 0⟩, ⟨3, 0⟩, 1), (⟨1, 0⟩, ⟨2, 0⟩, 2)]
      ∧ (∀ p ∈ aggregate_edges [(⟨0, 0⟩, ⟨3, 0⟩), (⟨0, 0⟩, ⟨3, 0⟩)],
          p.2.2 = [((⟨0, 0⟩ : Socket), (⟨3, 0⟩ : Socket)),
            (⟨0, 0⟩, ⟨3, 0⟩)].count (p.1, p.2.1)) :=
  get_cross_count_eq_ref (fun s => (s.owner : ℚ)) [⟨0, 0⟩, ⟨1, 0⟩] [⟨2, 0⟩, ⟨3, 0⟩]
    [(⟨0, 0⟩, ⟨3, 0⟩, 1), (⟨1, 0⟩, ⟨2, 0⟩, 2)]
    [(⟨0, 0⟩, ⟨3, 0⟩), (⟨0, 0⟩, ⟨3, 0⟩)]
    (by decide) (by decide)
    (by intro a ha b hb h; fin_cases ha <;> fin_cases hb <;> simp_all)
    (by intro a ha b hb h; fin_cases ha <;> fin_cases hb <;> simp_all)
    (by decide)

/-- C1 counterexample: when two sockets on one side tie in position — which
happens whenever one node carries several sockets on that side, since
`get_cross_count` positions depend only on the socket's owner (barycenter or
column index, ordering.py:239-241) — the Fenwick sweep and the strict pairwise
reference disagree.  Fixed nodes 0 (position 0) and 1 (position 1) feed the
two input sockets of node 2 (both at node 2's position) in crossing index
order: the sweep counts 1, the strict reference counts 0, on a 3-node
instance, refuting agreement on all graphs with at most 8 nodes. -/
theorem get_cross_count_tie_counterexample :
    get_cross_count (fun s => (s.owner : ℚ)) [⟨0, 0⟩, ⟨1, 0⟩] [⟨2, 0⟩, ⟨2, 1⟩]
        [(⟨1, 0⟩, ⟨2, 0⟩, 1), (⟨0, 0⟩, ⟨2, 1⟩, 1)] = 1
      ∧ ref_cross_count (fun s => (s.owner : ℚ))
          [(⟨1, 0⟩, ⟨2, 0⟩, 1), (⟨0, 0⟩, ⟨2, 1⟩, 1)] = 0 := by
  constructor
  · simp only [get_cross_count]
    rw [if_neg (by decide)]
    simp [List.mergeSort, List.splitInTwo_fst, List.splitInTwo_snd, List.merge,
      Nat.cast_le, Nat.cast_lt]
    decide
  · decide


/-- Two distinct members force length two (pair version, C6 analysis). -/
theorem two_le_length_pair {l : List (ℕ × ℕ)} {s t : ℕ × ℕ} (hs : s ∈ l) (ht : t ∈ l)
    (hst : s ≠ t) : 2 ≤ l.length := by
  have h1 : t ∈ l.erase s := (List.mem_erase_of_ne (Ne.symm hst)).mpr ht
  have h2 := List.length_pos_of_mem h1
  have h3 := List.length_erase_of_mem hs
  omega

/-- A node of in-degree at most 1 has at most one predecessor (C6 analysis). -/
theorem pred_unique {g : Digraph} {v p q : ℕ}
    (hin : g.inDegree v ≤ 1) (hp : (p, v) ∈ g.edges) (hq : (q, v) ∈ g.edges) : p = q := by
  by_contra hne
  have hp2 : ((p, v) : ℕ × ℕ) ∈ g.edges.filter (fun e => decide (e.2 = v)) :=
    List.mem_filter.mpr ⟨hp, by simp⟩
  have hq2 : ((q, v) : ℕ × ℕ) ∈ g.edges.filter (fun e => decide (e.2 = v)) :=
    List.mem_filter.mpr ⟨hq, by simp⟩
  have h2 : 2 ≤ (g.edges.filter (fun e => decide (e.2 = v))).length :=
    two_le_length_pair hp2 hq2 (by
      intro hcontra
      exact hne (congrArg Prod.fst hcontra))
  have hlen : g.inDegree v = (g.edges.filter (fun e => decide (e.2 = v))).length := by
    unfold Digraph.inDegree Digraph.pred
    rw [List.length_map]
  omega

/-- A strictly increasing chain is pairwise increasing (C6 analysis). -/
theorem chain_pairwise_lt (f : ℕ → ℕ) (l : List ℕ)
    (h : List.Chain' (fun a b => f a < f b) l) :
    l.Pairwise (fun a b => f a < f b) := by
  have inst : IsTrans ℕ (fun a b => f a < f b) := ⟨fun _ _ _ h1 h2 => lt_trans h1 h2⟩
  exact (@List.chain'_iff_pairwise ℕ (fun a b => f a < f b) inst l).mp h

/-- Every non-head member of a chain has an in-chain predecessor
(C6 analysis). -/
theorem chain_pred_mem (R : ℕ → ℕ → Prop) :
    ∀ l : List ℕ, List.Chain' R l → ∀ v ∈ l.tail, ∃ p ∈ l, R p v := by
  intro l
  induction l with
  | nil => intro _ v hv; simp at hv
  | cons a l ih =>
    intro hch v hv
    simp only [List.tail_cons] at hv
    cases l with
    | nil => simp at hv
    | cons b l2 =>
      rw [List.chain'_cons] at hch
      rcases List.mem_cons.mp hv with hvb | hv2
      · subst hvb
        exact ⟨a, by simp, hch.1⟩
      · obtain ⟨p, hp, hR⟩ := ih hch.2 v (by simpa using hv2)
        exact ⟨p, List.mem_cons_of_mem a hp, hR⟩

/-- In a node order where every edge points forward, a processed prefix is
closed under predecessors (C6 analysis). -/
theorem mem_prefix_of_edge (g : Digraph) (done rest : List ℕ)
    (he : ∀ e ∈ g.edges, List.indexOf e.1 (done ++ rest) < List.indexOf e.2 (done ++ rest))
    (p x : ℕ) (hedge : (p, x) ∈ g.edges) (hx : x ∈ done) : p ∈ done := by
  by_contra hp
  have hidx : List.indexOf p (done ++ rest) < List.indexOf x (done ++ rest) :=
    he (p, x) hedge
  rw [List.indexOf_append_of_mem hx, List.indexOf_append_of_not_mem hp] at hidx
  have hxd := List.indexOf_lt_length.mpr hx
  omega

/-- Removing the members of the appended part one by one leaves the prefix
(`Segment.split`, C6 analysis). -/
theorem foldl_erase_append :
    ∀ (l2 l1 : List ℕ), (l1 ++ l2).Nodup →
      l2.foldl (fun acc w => acc.erase w) (l1 ++ l2) = l1 := by
  intro l2
  induction l2 with
  | nil => intro l1 _; simp
  | cons d l2 ih =>
    intro l1 hnd
    rw [List.foldl_cons]
    have hd : d ∉ l1 := by
      rw [List.nodup_append] at hnd
      intro hdl1
      exact hnd.2.2 hdl1 (by simp)
    rw [List.erase_append_right _ hd, List.erase_cons_head]
    apply ih
    have hsub : (l1 ++ l2).Sublist (l1 ++ d :: l2) :=
      List.Sublist.append_left (List.sublist_cons_self d l2) l1
    exact List.Nodup.sublist hsub hnd

/-- The chain extracted from the DFS stream of an out-degree-at-most-1 start
is a successor path whose members all pass the degree checks (C6 analysis). -/
theorem chain_loop_dfs_spec (g : Digraph) (cluster nl : ℕ → ℕ) (T : Digraph)
    (complexC : List ℕ) (u : ℕ) :
    ∀ (fuel : ℕ) (w : ℕ) (visited : List ℕ), g.outDegree w ≤ 1 →
      List.Chain' (fun a b => (a, b) ∈ g.edges)
          (w :: chain_loop g cluster nl T complexC u
            (dfs_preorder_aux g fuel (g.succ w) visited))
        ∧ ∀ v ∈ chain_loop g cluster nl T complexC u
            (dfs_preorder_aux g fuel (g.succ w) visited),
          g.inDegree v ≤ 1 ∧ g.outDegree v ≤ 1 := by
  intro fuel
  induction fuel with
  | zero =>
    intro w visited hw
    simp [dfs_preorder_aux, chain_loop]
  | succ fuel ih =>
    intro w visited hw
    rcases hsucc : g.succ w with _ | ⟨b, tail⟩
    · simp [dfs_preorder_aux, chain_loop]
    · have hlen : (b :: tail).length ≤ 1 := by
        have hw2 : (g.succ w).length ≤ 1 := hw
        rw [hsucc] at hw2
        exact hw2
      have htail : tail = [] := by
        simp only [List.length_cons] at hlen
        exact List.eq_nil_of_length_eq_zero (by omega)
      subst htail
      by_cases hb : b ∈ visited
      · have hstream : dfs_preorder_aux g (fuel + 1) [b] visited
            = dfs_preorder_aux g fuel [] visited := by
          simp [dfs_preorder_aux, hb]
        have hnil : dfs_preorder_aux g fuel [] visited = [] := by
          cases fuel <;> simp [dfs_preorder_aux]
        rw [hstream, hnil]
        simp [chain_loop]
      · have hstream : dfs_preorder_aux g (fuel + 1) [b] visited
            = b :: dfs_preorder_aux g fuel (g.succ b ++ []) (b :: visited) := by
          simp [dfs_preorder_aux, hb]
        rw [hstream, List.append_nil]
        have hwbedge : (w, b) ∈ g.edges := by
          apply mem_succ_edge
          rw [hsucc]
          simp
        by_cases hdeg : 1 < g.inDegree b ∨ 1 < g.outDegree b
        · rw [show chain_loop g cluster nl T complexC u
              (b :: dfs_preorder_aux g fuel (g.succ b) (b :: visited)) = [] from by
            simp only [chain_loop, if_pos hdeg]]
          constructor
          · simp
          · intro v hv; simp at hv
        · by_cases hcb : cluster_break cluster nl T complexC u b
          · rw [show chain_loop g cluster nl T complexC u
                (b :: dfs_preorder_aux g fuel (g.succ b) (b :: visited)) = [] from by
              simp only [chain_loop, if_neg hdeg, if_pos hcb]]
            constructor
            · simp
            · intro v hv; simp at hv
          · rw [show chain_loop g cluster nl T complexC u
                (b :: dfs_preorder_aux g fuel (g.succ b) (b :: visited))
                = b :: chain_loop g cluster nl T complexC u
                    (dfs_preorder_aux g fuel (g.succ b) (b :: visited)) from by
              simp only [chain_loop, if_neg hdeg, if_neg hcb]]
            have hbout : g.outDegree b ≤ 1 := by
              rcases Nat.lt_or_ge 1 (g.outDegree b) with h | h
              · exact absurd (Or.inr h) hdeg
              · omega
            obtain ⟨ihc, ihp⟩ := ih b (b :: visited) hbout
            constructor
            · rw [List.chain'_cons]
              exact ⟨hwbedge, ihc⟩
            · intro v hv
              rcases List.mem_cons.mp hv with hvb | hv2
              · subst hvb
                constructor
                · rcases Nat.lt_or_ge 1 (g.inDegree v) with h | h
                  · exact absurd (Or.inl h) hdeg
                  · omega
                · exact hbout
              · exact ihp v hv2

/-- The chain returned by `get_chain` for an out-degree-at-most-1 start: a
successor path headed by the start whose tail members pass the degree checks
(C6 analysis). -/
theorem get_chain_spec (g : Digraph) (cluster nl : ℕ → ℕ) (T : Digraph)
    (complexC : List ℕ) (u : ℕ) (hu : g.outDegree u ≤ 1) :
    ∃ tail, get_chain g cluster nl T complexC u = u :: tail
      ∧ List.Chain' (fun a b => (a, b) ∈ g.edges) (u :: tail)
      ∧ ∀ v ∈ tail, g.inDegree v ≤ 1 ∧ g.outDegree v ≤ 1 := by
  have hstep : dfs_preorder g u
      = u :: dfs_preorder_aux g (g.nodes.length + g.edges.length + 1) (g.succ u ++ []) [u] := by
    simp [dfs_preorder, dfs_preorder_aux]
  refine ⟨chain_loop g cluster nl T complexC u
    (dfs_preorder_aux g (g.nodes.length + g.edges.length + 1) (g.succ u) [u]), ?_, ?_⟩
  · unfold get_chain
    rw [hstep, List.append_nil]
  · rw [show (u :: chain_loop g cluster nl T complexC u
        (dfs_preorder_aux g (g.nodes.length + g.edges.length + 1) (g.succ u) [u]))
      = u :: chain_loop g cluster nl T complexC u
        (dfs_preorder_aux g (g.nodes.length + g.edges.length + 1) (g.succ u) [u]) from rfl]
    exact chain_loop_dfs_spec g cluster nl T complexC u
      (g.nodes.length + g.edges.length + 1) u [u] hu

/-- The segment-shape invariant is monotone in the processed and seen sets
(C6 analysis). -/
theorem seg_inv_mono {g : Digraph} {done done2 seen seen2 : List ℕ}
    {segs : List (List ℕ)}
    (hd : ∀ x ∈ done, x ∈ done2) (hs : ∀ x ∈ seen, x ∈ seen2)
    (h : seg_inv g done seen segs) : seg_inv g done2 seen2 segs := by
  intro s hsm
  rcases h s hsm with ⟨w, h1, h2, h3⟩ | ⟨u2, tail, h1, h2, h3, h4⟩
  · exact Or.inl ⟨w, h1, h2, hd w h3⟩
  · exact Or.inr ⟨u2, tail, h1, hd u2 h2, fun x hx => hs x (h3 x hx), h4⟩


/-- The partition invariant of the outer segment loop of
`get_linear_segments` (C6 analysis): processing a layered node order (every
edge points forward) extends the accumulated segments to cover exactly the
processed nodes, with no duplication. -/
theorem gls_loop_partition (g : Digraph) (cluster nl : ℕ → ℕ) (T : Digraph)
    (complexC : List ℕ) (order : List ℕ)
    (hndo : order.Nodup)
    (hwf : ∀ e ∈ g.edges, e.1 ∈ order ∧ e.2 ∈ order)
    (hedgeidx : ∀ e ∈ g.edges, List.indexOf e.1 order < List.indexOf e.2 order) :
    ∀ (rest done seen : List ℕ) (segs : List (List ℕ)),
      order = done ++ rest →
      segs.flatten.Nodup →
      (∀ x ∈ seen, x ∈ segs.flatten) →
      (∀ x ∈ done, x ∈ segs.flatten) →
      (∀ x ∈ segs.flatten, x ∈ done ∨ x ∈ seen) →
      (∀ x ∈ segs.flatten, x ∈ order) →
      seg_inv g done seen segs →
      (∀ x, x ∈ (get_linear_segments_loop g cluster nl T complexC rest seen segs).flatten
          ↔ x ∈ order)
        ∧ (get_linear_segments_loop g cluster nl T complexC rest seen segs).flatten.Nodup := by
  intro rest
  induction rest with
  | nil =>
    intro done seen segs horder h1 h2 h3 h4 h5 h6
    rw [show get_linear_segments_loop g cluster nl T complexC [] seen segs = segs
      from rfl]
    refine ⟨?_, h1⟩
    intro x
    constructor
    · exact h5 x
    · intro hx
      rw [horder, List.append_nil] at hx
      exact h3 x hx
  | cons u rest ih =>
    intro done seen segs horder h1 h2 h3 h4 h5 h6
    have hundone : u ∉ done := by
      have hno2 := hndo
      rw [horder, List.nodup_append] at hno2
      intro hud
      exact hno2.2.2 hud (by simp)
    have huorder : u ∈ order := by rw [horder]; simp
    by_cases hus : u ∈ seen
    · rw [show get_linear_segments_loop g cluster nl T complexC (u :: rest) seen segs
          = get_linear_segments_loop g cluster nl T complexC rest seen segs from by
        simp only [get_linear_segments_loop, if_pos hus]]
      apply ih (done ++ [u]) seen segs
      · rw [horder]; simp
      · exact h1
      · exact h2
      · intro x hx
        rcases List.mem_append.mp hx with hx | hx
        · exact h3 x hx
        · rw [List.mem_singleton] at hx
          subst hx
          exact h2 x hus
      · intro x hx
        rcases h4 x hx with hx | hx
        · exact Or.inl (List.mem_append_left _ hx)
        · exact Or.inr hx
      · exact h5
      · exact seg_inv_mono (fun x hx => List.mem_append_left _ hx) (fun x hx => hx) h6
    · by_cases huo : 1 < g.outDegree u
      · rw [show get_linear_segments_loop g cluster nl T complexC (u :: rest) seen segs
            = get_linear_segments_loop g cluster nl T complexC rest seen (segs ++ [[u]])
          from by
            simp only [get_linear_segments_loop, if_neg hus, if_pos huo]]
        have hufl : u ∉ segs.flatten := by
          intro hx
          rcases h4 u hx with hx2 | hx2
          · exact hundone hx2
          · exact hus hx2
        apply ih (done ++ [u]) seen (segs ++ [[u]])
        · rw [horder]; simp
        · rw [List.flatten_append, List.nodup_append]
          refine ⟨h1, by simp, ?_⟩
          intro a ha ha2
          simp at ha2
          subst ha2
          exact hufl ha
        · intro x hx
          rw [List.flatten_append]
          exact List.mem_append_left _ (h2 x hx)
        · intro x hx
          rw [List.flatten_append]
          rcases List.mem_append.mp hx with hx | hx
          · exact List.mem_append_left _ (h3 x hx)
          · rw [List.mem_singleton] at hx
            subst hx
            apply List.mem_append_right
            simp
        · intro x hx
          rw [List.flatten_append] at hx
          rcases List.mem_append.mp hx with hx | hx
          · rcases h4 x hx with hx2 | hx2
            · exact Or.inl (List.mem_append_left _ hx2)
            · exact Or.inr hx2
          · simp at hx
            subst hx
            exact Or.inl (List.mem_append_right _ (by simp))
        · intro x hx
          rw [List.flatten_append] at hx
          rcases List.mem_append.mp hx with hx | hx
          · exact h5 x hx
          · simp at hx
            subst hx
            exact huorder
        · intro s hs
          rcases List.mem_append.mp hs with hs | hs
          · exact seg_inv_mono (fun x hx => List.mem_append_left _ hx)
              (fun x hx => hx) h6 s hs
          · rw [List.mem_singleton] at hs
            subst hs
            exact Or.inl ⟨u, rfl, huo, List.mem_append_right _ (by simp)⟩
      · rw [show get_linear_segments_loop g cluster nl T complexC (u :: rest) seen segs
            = get_linear_segments_loop g cluster nl T complexC rest
                (seen ++ get_chain g cluster nl T complexC u)
                (segs ++ [get_chain g cluster nl T complexC u]) from by
            simp only [get_linear_segments_loop, if_neg hus, if_neg huo]]
        obtain ⟨tail, hC, hchain, hprops⟩ :=
          get_chain_spec g cluster nl T complexC u (by omega)
        set C := get_chain g cluster nl T complexC u with hCdef
        have hCmem : ∀ x ∈ C, x ∈ order := by
          rw [hC]
          intro x hx
          rcases List.mem_cons.mp hx with hx2 | hx2
          · subst hx2; exact huorder
          · obtain ⟨p, hp, hpe⟩ := chain_pred_mem _ _ hchain x (by simpa using hx2)
            exact (hwf _ hpe).2
        have hCidx : List.Chain' (fun a b => List.indexOf a order < List.indexOf b order)
            (u :: tail) := hchain.imp (fun a b hab => hedgeidx (a, b) hab)
        have hCnd : C.Nodup := by
          rw [hC]
          have hpw := chain_pairwise_lt (fun x => List.indexOf x order) (u :: tail) hCidx
          exact hpw.imp (fun hab => by
            intro heqq
            rw [heqq] at hab
            exact lt_irrefl _ hab)
        have hufl : u ∉ segs.flatten := by
          intro hx
          rcases h4 u hx with hx2 | hx2
          · exact hundone hx2
          · exact hus hx2
        have hDS : ∀ (Cs : List ℕ) (prev : ℕ), prev ∉ segs.flatten →
            List.Chain' (fun a b => (a, b) ∈ g.edges) (prev :: Cs) →
            (∀ v ∈ Cs, g.inDegree v ≤ 1 ∧ g.outDegree v ≤ 1) →
            ∀ v ∈ Cs, v ∉ segs.flatten := by
          intro Cs
          induction Cs with
          | nil => intro prev _ _ _ v hv; simp at hv
          | cons c Cs ihc =>
            intro prev hprev hch hdegs v hv
            rw [List.chain'_cons] at hch
            have hcnot : c ∉ segs.flatten := by
              intro hcf
              obtain ⟨s2, hs2, hcs2⟩ := List.mem_flatten.mp hcf
              rcases h6 s2 hs2 with ⟨w, hw1, hw2, hw3⟩ | ⟨u2, tail2, hq1, hq2, hq3, hq4⟩
              · have hcw : c = w := by rw [hw1] at hcs2; simpa using hcs2
                have hdc := (hdegs c (by simp)).2
                rw [hcw] at hdc
                omega
              · rw [hq1] at hcs2
                rcases List.mem_cons.mp hcs2 with hcu2 | hct2
                · have hpd : prev ∈ done := by
                    apply mem_prefix_of_edge g done (u :: rest)
                      (fun e hee => by rw [← horder]; exact hedgeidx e hee)
                      prev c hch.1
                    rw [hcu2]
                    exact hq2
                  exact hprev (h3 prev hpd)
                · obtain ⟨hcin, p2, hp2mem, hp2e⟩ := hq4 c hct2
                  have hpeq : p2 = prev := pred_unique hcin hp2e hch.1
                  rw [hpeq] at hp2mem
                  exact hprev (List.mem_flatten.mpr ⟨s2, hs2, hp2mem⟩)
            rcases List.mem_cons.mp hv with hvc | hv2
            · rw [hvc]; exact hcnot
            · exact ihc c hcnot hch.2 (fun x hx => hdegs x (List.mem_cons_of_mem c hx))
                v hv2
        have hCdisj : ∀ v ∈ C, v ∉ segs.flatten := by
          rw [hC]
          intro v hv
          rcases List.mem_cons.mp hv with hvu | hvt
          · rw [hvu]; exact hufl
          · exact hDS tail u hufl hchain hprops v hvt
        apply ih (done ++ [u]) (seen ++ C) (segs ++ [C])
        · rw [horder]; simp
        · rw [List.flatten_append, List.nodup_append]
          refine ⟨h1, by simpa using hCnd, ?_⟩
          intro a ha ha2
          simp only [List.flatten_cons, List.flatten_nil, List.append_nil] at ha2
          exact hCdisj a ha2 ha
        · intro x hx
          rw [List.flatten_append]
          rcases List.mem_append.mp hx with hx | hx
          · exact List.mem_append_left _ (h2 x hx)
          · apply List.mem_append_right
            simpa using hx
        · intro x hx
          rw [List.flatten_append]
          rcases List.mem_append.mp hx with hx | hx
          · exact List.mem_append_left _ (h3 x hx)
          · rw [List.mem_singleton] at hx
            subst hx
            apply List.mem_append_right
            rw [hC]
            simp
        · intro x hx
          rw [List.flatten_append] at hx
          rcases List.mem_append.mp hx with hx | hx
          · rcases h4 x hx with hx2 | hx2
            · exact Or.inl (List.mem_append_left _ hx2)
            · exact Or.inr (List.mem_append_left _ hx2)
          · apply Or.inr
            apply List.mem_append_right
            simpa using hx
        · intro x hx
          rw [List.flatten_append] at hx
          rcases List.mem_append.mp hx with hx | hx
          · exact h5 x hx
          · exact hCmem x (by simpa using hx)
        · intro s hs
          rcases List.mem_append.mp hs with hs | hs
          · exact seg_inv_mono (fun x hx => List.mem_append_left _ hx)
              (fun x hx => List.mem_append_left _ hx) h6 s hs
          · rw [List.mem_singleton] at hs
            subst hs
            apply Or.inr
            refine ⟨u, tail, hC, List.mem_append_right _ (by simp), ?_, ?_⟩
            · intro x hx
              exact List.mem_append_right _ hx
            · intro v hv
              refine ⟨(hprops v hv).1, ?_⟩
              obtain ⟨p, hp, hpe⟩ := chain_pred_mem _ _ hchain v (by simpa using hv)
              refine ⟨p, ?_, hpe⟩
              rw [hC]
              exact hp


/-- C6.  The segments returned by `get_linear_segments` partition the graph
nodes - the flattened segment lists are a permutation of the (distinct) node
list, so every node appears in exactly one segment - provided the columns
list the nodes exactly once in a layered order (every edge points to a later
position, as the column structure guarantees).  And every `Segment.split`
preserves the partition: a split segment's node list is divided, in order,
between the old and the new segment, with no node duplicated or lost. -/
theorem get_linear_segments_partition (g : Digraph) (cluster nl : ℕ → ℕ)
    (T : Digraph) (S : List ℕ) (columns : List (List ℕ))
    (hcols : columns.flatten.Perm g.nodes)
    (hgn : g.nodes.Nodup)
    (hwf : ∀ e ∈ g.edges, e.1 ∈ g.nodes ∧ e.2 ∈ g.nodes)
    (hidx : ∀ e ∈ g.edges,
      List.indexOf e.1 columns.flatten < List.indexOf e.2 columns.flatten) :
    ((get_linear_segments g cluster nl T S columns).flatten).Perm g.nodes
      ∧ ∀ (nodes : List ℕ) (v : ℕ), nodes.Nodup →
          (segment_split nodes v).1 ++ (segment_split nodes v).2 = nodes
            ∧ (segment_split nodes v).2 = nodes.drop (List.indexOf v nodes) := by
  constructor
  · have hndo : columns.flatten.Nodup := (hcols.nodup_iff).mpr hgn
    have hwfo : ∀ e ∈ g.edges, e.1 ∈ columns.flatten ∧ e.2 ∈ columns.flatten := by
      intro e he
      exact ⟨hcols.mem_iff.mpr (hwf e he).1, hcols.mem_iff.mpr (hwf e he).2⟩
    have hmain := gls_loop_partition g cluster nl T (complex_clusters g T S)
      columns.flatten hndo hwfo hidx columns.flatten [] [] []
      (by simp) (by simp) (by simp) (by simp) (by simp) (by simp)
      (by intro s hs; simp at hs)
    rw [show get_linear_segments g cluster nl T S columns
        = get_linear_segments_loop g cluster nl T (complex_clusters g T S)
            columns.flatten [] [] from rfl]
    rw [List.perm_ext_iff_of_nodup hmain.2 hgn]
    intro a
    rw [hmain.1 a]
    exact hcols.mem_iff
  · intro nodes v hnd
    constructor
    · show ((nodes.drop (List.indexOf v nodes)).foldl (fun acc w => acc.erase w) nodes)
          ++ nodes.drop (List.indexOf v nodes) = nodes
      have hpart := List.take_append_drop (List.indexOf v nodes) nodes
      have hfold := foldl_erase_append (nodes.drop (List.indexOf v nodes))
        (nodes.take (List.indexOf v nodes)) (by rw [hpart]; exact hnd)
      rw [hpart] at hfold
      rw [hfold]
      exact hpart
    · rfl

/-- Witness for C6: a three-node chain with an isolated node, columns
`[[0, 3], [1], [2]]`. -/
theorem get_linear_segments_partition_witness :
    ((get_linear_segments ⟨[0, 1, 2, 3], [(0, 1), (1, 2)]⟩ (fun _ => 0) (fun _ => 0)
        ⟨[], []⟩ [] [[0, 3], [1], [2]]).flatten).Perm [0, 1, 2, 3]
      ∧ ∀ (nodes : List ℕ) (v : ℕ), nodes.Nodup →
          (segment_split nodes v).1 ++ (segment_split nodes v).2 = nodes
            ∧ (segment_split nodes v).2 = nodes.drop (List.indexOf v nodes) :=
  get_linear_segments_partition ⟨[0, 1, 2, 3], [(0, 1), (1, 2)]⟩ (fun _ => 0)
    (fun _ => 0) ⟨[], []⟩ [] [[0, 3], [1], [2]]
    (by decide) (by decide) (by decide) (by decide)


/-- C3.  Two invocations of `minimize_crossings` on identical inputs produce
identical final column orders: the column-order outcome does not depend on
the incoming pseudo-random generator state (first conjunct, covering any two
process histories), and in particular a second invocation starting from the
generator state the first one left behind returns the same final state
(second conjunct) - because `seed(0)` fixes the random source at the start of
each invocation and everything else is a pure function of the inputs. -/
theorem minimize_crossings_deterministic (σ : Type) (passF : σ → ℕ → σ × ℕ × ℕ)
    (restore : σ → σ → σ) (iterations : ℕ) (state0 : σ) :
    (∀ rng1 rng2 : ℕ,
      (minimize_crossings_model σ passF restore iterations state0 rng1).1
        = (minimize_crossings_model σ passF restore iterations state0 rng2).1)
    ∧ ∀ rng : ℕ,
      (minimize_crossings_model σ passF restore iterations state0
          (minimize_crossings_model σ passF restore iterations state0 rng).2).1
        = (minimize_crossings_model σ passF restore iterations state0 rng).1 := by
  constructor
  · intro rng1 rng2
    rfl
  · intro rng
    rfl


/-- `find?` returns the first hit: any other hit is related to it by a
pairwise relation on the list (C5 analysis). -/
theorem find_first_pairwise (R : ℕ → ℕ → Prop) (c : ℕ → Bool) :
    ∀ (l : List ℕ) (a : ℕ), l.Pairwise R → l.find? c = some a →
      ∀ b ∈ l, c b = true → a = b ∨ R a b := by
  intro l
  induction l with
  | nil => intro a _ hf; simp at hf
  | cons x rest ih =>
    intro a hpw hf b hb hcb
    rw [List.pairwise_cons] at hpw
    rw [List.find?_cons] at hf
    rcases hcx : c x with hF | hT
    · rw [hcx] at hf
      simp only at hf
      rcases List.mem_cons.mp hb with hbx | hbr
      · rw [hbx] at hcb
        rw [hcb] at hcx
        cases hcx
      · exact ih a hpw.2 hf b hbr hcb
    · rw [hcx] at hf
      simp only at hf
      have hax : a = x := by
        cases hf
        rfl
      subst hax
      rcases List.mem_cons.mp hb with hbx | hbr
      · exact Or.inl hbx.symm
      · exact Or.inr (hpw.1 b hbr)

/-- In a duplicate-free list the index of the `i`-th element is `i`
(C5 analysis). -/
theorem nodup_indexOf_get (l : List ℕ) (hnd : l.Nodup) (i : ℕ) (hi : i < l.length) :
    List.indexOf l[i] l = i := by
  have hmem : l[i] ∈ l := List.getElem_mem hi
  have hlt := List.indexOf_lt_length.mpr hmem
  have hg := List.getElem_indexOf hlt
  exact (hnd.getElem_inj_iff).mp hg

/-- Transport a pairwise relation along the index order of a duplicate-free
list (C5 analysis). -/
theorem pairwise_indexOf (l : List ℕ) (R : ℕ → ℕ → Prop) (hnd : l.Nodup)
    (hpw : l.Pairwise R) (s t : ℕ) (hs : s ∈ l) (ht : t ∈ l)
    (hidx : List.indexOf s l < List.indexOf t l) : R s t := by
  have hslt := List.indexOf_lt_length.mpr hs
  have htlt := List.indexOf_lt_length.mpr ht
  have hgs := List.getElem_indexOf hslt
  have hgt := List.getElem_indexOf htlt
  have := List.pairwise_iff_getElem.mp hpw _ _ hslt htlt hidx
  rwa [hgs, hgt] at this

/-- An already-started segment keeps its rank through the column insertion
(C5 analysis). -/
theorem insert_col_started (rank : ℕ → ℚ) (started : ℕ → Bool) (s : ℕ)
    (hs : started s = true) :
    ∀ (π : List ℕ) (lo : ℚ), insert_col rank started lo π s = rank s := by
  intro π
  induction π with
  | nil => intro lo; rfl
  | cons x rest ih =>
    intro lo
    rcases hx : started x with hF | hT
    · have hsx : ¬ s = x := by
        intro hc
        rw [hc, hx] at hs
        cases hs
      simp only [insert_col, hx, Bool.false_eq_true, if_false, if_neg hsx]
      exact ih _
    · simp only [insert_col, hx, if_true]
      exact ih _

/-- A segment not in the column keeps its rank through the insertion
(C5 analysis). -/
theorem insert_col_not_mem (rank : ℕ → ℚ) (started : ℕ → Bool) (s : ℕ) :
    ∀ (π : List ℕ) (lo : ℚ), s ∉ π → insert_col rank started lo π s = rank s := by
  intro π
  induction π with
  | nil => intro lo _; rfl
  | cons x rest ih =>
    intro lo hs
    have hsx : ¬ s = x := fun hc => hs (by rw [hc]; simp)
    have hsr : s ∉ rest := fun hc => hs (List.mem_cons_of_mem x hc)
    rcases hx : started x with hF | hT
    · simp only [insert_col, hx, Bool.false_eq_true, if_false, if_neg hsx]
      exact ih _ hsr
    · simp only [insert_col, hx, if_true]
      exact ih _ hsr

/-- The column insertion produces ranks above the running bound and strictly
increasing along the column (C5 analysis). -/
theorem insert_col_spec (rank : ℕ → ℚ) (started : ℕ → Bool) :
    ∀ (π : List ℕ) (lo : ℚ), π.Nodup →
      (∀ p ∈ π, started p = true → lo < rank p) →
      π.Pairwise (fun p q => started p = true → started q = true → rank p < rank q) →
      (∀ b ∈ π, lo < insert_col rank started lo π b)
        ∧ π.Pairwise (fun a b =>
            insert_col rank started lo π a < insert_col rank started lo π b) := by
  intro π
  induction π with
  | nil => intro lo _ _ _; exact ⟨by intro b hb; simp at hb, List.Pairwise.nil⟩
  | cons x rest ih =>
    intro lo hnd hlo hA
    rw [List.pairwise_cons] at hA
    have hndr : rest.Nodup := hnd.of_cons
    have hxr : x ∉ rest := (List.nodup_cons.mp hnd).1
    rcases hx : started x with hF | hT
    · -- new segment: midpoint insertion
      have hFeq : ∀ s, insert_col rank started lo (x :: rest) s
          = if s = x
            then (lo + (match rest.find? started with
              | some p => rank p
              | none => lo + 1)) / 2
            else insert_col rank started
              ((lo + (match rest.find? started with
                | some p => rank p
                | none => lo + 1)) / 2) rest s := by
        intro s
        simp only [insert_col, hx, Bool.false_eq_true, if_false]
      set hi := (match rest.find? started with
        | some p => rank p
        | none => lo + 1) with hhi
      set v := (lo + hi) / 2 with hv
      have hlohi : lo < hi := by
        rcases hf : rest.find? started with _ | p
        · have he : hi = lo + 1 := by rw [hhi, hf]
          rw [he]
          linarith
        · have he : hi = rank p := by rw [hhi, hf]
          rw [he]
          exact hlo p (List.mem_cons_of_mem x (List.mem_of_find?_eq_some hf)) (List.find?_some hf)
      have hlov : lo < v := by rw [hv]; linarith
      have hvhi : v < hi := by rw [hv]; linarith
      have hlo2 : ∀ p ∈ rest, started p = true → v < rank p := by
        intro p hp hsp
        rcases hf : rest.find? started with _ | p0
        · rw [List.find?_eq_none] at hf
          exact absurd hsp (hf p hp)
        · have hhi2 : hi = rank p0 := by rw [hhi, hf]
          have hp0s := List.find?_some hf
          rcases find_first_pairwise _ started rest p0 hA.2 hf p hp hsp with hpe | hR
          · rw [← hpe, ← hhi2]
            exact hvhi
          · have := hR hp0s hsp
            rw [hhi2] at hvhi
            linarith
      obtain ⟨HB, HPW⟩ := ih v hndr hlo2 hA.2
      constructor
      · intro b hb
        rcases List.mem_cons.mp hb with hbx | hbr
        · rw [hFeq b, if_pos hbx]
          exact hlov
        · have hbnx : ¬ b = x := fun hc => hxr (hc ▸ hbr)
          rw [hFeq b, if_neg hbnx]
          exact lt_trans hlov (HB b hbr)
      · rw [List.pairwise_cons]
        constructor
        · intro b hbr
          have hbnx : ¬ b = x := fun hc => hxr (hc ▸ hbr)
          rw [hFeq x, if_pos rfl, hFeq b, if_neg hbnx]
          exact HB b hbr
        · refine List.Pairwise.imp_of_mem ?_ HPW
          intro a b ha hb hab
          have hanx : ¬ a = x := fun hc => hxr (hc ▸ ha)
          have hbnx : ¬ b = x := fun hc => hxr (hc ▸ hb)
          rw [hFeq a, if_neg hanx, hFeq b, if_neg hbnx]
          exact hab
    · -- started segment: keep rank, raise the bound
      have hFeq : ∀ s, insert_col rank started lo (x :: rest) s
          = insert_col rank started (rank x) rest s := by
        intro s
        simp only [insert_col, hx, if_true]
      have hlo2 : ∀ p ∈ rest, started p = true → rank x < rank p := by
        intro p hp hsp
        exact hA.1 p hp hx hsp
      obtain ⟨HB, HPW⟩ := ih (rank x) hndr hlo2 hA.2
      have hFx : insert_col rank started (rank x) rest x = rank x :=
        insert_col_not_mem rank started x rest _ hxr
      constructor
      · intro b hb
        rcases List.mem_cons.mp hb with hbx | hbr
        · rw [hFeq b, hbx, hFx]
          exact hlo x (by simp) hx
        · rw [hFeq b]
          exact lt_trans (hlo x (by simp) hx) (HB b hbr)
      · rw [List.pairwise_cons]
        constructor
        · intro b hbr
          rw [hFeq x, hFeq b, hFx]
          exact HB b hbr
        · refine List.Pairwise.imp_of_mem ?_ HPW
          intro a b ha hb hab
          rw [hFeq a, hFeq b]
          exact hab

/-- `started_fn` unfolded (C5 analysis). -/
theorem started_fn_iff (cols : List (List ℕ)) (seg : ℕ → ℕ) (c s : ℕ) :
    started_fn cols seg c s = true ↔ ∃ j < c, s ∈ colSegs cols seg j := by
  simp [started_fn, List.any_eq_true, List.mem_range]

/-- `build_rank` unfolds one step (C5 analysis). -/
theorem build_rank_succ (cols : List (List ℕ)) (seg : ℕ → ℕ) (c : ℕ) (s : ℕ) :
    build_rank cols seg (c + 1) s
      = insert_col (build_rank cols seg c) (started_fn cols seg c)
          (match (colSegs cols seg c).find? (started_fn cols seg c) with
            | some p => build_rank cols seg c p - 1
            | none => 0)
          (colSegs cols seg c) s := rfl

/-- Under the inversion-freeness `prevent_cycles` establishes, the
left-to-right midpoint rank construction orders every processed column
(C5 analysis). -/
theorem build_rank_spec (cols : List (List ℕ)) (seg : ℕ → ℕ)
    (hone : one_per_col cols seg) (hint : seg_interval cols seg)
    (hpni : ∀ j, pair_no_inv cols seg j) :
    ∀ c j, j < c →
      (colSegs cols seg j).Pairwise
        (fun s t => build_rank cols seg c s < build_rank cols seg c t) := by
  intro c
  induction c with
  | zero => intro j hj; exact absurd hj (Nat.not_lt_zero j)
  | succ c ih =>
    intro j hj
    have hA : (colSegs cols seg c).Pairwise
        (fun p q => started_fn cols seg c p = true → started_fn cols seg c q = true →
          build_rank cols seg c p < build_rank cols seg c q) := by
      rcases Nat.eq_zero_or_pos c with hc0 | hcpos
      · subst hc0
        refine List.pairwise_iff_getElem.mpr ?_
        intro i1 i2 h1 h2 h12
        intro hp _
        rw [started_fn_iff] at hp
        obtain ⟨j0, hj0, _⟩ := hp
        omega
      · obtain ⟨c2, rfl⟩ : ∃ c2, c = c2 + 1 := ⟨c - 1, by omega⟩
        refine List.pairwise_iff_getElem.mpr ?_
        intro i1 i2 h1 h2 h12
        intro hp hq
        rw [started_fn_iff] at hp hq
        obtain ⟨jp, hjp, hjpmem⟩ := hp
        obtain ⟨jq, hjq, hjqmem⟩ := hq
        have hp1mem : (colSegs cols seg (c2 + 1))[i1] ∈ colSegs cols seg (c2 + 1) :=
          List.getElem_mem h1
        have hq1mem : (colSegs cols seg (c2 + 1))[i2] ∈ colSegs cols seg (c2 + 1) :=
          List.getElem_mem h2
        have hpc2 : (colSegs cols seg (c2 + 1))[i1] ∈ colSegs cols seg c2 :=
          hint _ jp c2 (c2 + 1) (by omega) (by omega) hjpmem hp1mem
        have hqc2 : (colSegs cols seg (c2 + 1))[i2] ∈ colSegs cols seg c2 :=
          hint _ jq c2 (c2 + 1) (by omega) (by omega) hjqmem hq1mem
        have hidx1 : List.indexOf ((colSegs cols seg (c2 + 1))[i1])
            (colSegs cols seg (c2 + 1)) = i1 :=
          nodup_indexOf_get _ (hone (c2 + 1)) i1 h1
        have hidx2 : List.indexOf ((colSegs cols seg (c2 + 1))[i2])
            (colSegs cols seg (c2 + 1)) = i2 :=
          nodup_indexOf_get _ (hone (c2 + 1)) i2 h2
        have hne : (colSegs cols seg (c2 + 1))[i1] ≠ (colSegs cols seg (c2 + 1))[i2] := by
          intro he
          rw [he] at hidx1
          omega
        rcases lt_trichotomy
            (List.indexOf ((colSegs cols seg (c2 + 1))[i1]) (colSegs cols seg c2))
            (List.indexOf ((colSegs cols seg (c2 + 1))[i2]) (colSegs cols seg c2))
          with hlt | heq | hgt
        · exact pairwise_indexOf (colSegs cols seg c2) _ (hone c2)
            (ih c2 (by omega)) _ _ hpc2 hqc2 hlt
        · exact absurd ((List.indexOf_inj hpc2 hqc2).mp heq) hne
        · have := hpni c2 _ _ hqc2 hpc2 hq1mem hp1mem hgt
          omega
    rcases Nat.lt_succ_iff_lt_or_eq.mp hj with hlt | heq
    · have hstable : ∀ x ∈ colSegs cols seg j,
          build_rank cols seg (c + 1) x = build_rank cols seg c x := by
        intro x hx
        rw [build_rank_succ]
        exact insert_col_started _ _ x ((started_fn_iff cols seg c x).mpr ⟨j, hlt, hx⟩) _ _
      refine List.Pairwise.imp_of_mem ?_ (ih j hlt)
      intro a b ha hb hab
      rw [hstable a ha, hstable b hb]
      exact hab
    · subst heq
      have key : ∀ lo0 : ℚ,
          (∀ x, build_rank cols seg (j + 1) x
            = insert_col (build_rank cols seg j) (started_fn cols seg j) lo0
                (colSegs cols seg j) x) →
          (∀ p ∈ colSegs cols seg j, started_fn cols seg j p = true →
            lo0 < build_rank cols seg j p) →
          (colSegs cols seg j).Pairwise
            (fun s t => build_rank cols seg (j + 1) s < build_rank cols seg (j + 1) t) := by
        intro lo0 hbr2 hlo
        obtain ⟨_, HPW⟩ := insert_col_spec (build_rank cols seg j) (started_fn cols seg j)
          (colSegs cols seg j) lo0 (hone j) hlo hA
        refine List.Pairwise.imp_of_mem ?_ HPW
        intro a b _ _ hab
        rw [hbr2 a, hbr2 b]
        exact hab
      rcases hf : (colSegs cols seg j).find? (started_fn cols seg j) with _ | p0
      · refine key 0 (fun x => by rw [build_rank_succ, hf]) ?_
        intro p hp hsp
        rw [List.find?_eq_none] at hf
        exact absurd hsp (hf p hp)
      · refine key (build_rank cols seg j p0 - 1) (fun x => by rw [build_rank_succ, hf]) ?_
        intro p hp hsp
        have hst0 := List.find?_some hf
        rcases find_first_pairwise _ (started_fn cols seg j) (colSegs cols seg j) p0 hA hf
            p hp hsp with he | hR
        · rw [← he]
          linarith
        · have := hR hst0 hsp
          linarith

set_option maxHeartbeats 1000000 in
/-- Every segment-graph edge increases the constructed rank when no
adjacent-column inversion remains (C5 analysis). -/
theorem build_rank_sg_edges (cols : List (List ℕ)) (seg : ℕ → ℕ)
    (hone : one_per_col cols seg) (hint : seg_interval cols seg)
    (hpni : ∀ j, pair_no_inv cols seg j)
    (e : ℕ × ℕ) (he : e ∈ sg_edges cols seg) :
    build_rank cols seg cols.length e.1 < build_rank cols seg cols.length e.2 := by
  unfold sg_edges at he
  rw [List.mem_flatten] at he
  obtain ⟨l, hl, hel⟩ := he
  rw [List.mem_map] at hl
  obtain ⟨col, hcol, rfl⟩ := hl
  rw [List.mem_map] at hel
  obtain ⟨p, hp, rfl⟩ := hel
  rw [List.mem_iff_getElem] at hcol
  obtain ⟨j, hj, hcolj⟩ := hcol
  rw [List.mem_iff_getElem] at hp
  obtain ⟨i, hilen, hpi⟩ := hp
  have hi1 : i + 1 < col.length := by
    rw [List.length_zip, List.length_tail] at hilen
    omega
  have hti : i < col.tail.length := by
    rw [List.length_tail]
    omega
  have hci : i < col.length := by omega
  have hpair : (col.zip col.tail)[i] = (col[i], col.tail[i]) := List.getElem_zip
  have htail : col.tail[i] = col[i + 1] := by rw [List.getElem_tail]
  have hp1 : p.1 = col[i] := by rw [← hpi, hpair]
  have hp2 : p.2 = col[i + 1] := by rw [← hpi, hpair, htail]
  have hgd : cols.getD j [] = col := by
    rw [List.getD_eq_getElem cols [] hj, hcolj]
  have hpw := build_rank_spec cols seg hone hint hpni cols.length j hj
  simp only [colSegs] at hpw
  rw [hgd] at hpw
  have hkey := List.pairwise_iff_getElem.mp hpw i (i + 1)
    (by rw [List.length_map]; omega) (by rw [List.length_map]; omega) (by omega)
  rw [List.getElem_map, List.getElem_map] at hkey
  show build_rank cols seg cols.length (seg p.1) < build_rank cols seg cols.length (seg p.2)
  rw [hp1, hp2]
  exact hkey

/-- An edge-increasing potential rules out returning chains (C5 analysis). -/
theorem chain_rank_lt (es : List (ℕ × ℕ)) (rank : ℕ → ℚ)
    (hr : ∀ e ∈ es, rank e.1 < rank e.2) :
    ∀ (p : List ℕ) (x : ℕ), List.Chain (fun a b => (a, b) ∈ es) x p → p ≠ [] →
      rank x < rank (p.getLastD x) := by
  intro p
  induction p with
  | nil => intro x _ hne; exact absurd rfl hne
  | cons b rest ih =>
    intro x hch _
    rw [List.chain_cons] at hch
    have hxb : rank x < rank b := hr (x, b) hch.1
    rw [List.getLastD_cons]
    cases rest with
    | nil => simpa using hxb
    | cons r0 rtail => exact lt_trans hxb (ih b hch.2 (by simp))

/-- Value replacement in a list: the replaced value disappears (C5 analysis). -/
theorem replace_not_mem_s (l : List ℕ) (s f : ℕ) (hsf : s ≠ f) :
    s ∉ l.map (fun x => if x = s then f else x) := by
  intro h
  rw [List.mem_map] at h
  obtain ⟨x, _, hx⟩ := h
  by_cases hxs : x = s
  · rw [if_pos hxs] at hx
    exact hsf hx.symm
  · rw [if_neg hxs] at hx
    exact hxs hx

/-- Value replacement: the fresh value appears exactly where the replaced
value did (C5 analysis). -/
theorem replace_mem_f (l : List ℕ) (s f : ℕ) (hf : f ∉ l) :
    f ∈ l.map (fun x => if x = s then f else x) ↔ s ∈ l := by
  constructor
  · intro h
    rw [List.mem_map] at h
    obtain ⟨x, hxl, hx⟩ := h
    by_cases hxs : x = s
    · rw [← hxs]
      exact hxl
    · rw [if_neg hxs] at hx
      rw [hx] at hxl
      exact absurd hxl hf
  · intro h
    rw [List.mem_map]
    exact ⟨s, h, by rw [if_pos rfl]⟩

/-- Value replacement: other values are untouched (C5 analysis). -/
theorem replace_mem_other (l : List ℕ) (s f a : ℕ) (has : a ≠ s) (haf : a ≠ f) :
    a ∈ l.map (fun x => if x = s then f else x) ↔ a ∈ l := by
  constructor
  · intro h
    rw [List.mem_map] at h
    obtain ⟨x, hxl, hx⟩ := h
    by_cases hxs : x = s
    · rw [if_pos hxs] at hx
      exact absurd hx.symm haf
    · rw [if_neg hxs] at hx
      rw [← hx]
      exact hxl
  · intro h
    rw [List.mem_map]
    exact ⟨a, h, by rw [if_neg has]⟩

/-- Value replacement preserves the index of other values (C5 analysis). -/
theorem replace_indexOf_other (s f a : ℕ) (has : a ≠ s) (haf : a ≠ f) :
    ∀ l : List ℕ,
      List.indexOf a (l.map (fun x => if x = s then f else x)) = List.indexOf a l
  | [] => rfl
  | x :: rest => by
    rw [List.map_cons]
    by_cases hxs : x = s
    · rw [if_pos hxs, List.indexOf_cons_ne _ (fun h => haf h.symm),
        List.indexOf_cons_ne _ (fun h => has (h.symm.trans hxs)),
        replace_indexOf_other s f a has haf rest]
    · by_cases hax : a = x
      · rw [if_neg hxs, ← hax, List.indexOf_cons_self, List.indexOf_cons_self]
      · rw [if_neg hxs, List.indexOf_cons_ne _ (fun h => hax h.symm),
          List.indexOf_cons_ne _ (fun h => hax h.symm),
          replace_indexOf_other s f a has haf rest]

/-- Value replacement: the fresh value inherits the replaced value's index
(C5 analysis). -/
theorem replace_indexOf_f (s f : ℕ) (hsf : s ≠ f) :
    ∀ l : List ℕ, f ∉ l →
      List.indexOf f (l.map (fun x => if x = s then f else x)) = List.indexOf s l
  | [], _ => rfl
  | x :: rest, hf => by
    have hfx : f ≠ x := fun h => hf (by rw [h]; exact List.mem_cons_self x rest)
    have hfr : f ∉ rest := fun h => hf (List.mem_cons_of_mem x h)
    rw [List.map_cons]
    by_cases hxs : x = s
    · rw [if_pos hxs, hxs, List.indexOf_cons_self, List.indexOf_cons_self]
    · rw [if_neg hxs, List.indexOf_cons_ne _ hfx.symm,
        List.indexOf_cons_ne _ hxs,
        replace_indexOf_f s f hsf rest hfr]

/-- Value replacement preserves duplicate-freeness (C5 analysis). -/
theorem replace_nodup (s f : ℕ) :
    ∀ l : List ℕ, f ∉ l → l.Nodup → (l.map (fun x => if x = s then f else x)).Nodup
  | [], _, _ => by simp
  | x :: rest, hf, hnd => by
    rw [List.map_cons, List.nodup_cons]
    have hfr : f ∉ rest := fun h => hf (List.mem_cons_of_mem x h)
    have hxr : x ∉ rest := (List.nodup_cons.mp hnd).1
    have hndr : rest.Nodup := (List.nodup_cons.mp hnd).2
    refine ⟨?_, replace_nodup s f rest hfr hndr⟩
    by_cases hxs : x = s
    · rw [if_pos hxs]
      rw [replace_mem_f rest s f hfr, ← hxs]
      exact hxr
    · have hxf : x ≠ f := fun h => hf (by rw [← h]; exact List.mem_cons_self x rest)
      rw [if_neg hxs, replace_mem_other rest s f x hxs hxf]
      exact hxr

/-- Freshness bound on a column's segment list (C5 analysis). -/
theorem colSegs_lt_fresh (cols : List (List ℕ)) (seg : ℕ → ℕ) (f : ℕ)
    (hfresh : ∀ v ∈ cols.flatten, seg v < f) (j : ℕ) :
    ∀ x ∈ colSegs cols seg j, x < f := by
  intro x hx
  simp only [colSegs] at hx
  rw [List.mem_map] at hx
  obtain ⟨w, hw, rfl⟩ := hx
  refine hfresh w ?_
  rcases Nat.lt_or_ge j cols.length with hj | hj
  · rw [List.getD_eq_getElem cols [] hj] at hw
    rw [List.mem_flatten]
    exact ⟨cols[j], List.getElem_mem hj, hw⟩
  · rw [List.getD_eq_default cols [] hj] at hw
    exact absurd hw (List.not_mem_nil w)

/-- Columns left of the split column lie outside the moved node suffix
(C5 analysis). -/
theorem flat_disjoint (cols : List (List ℕ)) (hflat : cols.flatten.Nodup)
    (k j : ℕ) (hj : j < k) (w : ℕ) (hw : w ∈ cols.getD j []) :
    w ∉ (cols.drop k).flatten := by
  rcases Nat.lt_or_ge j cols.length with hjl | hjl
  · rw [List.getD_eq_getElem cols [] hjl] at hw
    have htake : w ∈ (cols.take k).flatten := by
      rw [List.mem_flatten]
      refine ⟨cols[j], ?_, hw⟩
      have hjt : j < (cols.take k).length := by
        rw [List.length_take]
        omega
      have hx : (cols.take k)[j] = cols[j] :=
        List.getElem_take cols
      rw [← hx]
      exact List.getElem_mem _
    have hsplit : cols.flatten = (cols.take k).flatten ++ (cols.drop k).flatten := by
      rw [← List.flatten_append, List.take_append_drop]
    rw [hsplit] at hflat
    exact (List.nodup_append.mp hflat).2.2 htake
  · rw [List.getD_eq_default cols [] hjl] at hw
    exact absurd hw (List.not_mem_nil w)

/-- A column at or after the split column lies inside the moved node suffix
(C5 analysis). -/
theorem mem_drop_flatten (cols : List (List ℕ)) (k j : ℕ) (hk : k ≤ j) (w : ℕ)
    (hw : w ∈ cols.getD j []) : w ∈ (cols.drop k).flatten := by
  rcases Nat.lt_or_ge j cols.length with hjl | hjl
  · rw [List.getD_eq_getElem cols [] hjl] at hw
    rw [List.mem_flatten]
    refine ⟨cols[j], ?_, hw⟩
    have hjd : j - k < (cols.drop k).length := by
      rw [List.length_drop]
      omega
    have hx : (cols.drop k)[j - k] = cols[j] := by
      rw [List.getElem_drop]
      congr 1
      omega
    rw [← hx]
    exact List.getElem_mem _
  · rw [List.getD_eq_default cols [] hjl] at hw
    exact absurd hw (List.not_mem_nil w)

/-- Splitting does not touch columns before the split column (C5 analysis). -/
theorem colSegs_split_lt (cols : List (List ℕ)) (seg : ℕ → ℕ) (k s f j : ℕ)
    (hflat : cols.flatten.Nodup) (hj : j < k) :
    colSegs cols (seg_split_id cols seg k s f) j = colSegs cols seg j := by
  simp only [colSegs]
  refine List.map_congr_left ?_
  intro w hw
  simp only [seg_split_id]
  rw [if_neg]
  intro hc
  exact flat_disjoint cols hflat k j hj w hw hc.2

/-- Splitting maps columns at or after the split column through the value
replacement (C5 analysis). -/
theorem colSegs_split_ge (cols : List (List ℕ)) (seg : ℕ → ℕ) (k s f j : ℕ)
    (hj : k ≤ j) :
    colSegs cols (seg_split_id cols seg k s f) j
      = (colSegs cols seg j).map (fun x => if x = s then f else x) := by
  simp only [colSegs, List.map_map]
  refine List.map_congr_left ?_
  intro w hw
  simp only [Function.comp, seg_split_id]
  have hwd : w ∈ (cols.drop k).flatten := mem_drop_flatten cols k j hj w hw
  by_cases hws : seg w = s
  · rw [if_pos ⟨hws, hwd⟩, if_pos hws]
  · rw [if_neg (fun hc => hws hc.1), if_neg hws]

/-- Membership in a prefix via the index (C5 analysis). -/
theorem mem_take_of_indexOf (l : List ℕ) (n : ℕ) (b : ℕ) (hb : b ∈ l)
    (hidx : List.indexOf b l < n) : b ∈ l.take n := by
  have hlt := List.indexOf_lt_length.mpr hb
  have hg := List.getElem_indexOf hlt
  have hbound : List.indexOf b l < (l.take n).length := by
    rw [List.length_take]
    omega
  have he : (l.take n)[List.indexOf b l] = l[List.indexOf b l] :=
    List.getElem_take l
  have hmem := List.getElem_mem hbound
  rw [he, hg] at hmem
  exact hmem

/-- Membership in a suffix via the index (C5 analysis). -/
theorem mem_drop_of_indexOf (l : List ℕ) (n : ℕ) (b : ℕ) (hb : b ∈ l)
    (hidx : n ≤ List.indexOf b l) : b ∈ l.drop n := by
  have hlt := List.indexOf_lt_length.mpr hb
  have hg := List.getElem_indexOf hlt
  have hbound : List.indexOf b l - n < (l.drop n).length := by
    rw [List.length_drop]
    omega
  have he : (l.drop n)[List.indexOf b l - n] = l[List.indexOf b l] := by
    rw [List.getElem_drop]
    congr 1
    omega
  have hmem := List.getElem_mem hbound
  rw [he, hg] at hmem
  exact hmem

/-- Uniform value replacement on both columns preserves the no-inversion
property (C5 analysis). -/
theorem pair_no_inv_replace (A B : List ℕ) (s f : ℕ) (hsf : s ≠ f)
    (hfA : f ∉ A) (hfB : f ∉ B)
    (H : ∀ t1 t2, t1 ∈ A → t2 ∈ A → t1 ∈ B → t2 ∈ B →
      List.indexOf t1 A < List.indexOf t2 A → List.indexOf t1 B < List.indexOf t2 B) :
    ∀ t1 t2, t1 ∈ A.map (fun x => if x = s then f else x) →
      t2 ∈ A.map (fun x => if x = s then f else x) →
      t1 ∈ B.map (fun x => if x = s then f else x) →
      t2 ∈ B.map (fun x => if x = s then f else x) →
      List.indexOf t1 (A.map (fun x => if x = s then f else x))
        < List.indexOf t2 (A.map (fun x => if x = s then f else x)) →
      List.indexOf t1 (B.map (fun x => if x = s then f else x))
        < List.indexOf t2 (B.map (fun x => if x = s then f else x)) := by
  have transport : ∀ (t : ℕ) (L : List ℕ), f ∉ L →
      t ∈ L.map (fun x => if x = s then f else x) →
      (if t = f then s else t) ∈ L ∧
        List.indexOf t (L.map (fun x => if x = s then f else x))
          = List.indexOf (if t = f then s else t) L := by
    intro t L hfL ht
    by_cases htf : t = f
    · rw [if_pos htf]
      subst htf
      exact ⟨(replace_mem_f L s t hfL).mp ht, replace_indexOf_f s t hsf L hfL⟩
    · rw [if_neg htf]
      have hts : t ≠ s := fun hc => by
        rw [hc] at ht
        exact replace_not_mem_s L s f hsf ht
      exact ⟨(replace_mem_other L s f t hts htf).mp ht,
        replace_indexOf_other s f t hts htf L⟩
  intro t1 t2 h1A h2A h1B h2B hidx
  obtain ⟨m1A, e1A⟩ := transport t1 A hfA h1A
  obtain ⟨m2A, e2A⟩ := transport t2 A hfA h2A
  obtain ⟨m1B, e1B⟩ := transport t1 B hfB h1B
  obtain ⟨m2B, e2B⟩ := transport t2 B hfB h2B
  rw [e1A, e2A] at hidx
  rw [e1B, e2B]
  exact H _ _ m1A m2A m1B m2B hidx

/-- One split preserves the outer loop invariant of `prevent_cycles`
(C5 analysis). -/
theorem split_pres (cols : List (List ℕ)) (k s f : ℕ) (seg : ℕ → ℕ)
    (hflat : cols.flatten.Nodup) (hs : s < f)
    (hinv : pc_inv cols k seg f) :
    pc_inv cols k (seg_split_id cols seg k s f) (f + 1) := by
  obtain ⟨hone, hint, hfresh, hpni⟩ := hinv
  have hsf : s ≠ f := by omega
  have hfnotin : ∀ j, f ∉ colSegs cols seg j := by
    intro j h
    have := colSegs_lt_fresh cols seg f hfresh j f h
    omega
  refine ⟨?_, ?_, ?_, ?_⟩
  · intro j
    rcases Nat.lt_or_ge j k with hj | hj
    · rw [colSegs_split_lt cols seg k s f j hflat hj]
      exact hone j
    · rw [colSegs_split_ge cols seg k s f j hj]
      exact replace_nodup s f _ (hfnotin j) (hone j)
  · have hmem : ∀ t j, t ∈ colSegs cols (seg_split_id cols seg k s f) j ↔
        (if t = f then k ≤ j ∧ s ∈ colSegs cols seg j
         else if t = s then j < k ∧ s ∈ colSegs cols seg j
         else t ∈ colSegs cols seg j) := by
      intro t j
      rcases Nat.lt_or_ge j k with hj | hj
      · rw [colSegs_split_lt cols seg k s f j hflat hj]
        by_cases htf : t = f
        · rw [if_pos htf]
          subst htf
          constructor
          · intro h
            exact absurd h (hfnotin j)
          · intro h
            omega
        · rw [if_neg htf]
          by_cases hts : t = s
          · rw [if_pos hts]
            subst hts
            constructor
            · intro h
              exact ⟨hj, h⟩
            · intro h
              exact h.2
          · rw [if_neg hts]
      · rw [colSegs_split_ge cols seg k s f j hj]
        by_cases htf : t = f
        · rw [if_pos htf]
          subst htf
          rw [replace_mem_f _ s t (hfnotin j)]
          constructor
          · intro h
            exact ⟨hj, h⟩
          · intro h
            exact h.2
        · rw [if_neg htf]
          by_cases hts : t = s
          · rw [if_pos hts]
            subst hts
            constructor
            · intro h
              exact absurd h (replace_not_mem_s _ t f hsf)
            · intro h
              omega
          · rw [if_neg hts]
            exact replace_mem_other _ s f t hts htf
    intro t j1 j2 j3 h12 h23 h1 h3
    rw [hmem] at h1 h3
    rw [hmem]
    by_cases htf : t = f
    · rw [if_pos htf] at h1 h3 ⊢
      exact ⟨by omega, hint s j1 j2 j3 h12 h23 h1.2 h3.2⟩
    · rw [if_neg htf] at h1 h3 ⊢
      by_cases hts : t = s
      · rw [if_pos hts] at h1 h3 ⊢
        exact ⟨by omega, hint s j1 j2 j3 h12 h23 h1.2 h3.2⟩
      · rw [if_neg hts] at h1 h3 ⊢
        exact hint t j1 j2 j3 h12 h23 h1 h3
  · intro v hv
    simp only [seg_split_id]
    split_ifs with h
    · omega
    · have := hfresh v hv
      omega
  · intro j hj t1 t2 h1j h2j h1j1 h2j1 hidx
    have hj1 : k ≤ j + 1 := by omega
    rw [colSegs_split_ge cols seg k s f j hj] at h1j h2j hidx
    rw [colSegs_split_ge cols seg k s f (j + 1) hj1] at h1j1 h2j1
    rw [colSegs_split_ge cols seg k s f (j + 1) hj1]
    exact pair_no_inv_replace (colSegs cols seg j) (colSegs cols seg (j + 1)) s f hsf
      (hfnotin j) (hfnotin (j + 1)) (hpni j hj) t1 t2 h1j h2j h1j1 h2j1 hidx

/-- `pc_node_step` written out on a pair state (C5 analysis). -/
theorem pc_node_step_eq (cols : List (List ℕ)) (vtype : ℕ → Bool) (k i v : ℕ)
    (seg : ℕ → ℕ) (f : ℕ) :
    pc_node_step cols vtype k i v (seg, f)
      = (if seg v ∈ colSegs cols seg (k - 1) then
           (if (((colSegs cols seg k).take i).filter
               (fun s => decide (s ∈ (colSegs cols seg (k - 1)).drop
                 (List.indexOf (seg v) (colSegs cols seg (k - 1)) + 1)))).isEmpty then (seg, f)
            else if vtype v then
              (((colSegs cols seg k).take i).filter
                (fun s => decide (s ∈ (colSegs cols seg (k - 1)).drop
                  (List.indexOf (seg v) (colSegs cols seg (k - 1)) + 1)))).foldl
                (fun st2 s => (seg_split_id cols st2.1 k s st2.2, st2.2 + 1)) (seg, f)
            else (seg_split_id cols seg k (seg v) f, f + 1))
         else (seg, f)) := rfl

/-- The border-node split loop preserves the invariant, leaves the earlier
columns alone, and removes exactly the listed segments from the columns at or
after the split column (C5 analysis). -/
theorem foldl_split_spec (cols : List (List ℕ)) (k : ℕ) (hflat : cols.flatten.Nodup) :
    ∀ (L : List ℕ) (seg : ℕ → ℕ) (f : ℕ) (r : (ℕ → ℕ) × ℕ),
      r = L.foldl (fun st2 s => (seg_split_id cols st2.1 k s st2.2, st2.2 + 1)) (seg, f) →
      (∀ x ∈ L, x < f) → pc_inv cols k seg f →
      pc_inv cols k r.1 r.2
        ∧ (∀ j, j < k → colSegs cols r.1 j = colSegs cols seg j)
        ∧ (∀ j, k ≤ j → ∀ a, a < f → a ∉ L →
            ((a ∈ colSegs cols r.1 j ↔ a ∈ colSegs cols seg j)
              ∧ List.indexOf a (colSegs cols r.1 j) = List.indexOf a (colSegs cols seg j)))
        ∧ (∀ j, k ≤ j → ∀ x ∈ L, x ∉ colSegs cols r.1 j)
        ∧ f ≤ r.2 := by
  intro L
  induction L with
  | nil =>
    intro seg f r hr _ hinv
    subst hr
    exact ⟨hinv, fun j _ => rfl, fun j _ a _ _ => ⟨Iff.rfl, rfl⟩,
      fun j _ x hx => absurd hx (List.not_mem_nil x), le_refl f⟩
  | cons s rest ih =>
    intro seg f r hr hL hinv
    rw [List.foldl_cons] at hr
    have hsf : s < f := hL s (List.mem_cons_self s rest)
    have hinv1 : pc_inv cols k (seg_split_id cols seg k s f) (f + 1) :=
      split_pres cols k s f seg hflat hsf hinv
    have hL1 : ∀ x ∈ rest, x < f + 1 := by
      intro x hx
      have := hL x (List.mem_cons_of_mem s hx)
      omega
    obtain ⟨R1, R2, R3, R4, R5⟩ := ih (seg_split_id cols seg k s f) (f + 1) r hr hL1 hinv1
    have hsnf : s ≠ f := by omega
    refine ⟨R1, ?_, ?_, ?_, by omega⟩
    · intro j hj
      rw [R2 j hj, colSegs_split_lt cols seg k s f j hflat hj]
    · intro j hj a haf hamem
      have has : a ≠ s := fun hc => hamem (by rw [hc]; exact List.mem_cons_self s rest)
      have harest : a ∉ rest := fun hc => hamem (List.mem_cons_of_mem s hc)
      have haf2 : a ≠ f := by omega
      obtain ⟨T1, T2⟩ := R3 j hj a (by omega) harest
      rw [colSegs_split_ge cols seg k s f j hj] at T1 T2
      exact ⟨T1.trans (replace_mem_other _ s f a has haf2),
        T2.trans (replace_indexOf_other s f a has haf2 _)⟩
    · intro j hj x hx
      rcases List.mem_cons.mp hx with hxs | hxr
      · subst hxs
        by_cases hsrest : x ∈ rest
        · exact R4 j hj x hsrest
        · intro hmem
          obtain ⟨T1, _⟩ := R3 j hj x (by omega) hsrest
          rw [colSegs_split_ge cols seg k x f j hj] at T1
          exact replace_not_mem_s _ x f hsnf (T1.mp hmem)
      · exact R4 j hj x hxr

/-- One step of the inner node loop preserves the invariant and extends the
partial no-inversion property by one column position (C5 analysis). -/
theorem pc_node_step_spec (cols : List (List ℕ)) (vtype : ℕ → Bool) (k : ℕ)
    (hflat : cols.flatten.Nodup) (hk : 1 ≤ k)
    (i0 : ℕ) (seg : ℕ → ℕ) (f : ℕ)
    (hcol : i0 < (cols.getD k []).length)
    (hinv : pc_inv cols k seg f)
    (hpart : pc_partial cols seg k i0) :
    ∀ r, r = pc_node_step cols vtype k i0 ((cols.getD k [])[i0]) (seg, f) →
      pc_inv cols k r.1 r.2 ∧ pc_partial cols r.1 k (i0 + 1) := by
  intro r hr
  set v := ((cols.getD k [])[i0] : ℕ) with hv
  rw [pc_node_step_eq] at hr
  obtain ⟨hone, hint, hfresh, hpni⟩ := hinv
  have hS1len : i0 < (colSegs cols seg k).length := by
    simp only [colSegs, List.length_map]
    exact hcol
  have hS1get : (colSegs cols seg k)[i0] = seg v := by
    simp only [colSegs]
    rw [List.getElem_map]
  have hvmem : seg v ∈ colSegs cols seg k := by
    rw [← hS1get]
    exact List.getElem_mem _
  have hvidx : List.indexOf (seg v) (colSegs cols seg k) = i0 := by
    rw [← hS1get]
    exact nodup_indexOf_get _ (hone k) i0 hS1len
  by_cases hm : seg v ∈ colSegs cols seg (k - 1)
  · rw [if_pos hm] at hr
    set CS := ((colSegs cols seg k).take i0).filter
      (fun s => decide (s ∈ (colSegs cols seg (k - 1)).drop
        (List.indexOf (seg v) (colSegs cols seg (k - 1)) + 1))) with hCS
    by_cases hemp : CS.isEmpty = true
    · rw [if_pos hemp] at hr
      subst hr
      refine ⟨⟨hone, hint, hfresh, hpni⟩, ?_⟩
      show pc_partial cols seg k (i0 + 1)
      intro a b haj2 hbj2 haj1 hbj1 haidx hba
      rcases Nat.lt_or_ge (List.indexOf a (colSegs cols seg k)) i0 with hlt | hge
      · exact hpart a b haj2 hbj2 haj1 hbj1 hlt hba
      · have haeq : List.indexOf a (colSegs cols seg k) = i0 := by omega
        have hasv : a = seg v := (List.indexOf_inj haj1 hvmem).mp (by rw [haeq, hvidx])
        by_contra hcon
        push_neg at hcon
        have hbtake : b ∈ (colSegs cols seg k).take i0 :=
          mem_take_of_indexOf _ i0 b hbj1 (by omega)
        have hbdrop : b ∈ (colSegs cols seg (k - 1)).drop
            (List.indexOf (seg v) (colSegs cols seg (k - 1)) + 1) := by
          refine mem_drop_of_indexOf _ _ b hbj2 ?_
          rw [← hasv]
          omega
        have hbmem : b ∈ CS := by
          rw [hCS]
          exact List.mem_filter.mpr ⟨hbtake, by simp only [decide_eq_true_eq]; exact hbdrop⟩
        rw [List.isEmpty_iff] at hemp
        rw [hemp] at hbmem
        exact List.not_mem_nil b hbmem
    · rw [if_neg hemp] at hr
      have hCSf : ∀ x ∈ CS, x < f := by
        intro x hx
        rw [hCS] at hx
        have hx1 : x ∈ colSegs cols seg k :=
          (List.take_sublist _ _).mem (List.mem_filter.mp hx).1
        exact colSegs_lt_fresh cols seg f hfresh k x hx1
      rcases hvt : vtype v with _ | _
      · rw [hvt] at hr
        rw [if_neg Bool.false_ne_true] at hr
        subst hr
        have hsvf : seg v < f := colSegs_lt_fresh cols seg f hfresh k _ hvmem
        refine ⟨split_pres cols k (seg v) f seg hflat hsvf ⟨hone, hint, hfresh, hpni⟩, ?_⟩
        show pc_partial cols (seg_split_id cols seg k (seg v) f) k (i0 + 1)
        intro a b haj2 hbj2 haj1 hbj1 haidx hba
        have hS2eq : colSegs cols (seg_split_id cols seg k (seg v) f) (k - 1)
            = colSegs cols seg (k - 1) :=
          colSegs_split_lt cols seg k (seg v) f (k - 1) hflat (by omega)
        have hS1eq : colSegs cols (seg_split_id cols seg k (seg v) f) k
            = (colSegs cols seg k).map (fun x => if x = seg v then f else x) :=
          colSegs_split_ge cols seg k (seg v) f k (le_refl k)
        rw [hS2eq] at haj2 hbj2
        rw [hS1eq] at haj1 hbj1 haidx hba
        rw [hS2eq]
        have haf : a < f := colSegs_lt_fresh cols seg f hfresh (k - 1) a haj2
        have hbf : b < f := colSegs_lt_fresh cols seg f hfresh (k - 1) b hbj2
        have hanf : a ≠ f := by omega
        have hbnf : b ≠ f := by omega
        have hasv : a ≠ seg v := by
          intro hc
          rw [hc] at haj1
          exact replace_not_mem_s _ (seg v) f (by omega) haj1
        have hbsv : b ≠ seg v := by
          intro hc
          rw [hc] at hbj1
          exact replace_not_mem_s _ (seg v) f (by omega) hbj1
        have haold : a ∈ colSegs cols seg k :=
          (replace_mem_other _ _ f a hasv hanf).mp haj1
        have hbold : b ∈ colSegs cols seg k :=
          (replace_mem_other _ _ f b hbsv hbnf).mp hbj1
        rw [replace_indexOf_other (seg v) f a hasv hanf] at haidx hba
        rw [replace_indexOf_other (seg v) f b hbsv hbnf] at hba
        have haidx2 : List.indexOf a (colSegs cols seg k) < i0 := by
          rcases Nat.lt_or_ge (List.indexOf a (colSegs cols seg k)) i0 with h | h
          · exact h
          · exfalso
            have heq : List.indexOf a (colSegs cols seg k) = i0 := by omega
            exact hasv ((List.indexOf_inj haold hvmem).mp (by rw [heq, hvidx]))
        exact hpart a b haj2 hbj2 haold hbold haidx2 hba
      · rw [hvt] at hr
        rw [if_pos rfl] at hr
        obtain ⟨R1, R2, R3, R4, R5⟩ :=
          foldl_split_spec cols k hflat CS seg f r hr hCSf ⟨hone, hint, hfresh, hpni⟩
        refine ⟨R1, ?_⟩
        intro a b haj2 hbj2 haj1 hbj1 haidx hba
        have hS2eq : colSegs cols r.1 (k - 1) = colSegs cols seg (k - 1) :=
          R2 (k - 1) (by omega)
        rw [hS2eq] at haj2 hbj2
        rw [hS2eq]
        have haf : a < f := colSegs_lt_fresh cols seg f hfresh (k - 1) a haj2
        have hbf : b < f := colSegs_lt_fresh cols seg f hfresh (k - 1) b hbj2
        have haCS : a ∉ CS := fun hc => R4 k (le_refl k) a hc haj1
        have hbCS : b ∉ CS := fun hc => R4 k (le_refl k) b hc hbj1
        obtain ⟨Ta, Ia⟩ := R3 k (le_refl k) a haf haCS
        obtain ⟨Tb, Ib⟩ := R3 k (le_refl k) b hbf hbCS
        have haold := Ta.mp haj1
        have hbold := Tb.mp hbj1
        rw [Ia] at haidx hba
        rw [Ib] at hba
        rcases Nat.lt_or_ge (List.indexOf a (colSegs cols seg k)) i0 with hlt | hge
        · exact hpart a b haj2 hbj2 haold hbold hlt hba
        · have haeq : List.indexOf a (colSegs cols seg k) = i0 := by omega
          have hasv : a = seg v := (List.indexOf_inj haold hvmem).mp (by rw [haeq, hvidx])
          by_contra hcon
          push_neg at hcon
          have hbtake : b ∈ (colSegs cols seg k).take i0 :=
            mem_take_of_indexOf _ i0 b hbold (by omega)
          have hbdrop : b ∈ (colSegs cols seg (k - 1)).drop
              (List.indexOf (seg v) (colSegs cols seg (k - 1)) + 1) := by
            refine mem_drop_of_indexOf _ _ b hbj2 ?_
            rw [← hasv]
            omega
          have hbmem : b ∈ CS := by
            rw [hCS]
            exact List.mem_filter.mpr ⟨hbtake, by simp only [decide_eq_true_eq]; exact hbdrop⟩
          exact hbCS hbmem
  · rw [if_neg hm] at hr
    subst hr
    refine ⟨⟨hone, hint, hfresh, hpni⟩, ?_⟩
    show pc_partial cols seg k (i0 + 1)
    intro a b haj2 hbj2 haj1 hbj1 haidx hba
    rcases Nat.lt_or_ge (List.indexOf a (colSegs cols seg k)) i0 with hlt | hge
    · exact hpart a b haj2 hbj2 haj1 hbj1 hlt hba
    · exfalso
      have haeq : List.indexOf a (colSegs cols seg k) = i0 := by omega
      have hasv : a = seg v := (List.indexOf_inj haj1 hvmem).mp (by rw [haeq, hvidx])
      rw [hasv] at haj2
      exact hm haj2

/-- The inner node loop over one column pair turns the invariant at `k` into
the invariant at `k - 1` (C5 analysis). -/
theorem pc_nodes_spec (cols : List (List ℕ)) (vtype : ℕ → Bool) (k : ℕ)
    (hflat : cols.flatten.Nodup) (hk : 1 ≤ k) :
    ∀ (m i0 : ℕ) (seg : ℕ → ℕ) (f : ℕ),
      m = (cols.getD k []).length - i0 →
      pc_inv cols k seg f → pc_partial cols seg k i0 →
      ∀ r, r = pc_nodes cols vtype k (((cols.getD k []).enum).drop i0) (seg, f) →
        pc_inv cols (k - 1) r.1 r.2 := by
  intro m
  induction m with
  | zero =>
    intro i0 seg f hm hinv hpart r hr
    have hlen : (cols.getD k []).length ≤ i0 := by omega
    have hdrop : ((cols.getD k []).enum).drop i0 = [] := by
      apply List.drop_eq_nil_of_le
      rw [List.enum_length]
      exact hlen
    rw [hdrop] at hr
    have hr2 : r = (seg, f) := hr
    subst hr2
    obtain ⟨hone, hint, hfresh, hpni⟩ := hinv
    refine ⟨hone, hint, hfresh, ?_⟩
    intro j hj
    rcases Nat.lt_or_ge j k with hjk | hjk
    · have hjeq : j = k - 1 := by omega
      subst hjeq
      show pair_no_inv cols seg (k - 1)
      intro s t hsj htj hsj1 htj1 hidx
      have hk1 : k - 1 + 1 = k := by omega
      rw [hk1] at hsj1 htj1
      rw [hk1]
      have hlen2 : (colSegs cols seg k).length = (cols.getD k []).length := by
        simp only [colSegs, List.length_map]
      rcases lt_trichotomy (List.indexOf s (colSegs cols seg k))
          (List.indexOf t (colSegs cols seg k)) with h | h | h
      · exact h
      · exfalso
        have hst := (List.indexOf_inj hsj1 htj1).mp h
        rw [hst] at hidx
        omega
      · exfalso
        have hsl := List.indexOf_lt_length.mpr hsj1
        have hsle := hpart s t hsj htj hsj1 htj1 (by omega) h
        omega
    · exact hpni j hjk
  | succ m ih =>
    intro i0 seg f hm hinv hpart r hr
    rcases Nat.lt_or_ge i0 (cols.getD k []).length with hi0 | hi0
    · have hdrop : ((cols.getD k []).enum).drop i0
          = (i0, (cols.getD k [])[i0]) :: ((cols.getD k []).enum).drop (i0 + 1) := by
        rw [List.drop_eq_getElem_cons (by rw [List.enum_length]; exact hi0)]
        congr 1
        exact List.getElem_enum _ _ _
      rw [hdrop] at hr
      obtain ⟨hinv2, hpart2⟩ := pc_node_step_spec cols vtype k hflat hk i0 seg f hi0 hinv hpart
        (pc_node_step cols vtype k i0 ((cols.getD k [])[i0]) (seg, f)) rfl
      exact ih (i0 + 1)
        (pc_node_step cols vtype k i0 ((cols.getD k [])[i0]) (seg, f)).1
        (pc_node_step cols vtype k i0 ((cols.getD k [])[i0]) (seg, f)).2
        (by omega) hinv2 hpart2 r hr
    · exfalso
      omega

/-- The outer loop of `prevent_cycles` establishes the no-inversion property
on every adjacent column pair (C5 analysis). -/
theorem pc_outer_spec (cols : List (List ℕ)) (vtype : ℕ → Bool)
    (hflat : cols.flatten.Nodup) :
    ∀ (k : ℕ) (seg : ℕ → ℕ) (f : ℕ), pc_inv cols k seg f →
      ∀ r, r = pc_outer cols vtype k (seg, f) → pc_inv cols 0 r.1 r.2 := by
  intro k
  induction k with
  | zero =>
    intro seg f hinv r hr
    subst hr
    exact hinv
  | succ k ih =>
    intro seg f hinv r hr
    have hpart0 : pc_partial cols seg (k + 1) 0 := by
      intro a b _ _ _ _ h _
      exact absurd h (Nat.not_lt_zero _)
    have hstep := pc_nodes_spec cols vtype (k + 1) hflat (by omega)
      ((cols.getD (k + 1) []).length) 0 seg f (by omega) hinv hpart0
      (pc_nodes cols vtype (k + 1) ((cols.getD (k + 1) []).enum) (seg, f))
      (by rw [List.drop_zero])
    exact ih (pc_nodes cols vtype (k + 1) ((cols.getD (k + 1) []).enum) (seg, f)).1
      (pc_nodes cols vtype (k + 1) ((cols.getD (k + 1) []).enum) (seg, f)).2 hstep r hr

/-- Helper for the C5 witness: `cols_ex5` has only two columns. -/
theorem colSegs_ex5_ge2 (seg : ℕ → ℕ) (n : ℕ) : colSegs cols_ex5 seg (n + 2) = [] := by
  simp only [colSegs, cols_ex5]
  rw [List.getD_eq_default _ [] (by show 2 ≤ n + 2; omega)]
  rfl

/-- C5: for every input column structure (columns listing distinct nodes,
each segment holding one node per column over an interval of columns, and a
fresh id counter above all segment ids), after `prevent_cycles` has run the
segment-level graph built by adding an edge between the segments of every
vertically adjacent node pair in every column admits a strictly
edge-increasing rank, hence is acyclic: no chain of segment edges returns to
its starting segment, so the topological sort in `sort_linear_segments`
succeeds. -/
theorem prevent_cycles_acyclic (cols : List (List ℕ)) (vtype : ℕ → Bool)
    (seg0 : ℕ → ℕ) (fresh0 : ℕ)
    (hflat : cols.flatten.Nodup)
    (hone : one_per_col cols seg0)
    (hint : seg_interval cols seg0)
    (hfresh : ∀ v ∈ cols.flatten, seg0 v < fresh0) :
    ∃ rank : ℕ → ℚ,
      (∀ e ∈ sg_edges cols (prevent_cycles_model cols vtype seg0 fresh0).1,
        rank e.1 < rank e.2)
      ∧ ∀ (x : ℕ) (p : List ℕ), p ≠ [] →
          List.Chain
            (fun a b =>
              (a, b) ∈ sg_edges cols (prevent_cycles_model cols vtype seg0 fresh0).1)
            x p →
          p.getLastD x ≠ x := by
  have hinv0 : pc_inv cols (cols.length - 1) seg0 fresh0 := by
    refine ⟨hone, hint, hfresh, ?_⟩
    intro j hj s t _ _ hs1 _ _
    exfalso
    have hempty : colSegs cols seg0 (j + 1) = [] := by
      simp only [colSegs]
      rw [List.getD_eq_default cols [] (by omega)]
      rfl
    rw [hempty] at hs1
    exact List.not_mem_nil s hs1
  have hfinal := pc_outer_spec cols vtype hflat (cols.length - 1) seg0 fresh0 hinv0
    (prevent_cycles_model cols vtype seg0 fresh0) rfl
  obtain ⟨hone2, hint2, _, hpni2⟩ := hfinal
  have hedge : ∀ e ∈ sg_edges cols (prevent_cycles_model cols vtype seg0 fresh0).1,
      build_rank cols (prevent_cycles_model cols vtype seg0 fresh0).1 cols.length e.1
        < build_rank cols (prevent_cycles_model cols vtype seg0 fresh0).1 cols.length e.2 :=
    fun e he => build_rank_sg_edges cols _ hone2 hint2 (fun j => hpni2 j (Nat.zero_le j)) e he
  refine ⟨build_rank cols (prevent_cycles_model cols vtype seg0 fresh0).1 cols.length,
    hedge, ?_⟩
  intro x p hp hch hlast
  have hlt := chain_rank_lt _ _ hedge p x hch hp
  rw [hlast] at hlt
  exact lt_irrefl _ hlt

/-- Witness for C5 at a genuinely cyclic two-column instance (segment 10 is
above segment 11 in the first column and below it in the second). -/
theorem prevent_cycles_acyclic_witness :
    cols_ex5.flatten.Nodup
      ∧ one_per_col cols_ex5 seg_ex5
      ∧ seg_interval cols_ex5 seg_ex5
      ∧ (∀ v ∈ cols_ex5.flatten, seg_ex5 v < 12)
      ∧ ∃ rank : ℕ → ℚ,
          (∀ e ∈ sg_edges cols_ex5
              (prevent_cycles_model cols_ex5 (fun _ => false) seg_ex5 12).1,
            rank e.1 < rank e.2)
          ∧ ∀ (x : ℕ) (p : List ℕ), p ≠ [] →
              List.Chain
                (fun a b => (a, b) ∈ sg_edges cols_ex5
                  (prevent_cycles_model cols_ex5 (fun _ => false) seg_ex5 12).1)
                x p →
              p.getLastD x ≠ x := by
  have hA : cols_ex5.flatten.Nodup := by decide
  have hB : one_per_col cols_ex5 seg_ex5 := by
    intro j
    rcases j with _ | j1
    · decide
    · rcases j1 with _ | n
      · decide
      · rw [colSegs_ex5_ge2]
        exact List.nodup_nil
  have hC : seg_interval cols_ex5 seg_ex5 := by
    intro s j1 j2 j3 h12 h23 h1 h3
    have hb : ∀ n : ℕ, s ∉ colSegs cols_ex5 seg_ex5 (n + 2) := by
      intro n h
      rw [colSegs_ex5_ge2] at h
      exact List.not_mem_nil s h
    have hj1 : j1 < 2 := by
      by_contra hc
      push_neg at hc
      obtain ⟨n, rfl⟩ : ∃ n, j1 = n + 2 := ⟨j1 - 2, by omega⟩
      exact hb n h1
    have hj3 : j3 < 2 := by
      by_contra hc
      push_neg at hc
      obtain ⟨n, rfl⟩ : ∃ n, j3 = n + 2 := ⟨j3 - 2, by omega⟩
      exact hb n h3
    have hj2 : j2 < 2 := by omega
    interval_cases j2
    · have h10 : j1 = 0 := by omega
      rw [h10] at h1
      exact h1
    · rcases Nat.lt_or_ge j1 1 with hj10 | hj11
      · have h10 : j1 = 0 := by omega
        rw [h10] at h1
        have hc0 : colSegs cols_ex5 seg_ex5 0 = [10, 11] := by decide
        rw [hc0] at h1
        fin_cases h1 <;> decide
      · have h11 : j1 = 1 := by omega
        rw [h11] at h1
        exact h1
  have hD : ∀ v ∈ cols_ex5.flatten, seg_ex5 v < 12 := by decide
  exact ⟨hA, hB, hC, hD,
    prevent_cycles_acyclic cols_ex5 (fun _ => false) seg_ex5 12 hA hB hC hD⟩

end NodeArranger
